import Mathlib

/-!
# The doubly linked list of `acdll.c`, embedded in Lean

The list engine of the repository (`src/acdll.c`, `src/acdll.h`) is embedded
shallowly:

* a pointer to a `struct list_entry_s` is an address (`Nat`), `0` is `NULL`;
  the heap of entries is a total map `mem` from addresses to entries, and
  `malloc` hands out the first address never used so far (`brk`);
* an element (`void *data`) is an `Option α`, `none` being `NULL`;
* `unsigned int` counters are natural numbers and `int` values are integers:
  the development is about lists of fewer than `2^31` entries, where no
  conversion between the two changes a value;
* the quotient `x = (float)(posstart+1) / numels` of `list_findpos` is embedded
  twice. In `list_findpos`, and in the functions built on it, it is compared
  exactly (cross-multiplied); with `numels = 0` it is NaN or infinite and
  every comparison of the source is false. In `list_findpos_binary32`,
  `list_insert_at_binary32` and `list_delete_at_binary32` it is the IEEE 754
  binary32 number that the source computes: both operands are rounded to 24
  significant binary digits, to nearest and ties to even, and so is their
  quotient. The two embeddings are the same function on lists of fewer than
  `2^23` entries (`list_findpos_binary32_eq`, `list_ops_binary32_eq`), and
  `list_append` is the same function on every list
  (`list_append_binary32_eq`); from `2^24 + 1` entries on they differ, and
  what the source does there is stated on the binary32 functions;
* loops that follow pointers until they meet another pointer take fuel and
  return `none` when it runs out; counting loops are structural;
* `random()` reads a stream of numbers handed to `list_sort`;
* whether a `malloc` of `list_insert_at` fails is an input (`oom`);
* a file descriptor is a regular file, its bytes and its offset (`stream`);
  `read`, `write` and `lseek` on it do not fail, a `read` at the end of the
  file gets fewer bytes than asked;
* the `uint32_t` fields of the dump (`elemlen`, `totlistlen`, `bufsize`) are
  kept modulo `2^32`; a value that went through `htons` or `htonl` is kept as
  its bytes in memory, most significant first;
* what the dump leaves to the platform is an input (`platform`): the bytes in
  memory of a `uint32_t` and of the timestamp, and `sizeof(size_t)`; so are the
  time of `gettimeofday`, the number of `random()`, the bytes found at an
  element pointer (`peek`) and the pointer to a buffer just read (`box`);
* of `restaurant.c` the functions that build the restaurant list are embedded:
  a pointer to a restaurant is an address of a heap of restaurants, and of a
  restaurant only the `id` is looked at; the distance of a restaurant to the
  user, which the source computes in floating point with `acos`, is an input
  of the comparator of `restaurant_list_sort`: a value of a linearly ordered
  type or NaN (`none`), with which every comparison is false;
* of `trunk/utils.c` the table of the week days with `day_of_week_text` and
  `get_random` are embedded; the value of `rand()` is an input.
-/

set_option autoImplicit false

namespace Acdll

/-! ## Data model (`acdll.h`) -/

/-- Length of the allocator free-list (`ACDLL_MAX_SPARE_ELEMS`). -/
def ACDLL_MAX_SPARE_ELEMS : Nat := 5

/-- Minimum number of elements for quicksort (`ACDLL_MINQUICKSORTELS`). -/
def ACDLL_MINQUICKSORTELS : Nat := 24

/-- Entry of the list: `struct list_entry_s`. -/
structure list_entry_s (α : Type) where
  data : Option α
  next : Nat
  prev : Nat

/-- User-set routines: `struct list_attributes_s`. A serializer returns the
buffer it filled (its length is the length of the list of bytes); an
unserializer returns the element and the length it stores in `data_len`. -/
structure list_attributes_s (α : Type) where
  comparator : Option (Option α → Option α → Int)
  seeker : Option (Option α → Option α → Int)
  meter : Option (Option α → Nat)
  serializer : Option (Option α → List Nat)
  unserializer : Option (List Nat → Option α × Nat)

/-- The list object `struct list_s`, together with the heap its entries live
in (`mem`, `brk`). `spareels` is the array of spare entries. -/
structure list_t (α : Type) where
  mem : Nat → list_entry_s α
  brk : Nat
  head_sentinel : Nat
  tail_sentinel : Nat
  mid_sentinel : Nat
  numels : Nat
  spareels : Nat → Nat
  spareelsnum : Nat
  iter_active : Int
  iter_pos : Nat
  iter_curentry : Nat
  attrs : list_attributes_s α

variable {α : Type}

/-- Assignment `a[i] = v` to a slot of an array of pointers. -/
def set_slot (a : Nat → Nat) (i v : Nat) : Nat → Nat :=
  fun j => if j = i then v else a j

/-- Assignment `p->data = d`. -/
def set_data (mem : Nat → list_entry_s α) (p : Nat) (d : Option α) : Nat → list_entry_s α :=
  fun a => let e := mem a; if a = p then { data := d, next := e.next, prev := e.prev } else e

/-- Assignment `p->next = q`. -/
def set_next (mem : Nat → list_entry_s α) (p q : Nat) : Nat → list_entry_s α :=
  fun a => let e := mem a; if a = p then { data := e.data, next := q, prev := e.prev } else e

/-- Assignment `p->prev = q`. -/
def set_prev (mem : Nat → list_entry_s α) (p q : Nat) : Nat → list_entry_s α :=
  fun a => let e := mem a; if a = p then { data := e.data, next := e.next, prev := q } else e

/-! ## Initialisation and attributes -/

/-- The function `list_attributes_setdefaults`. -/
def list_attributes_setdefaults (l : list_t α) : Int × list_t α :=
  (0, { l with attrs := { comparator := none, seeker := none, meter := none,
                          serializer := none, unserializer := none } })

/-- The function `list_init`, run on an empty heap: the two sentinels are the
first two entries allocated. -/
def list_init : Int × list_t α :=
  let head := 1
  let tail := 2
  let mem0 : Nat → list_entry_s α := fun _ => { data := none, next := 0, prev := 0 }
  let mem1 := set_next mem0 head tail
  let mem2 := set_prev mem1 tail head
  let mem3 := set_prev (set_next mem2 tail 0) head 0
  let mem4 := set_data (set_data mem3 tail none) head none
  let l : list_t α :=
    { mem := mem4, brk := 3, head_sentinel := head, tail_sentinel := tail,
      mid_sentinel := 0, numels := 0,
      spareels := fun _ => 0, spareelsnum := 0,
      iter_active := 0, iter_pos := 0, iter_curentry := 0,
      attrs := { comparator := none, seeker := none, meter := none,
                 serializer := none, unserializer := none } }
  (0, (list_attributes_setdefaults l).2)

/-- The function `list_attributes_comparator`. -/
def list_attributes_comparator (l : list_t α)
    (comparator_fun : Option (Option α → Option α → Int)) : Int × list_t α :=
  (0, { l with attrs := { l.attrs with comparator := comparator_fun } })

/-- The function `list_attributes_seeker`. -/
def list_attributes_seeker (l : list_t α)
    (seeker_fun : Option (Option α → Option α → Int)) : Int × list_t α :=
  (0, { l with attrs := { l.attrs with seeker := seeker_fun } })

/-- The function `list_attributes_copy`. -/
def list_attributes_copy (l : list_t α) (metric_fun : Option (Option α → Nat))
    (copy_data : Int) : Int × list_t α :=
  if metric_fun.isNone ∧ copy_data ≠ 0 then (-1, l)
  else (0, { l with attrs := { l.attrs with meter := metric_fun } })

/-! ## Positional lookup -/

/-- The pointer reached from `p` by `k` steps `ptr = ptr->next`. -/
def walk_next (mem : Nat → list_entry_s α) : Nat → Nat → Nat
  | 0, p => p
  | k + 1, p => walk_next mem k (mem p).next

/-- The pointer reached from `p` by `k` steps `ptr = ptr->prev`. -/
def walk_prev (mem : Nat → list_entry_s α) : Nat → Nat → Nat
  | 0, p => p
  | k + 1, p => walk_prev mem k (mem p).prev

/-- Test `x <= a/b` for the quotient `x` of `num` by `den` taken exactly, with
no rounding; false when `den = 0` (the quotient is then NaN or infinite). The
test on the binary32 quotient of the source is `ratio_le_binary32`. -/
def ratio_le (num : Int) (den : Nat) (a b : Nat) : Bool :=
  decide (den ≠ 0 ∧ (b : Int) * num ≤ (a : Int) * (den : Int))

/-- Test `x < a/b` for the quotient `x` of `num` by `den` taken exactly, with
no rounding; false when `den = 0`. The test on the binary32 quotient of the
source is `ratio_lt_binary32`. -/
def ratio_lt (num : Int) (den : Nat) (a b : Nat) : Bool :=
  decide (den ≠ 0 ∧ (b : Int) * num < (a : Int) * (den : Int))

/-- The function `list_findpos` with the quotient `x` taken exactly: the entry
at index `posstart`, the head sentinel for `-1`, the tail sentinel for
`numels`, `NULL` out of range. A loop `for (i = a; i < posstart; i++)` runs
`posstart - a` times. The function with the binary32 quotient of the source
is `list_findpos_binary32`; it is this one on lists of fewer than `2^23`
entries. -/
def list_findpos (l : list_t α) (posstart : Int) : Nat :=
  if posstart < -1 ∨ posstart > (l.numels : Int) then 0
  else if ratio_le (posstart + 1) l.numels 1 4 then
    walk_next l.mem (posstart - (-1)).toNat l.head_sentinel
  else if ratio_lt (posstart + 1) l.numels 1 2 then
    walk_prev l.mem ((((l.numels - 1) / 2 : Nat) : Int) - posstart).toNat l.mid_sentinel
  else if ratio_le (posstart + 1) l.numels 3 4 then
    walk_next l.mem (posstart - (((l.numels - 1) / 2 : Nat) : Int)).toNat l.mid_sentinel
  else
    walk_prev l.mem ((l.numels : Int) - posstart).toNat l.tail_sentinel

/-! ## Insertion and deletion -/

/-- First part of `list_insert_at` ("this code optimizes malloc() with a
free-list"): the entry comes from the free-list when there is one, from
`malloc` otherwise. `oom` tells whether `malloc`, if it is called, returns
`NULL`; the result is then `none`. -/
def list_insert_at_acquire (l : list_t α) (oom : Bool) : Option (Nat × list_t α) :=
  if l.spareelsnum > 0 then
    some (l.spareels (l.spareelsnum - 1), { l with spareelsnum := l.spareelsnum - 1 })
  else if oom then none
  else some (l.brk, { l with brk := l.brk + 1 })

/-- Second part of `list_insert_at`: the entry `lent` receives the data, is
linked after the entry of index `pos-1`, and the mid pointer is fixed. The
lookup is `list_findpos`, with the exact quotient. -/
def list_insert_at_link (l1 : list_t α) (lent : Nat) (data : Option α) (pos : Nat) : list_t α :=
  let l2 := { l1 with mem := set_data l1.mem lent data }
  let prec := list_findpos l2 ((pos : Int) - 1)
  let succ := (l2.mem prec).next
  let m1 := set_next l2.mem prec lent
  let m2 := set_prev m1 lent prec
  let m3 := set_next m2 lent succ
  let m4 := set_prev m3 succ lent
  let l3 := { l2 with mem := m4, numels := l2.numels + 1 }
  if l3.numels = 1 then { l3 with mid_sentinel := lent }
  else if l3.numels % 2 ≠ 0 then
    if pos ≥ (l3.numels - 1) / 2 then
      { l3 with mid_sentinel := (l3.mem l3.mid_sentinel).next }
    else l3
  else
    if pos ≤ (l3.numels - 1) / 2 then
      { l3 with mid_sentinel := (l3.mem l3.mid_sentinel).prev }
    else l3

/-- The function `list_insert_at`, the lookup being made with the exact
quotient (`list_insert_at_binary32` makes it with the binary32 quotient). -/
def list_insert_at (l : list_t α) (data : Option α) (pos : Nat) (oom : Bool) : Int × list_t α :=
  if l.iter_active ≠ 0 ∨ pos > l.numels then (-1, l)
  else
    match list_insert_at_acquire l oom with
    | none => (-1, l)
    | some (lent, l1) => (1, list_insert_at_link l1 lent data pos)

/-- The function `list_append`. -/
def list_append (l : list_t α) (data : Option α) (oom : Bool) : Int × list_t α :=
  list_insert_at l data l.numels oom

/-- The function `list_drop_elem`: repairs `mid`, unlinks `tmp` and gives it
to the free-list when there is room (`free` otherwise, which leaves the heap
map as it is). -/
def list_drop_elem (l : list_t α) (tmp : Nat) (pos : Nat) : Int × list_t α :=
  if tmp = 0 then (-1, l)
  else
    let l1 :=
      if l.numels % 2 ≠ 0 then
        if pos ≥ l.numels / 2 then { l with mid_sentinel := (l.mem l.mid_sentinel).prev }
        else l
      else
        if pos < l.numels / 2 then { l with mid_sentinel := (l.mem l.mid_sentinel).next }
        else l
    let m1 := set_next l1.mem (l1.mem tmp).prev (l1.mem tmp).next
    let m2 := set_prev m1 (m1 tmp).next (m1 tmp).prev
    let l2 := { l1 with mem := m2 }
    let l3 :=
      if l2.spareelsnum < ACDLL_MAX_SPARE_ELEMS then
        { l2 with spareels := set_slot l2.spareels l2.spareelsnum tmp,
                  spareelsnum := l2.spareelsnum + 1 }
      else l2
    (0, l3)

/-- The function `list_delete_at`, the lookup being made with the exact
quotient (`list_delete_at_binary32` makes it with the binary32 quotient). -/
def list_delete_at (l : list_t α) (pos : Nat) : Int × list_t α :=
  if l.iter_active ≠ 0 ∨ pos ≥ l.numels then (-1, l)
  else
    let delendo := list_findpos l (pos : Int)
    let l1 := (list_drop_elem l delendo pos).2
    (0, { l1 with numels := l1.numels - 1 })

/-! ## Clearing, size, seeking -/

/-- First loop of `list_clear`: entries become spares as long as there is
room. The state is the spare array, its length and the cursor `s`. -/
def list_clear_spare (mem : Nat → list_entry_s α) (tail : Nat) :
    Nat → (Nat → Nat) → Nat → Nat → Option ((Nat → Nat) × Nat × Nat)
  | 0, _, _, _ => none
  | fuel + 1, spareels, spareelsnum, s =>
    if spareelsnum < ACDLL_MAX_SPARE_ELEMS ∧ s ≠ tail then
      list_clear_spare mem tail fuel (set_slot spareels spareelsnum s)
        (spareelsnum + 1) (mem s).next
    else some (spareels, spareelsnum, s)

/-- Second loop of `list_clear`: the remaining entries are freed. -/
def list_clear_free (mem : Nat → list_entry_s α) (tail : Nat) : Nat → Nat → Option Nat
  | 0, _ => none
  | fuel + 1, s =>
    if s ≠ tail then list_clear_free mem tail fuel (mem s).next else some s

/-- The function `list_clear`. -/
def list_clear (fuel : Nat) (l : list_t α) : Option (Int × list_t α) :=
  if l.iter_active ≠ 0 then some (-1, l)
  else
    match list_clear_spare l.mem l.tail_sentinel fuel l.spareels l.spareelsnum
        (l.mem l.head_sentinel).next with
    | none => none
    | some (spareels, spareelsnum, s) =>
      match list_clear_free l.mem l.tail_sentinel fuel s with
      | none => none
      | some _ =>
        let m1 := set_next l.mem l.head_sentinel l.tail_sentinel
        let m2 := set_prev m1 l.tail_sentinel l.head_sentinel
        some (0, { l with mem := m2, spareels := spareels, spareelsnum := spareelsnum,
                          numels := 0, mid_sentinel := 0 })

/-- The function `list_size`. -/
def list_size (l : list_t α) : Nat := l.numels

/-- The loop of `list_seek`, from the entry `iter`. -/
def list_seek_loop (mem : Nat → list_entry_s α) (tail : Nat)
    (seeker : Option α → Option α → Int) (indicator : Option α) : Nat → Nat → Option (Option α)
  | 0, _ => none
  | fuel + 1, iter =>
    if iter ≠ tail then
      if seeker (mem iter).data indicator ≠ 0 then some (mem iter).data
      else list_seek_loop mem tail seeker indicator fuel (mem iter).next
    else some none

/-- The function `list_seek`. -/
def list_seek (fuel : Nat) (l : list_t α) (indicator : Option α) : Option (Option α) :=
  match l.attrs.seeker with
  | none => some none
  | some seeker =>
    list_seek_loop l.mem l.tail_sentinel seeker indicator fuel (l.mem l.head_sentinel).next

/-! ## Iteration -/

/-- The function `list_iterator_start`. -/
def list_iterator_start (l : list_t α) : Int × list_t α :=
  if l.iter_active ≠ 0 then (0, l)
  else (1, { l with iter_pos := 0, iter_active := 1,
                    iter_curentry := (l.mem l.head_sentinel).next })

/-- The function `list_iterator_next`. -/
def list_iterator_next (l : list_t α) : Option α × list_t α :=
  if l.iter_active = 0 then (none, l)
  else
    ((l.mem l.iter_curentry).data,
     { l with iter_curentry := (l.mem l.iter_curentry).next, iter_pos := l.iter_pos + 1 })

/-- The function `list_iterator_stop`. -/
def list_iterator_stop (l : list_t α) : Int × list_t α :=
  if l.iter_active = 0 then (0, l)
  else (1, { l with iter_pos := 0, iter_active := 0 })

/-! ## Sorting -/

/-- Inner loop of `list_sort_selectionsort`: the entry to swap with, scanning
`cursor` up to `lel->next`. -/
def selectionsort_inner (cmp : Option α → Option α → Int) (versus : Int)
    (mem : Nat → list_entry_s α) (lel : Nat) : Nat → Nat → Nat → Option Nat
  | 0, _, _ => none
  | fuel + 1, toswap, cursor =>
    if cursor ≠ (mem lel).next then
      selectionsort_inner cmp versus mem lel fuel
        (if cmp (mem toswap).data (mem cursor).data * -versus > 0 then cursor else toswap)
        (mem cursor).next
    else some toswap

/-- Outer loop of `list_sort_selectionsort`, from `firstunsorted`. -/
def selectionsort_outer (cmp : Option α → Option α → Int) (versus : Int) (lel : Nat) :
    Nat → (Nat → list_entry_s α) → Nat → Option (Nat → list_entry_s α)
  | 0, _, _ => none
  | fuel + 1, mem, firstunsorted =>
    if firstunsorted ≠ lel then
      match selectionsort_inner cmp versus mem lel fuel firstunsorted (mem firstunsorted).next with
      | none => none
      | some toswap =>
        let mem1 :=
          if toswap ≠ firstunsorted then
            let tmpdata := (mem firstunsorted).data
            let m1 := set_data mem firstunsorted (mem toswap).data
            set_data m1 toswap tmpdata
          else mem
        selectionsort_outer cmp versus lel fuel mem1 (mem1 firstunsorted).next
    else some mem

/-- The function `list_sort_selectionsort`. -/
def list_sort_selectionsort (cmp : Option α → Option α → Int) (versus : Int) (fuel : Nat)
    (mem : Nat → list_entry_s α) (first fel last lel : Nat) : Option (Nat → list_entry_s α) :=
  if last ≤ first then some mem
  else selectionsort_outer cmp versus lel fuel mem fel

/-- Left scan of the quicksort partition: `left` advances while its element
is not after the pivot. -/
def quicksort_scan_left (cmp : Option α → Option α → Int) (versus : Int)
    (mem : Nat → list_entry_s α) (pivot : Nat) : Nat → Nat → Option Nat
  | 0, _ => none
  | fuel + 1, left =>
    if left ≠ pivot ∧ cmp (mem left).data (mem pivot).data * -versus ≤ 0 then
      quicksort_scan_left cmp versus mem pivot fuel (mem left).next
    else some left

/-- Right scan of the quicksort partition: `right` retreats while its element
is not before the pivot. -/
def quicksort_scan_right (cmp : Option α → Option α → Int) (versus : Int)
    (mem : Nat → list_entry_s α) (pivot : Nat) : Nat → Nat → Option Nat
  | 0, _ => none
  | fuel + 1, right =>
    if right ≠ pivot ∧ cmp (mem right).data (mem pivot).data * -versus ≥ 0 then
      quicksort_scan_right cmp versus mem pivot fuel (mem right).prev
    else some right

/-- The loop `while (left != pivot && right != pivot)` of the partition. -/
def quicksort_partition (cmp : Option α → Option α → Int) (versus : Int) (pivot : Nat) :
    Nat → (Nat → list_entry_s α) → Nat → Nat → Option ((Nat → list_entry_s α) × Nat × Nat)
  | 0, _, _, _ => none
  | fuel + 1, mem, left, right =>
    if left ≠ pivot ∧ right ≠ pivot then
      match quicksort_scan_left cmp versus mem pivot fuel left with
      | none => none
      | some left1 =>
        match quicksort_scan_right cmp versus mem pivot fuel right with
        | none => none
        | some right1 =>
          if left1 ≠ pivot ∧ right1 ≠ pivot then
            let tmpdata := (mem left1).data
            let m1 := set_data mem left1 (mem right1).data
            let mem1 := set_data m1 right1 tmpdata
            quicksort_partition cmp versus pivot fuel mem1 (mem1 left1).next (mem1 right1).prev
          else quicksort_partition cmp versus pivot fuel mem left1 right1
    else some (mem, left, right)

/-- The loop run when the left part is the longer one: an element after the
pivot is moved behind it, the pivot stepping one entry back. -/
def quicksort_finish_left (cmp : Option α → Option α → Int) (versus : Int) :
    Nat → (Nat → list_entry_s α) → Nat → Nat → Nat → Option ((Nat → list_entry_s α) × Nat × Nat)
  | 0, _, _, _, _ => none
  | fuel + 1, mem, left, pivot, pivotid =>
    if left ≠ pivot then
      if cmp (mem left).data (mem pivot).data * -versus > 0 then
        let tmpdata := (mem left).data
        let m1 := set_data mem left (mem (mem pivot).prev).data
        let m2 := set_data m1 (m1 pivot).prev (m1 pivot).data
        let m3 := set_data m2 pivot tmpdata
        let pivot1 := (m3 pivot).prev
        let pivotid1 := pivotid - 1
        if pivot1 = left then some (m3, pivot1, pivotid1)
        else quicksort_finish_left cmp versus fuel m3 left pivot1 pivotid1
      else quicksort_finish_left cmp versus fuel mem (mem left).next pivot pivotid
    else some (mem, pivot, pivotid)

/-- The loop run when the right part is the longer one. -/
def quicksort_finish_right (cmp : Option α → Option α → Int) (versus : Int) :
    Nat → (Nat → list_entry_s α) → Nat → Nat → Nat → Option ((Nat → list_entry_s α) × Nat × Nat)
  | 0, _, _, _, _ => none
  | fuel + 1, mem, right, pivot, pivotid =>
    if right ≠ pivot then
      if cmp (mem right).data (mem pivot).data * -versus < 0 then
        let tmpdata := (mem right).data
        let m1 := set_data mem right (mem (mem pivot).next).data
        let m2 := set_data m1 (m1 pivot).next (m1 pivot).data
        let m3 := set_data m2 pivot tmpdata
        let pivot1 := (m3 pivot).next
        let pivotid1 := pivotid + 1
        if pivot1 = right then some (m3, pivot1, pivotid1)
        else quicksort_finish_right cmp versus fuel m3 right pivot1 pivotid1
      else quicksort_finish_right cmp versus fuel mem (mem right).prev pivot pivotid
    else some (mem, pivot, pivotid)

/-- The function `list_sort_quicksort`. `rnd` is the stream `random()` reads;
the stream left over is returned with the heap. The test
`if (!(last > first)) return;` of the source comes after `if (last <= first)
return;` and is never true there. -/
def list_sort_quicksort (cmp : Option α → Option α → Int) (versus : Int) :
    Nat → (Nat → Nat) → (Nat → list_entry_s α) → Nat → Nat → Nat → Nat →
      Option ((Nat → list_entry_s α) × (Nat → Nat))
  | 0, _, _, _, _, _, _ => none
  | fuel + 1, rnd, mem, first, fel, last, lel =>
    if last ≤ first then some (mem, rnd)
    else if last - first + 1 ≤ ACDLL_MINQUICKSORTELS then
      (list_sort_selectionsort cmp versus fuel mem first fel last lel).map (fun m => (m, rnd))
    else
      let pivotid := rnd 0 % (last - first + 1)
      let rnd1 : Nat → Nat := fun i => rnd (i + 1)
      let pivot :=
        if pivotid < (last - first + 1) / 2 then walk_next mem pivotid fel
        else walk_prev mem (last - first - pivotid) lel
      match quicksort_partition cmp versus pivot fuel mem fel lel with
      | none => none
      | some (mem1, left, right) =>
        let finished :=
          if right = pivot then quicksort_finish_left cmp versus fuel mem1 left pivot pivotid
          else quicksort_finish_right cmp versus fuel mem1 right pivot pivotid
        match finished with
        | none => none
        | some (mem2, pivot2, pivotid2) =>
          let sortedA :=
            if pivotid2 > 0 then
              list_sort_quicksort cmp versus fuel rnd1 mem2 first fel (first + pivotid2 - 1)
                (mem2 pivot2).prev
            else some (mem2, rnd1)
          match sortedA with
          | none => none
          | some (mem3, rnd2) =>
            if first + pivotid2 < last then
              list_sort_quicksort cmp versus fuel rnd2 mem3 (first + pivotid2 + 1)
                (mem3 pivot2).next last lel
            else some (mem3, rnd2)

/-- The function `list_sort`. Its two failure tests (iteration active,
no comparator) both return -1; the comparator is looked at first here, which
gives the same result. -/
def list_sort (fuel : Nat) (rnd : Nat → Nat) (l : list_t α) (versus : Int) :
    Option (Int × list_t α × (Nat → Nat)) :=
  match l.attrs.comparator with
  | none => some (-1, l, rnd)
  | some cmp =>
    if l.iter_active ≠ 0 then some (-1, l, rnd)
    else if l.numels ≤ 1 then some (0, l, rnd)
    else
      match list_sort_quicksort cmp versus fuel rnd l.mem 0 (l.mem l.head_sentinel).next
          (l.numels - 1) (l.mem l.tail_sentinel).prev with
      | none => none
      | some (mem1, rnd1) => some (0, { l with mem := mem1 }, rnd1)

/-! ## Observations -/

/-- The entries met from `p` by following `next` until `tail`, at most `n`
of them. -/
def entries_from (mem : Nat → list_entry_s α) (tail : Nat) : Nat → Nat → List Nat
  | 0, _ => []
  | n + 1, p => if p = tail then [] else p :: entries_from mem tail n (mem p).next

/-- The entries of the list, head to tail, sentinels excluded. -/
def list_entries (l : list_t α) : List Nat :=
  entries_from l.mem l.tail_sentinel l.numels (l.mem l.head_sentinel).next

/-- The element sequence of the list. -/
def list_elements (l : list_t α) : List (Option α) :=
  (list_entries l).map (fun p => (l.mem p).data)

/-- The entries on the free-list. -/
def list_spares (l : list_t α) : List Nat :=
  (List.range l.spareelsnum).map l.spareels

/-! ## Representation invariant and reachable states -/

/-- Consecutive entries of `ns` are linked both ways in `mem`. -/
def Linked (mem : Nat → list_entry_s α) (ns : List Nat) : Prop :=
  ∀ i a b, ns[i]? = some a → ns[i + 1]? = some b → (mem a).next = b ∧ (mem b).prev = a

/-- The chain of a list whose entries are `body`: head sentinel, entries,
tail sentinel. -/
def chain (l : list_t α) (body : List Nat) : List Nat :=
  l.head_sentinel :: (body ++ [l.tail_sentinel])

/-- The list `l` represents the sequence of entries `body`: the chain from
head to tail is linked both ways through exactly these entries, `numels`
counts them, `mid_sentinel` is the entry of index `(numels-1)/2` when there is
one, and the spare entries are allocated, pairwise distinct and off the
chain. -/
structure Inv (l : list_t α) (body : List Nat) : Prop where
  numels_eq : l.numels = body.length
  nodup : (list_spares l ++ chain l body).Nodup
  valid : ∀ a ∈ list_spares l ++ chain l body, a ≠ 0 ∧ a < l.brk
  linked : Linked l.mem (chain l body)
  head_prev : (l.mem l.head_sentinel).prev = 0
  tail_next : (l.mem l.tail_sentinel).next = 0
  head_data : (l.mem l.head_sentinel).data = none
  tail_data : (l.mem l.tail_sentinel).data = none
  mid : 0 < l.numels → body[(l.numels - 1) / 2]? = some l.mid_sentinel
  spare_le : l.spareelsnum ≤ ACDLL_MAX_SPARE_ELEMS

/-- States reached from `list_init` through the functions of `acdll.h` that
change a list. The loops of `list_clear` and `list_sort` are given the fuel
with which they run to their end (`numels + 1` and `numels + 2`, see
`list_clear_spec` and `list_sort_spec`). -/
inductive Reachable : list_t α → Prop
  | init : Reachable (list_init).2
  | attributes_comparator (l : list_t α) (f : Option (Option α → Option α → Int)) :
      Reachable l → Reachable (list_attributes_comparator l f).2
  | attributes_seeker (l : list_t α) (f : Option (Option α → Option α → Int)) :
      Reachable l → Reachable (list_attributes_seeker l f).2
  | attributes_copy (l : list_t α) (f : Option (Option α → Nat)) (c : Int) :
      Reachable l → Reachable (list_attributes_copy l f c).2
  | insert_at (l : list_t α) (data : Option α) (pos : Nat) (oom : Bool) :
      Reachable l → Reachable (list_insert_at l data pos oom).2
  | delete_at (l : list_t α) (pos : Nat) :
      Reachable l → Reachable (list_delete_at l pos).2
  | clear (l : list_t α) (fuel : Nat) (r : Int) (l1 : list_t α) :
      Reachable l → l.numels + 1 ≤ fuel → list_clear fuel l = some (r, l1) → Reachable l1
  | sort (l : list_t α) (fuel : Nat) (rnd : Nat → Nat) (versus : Int) (r : Int)
      (l1 : list_t α) (rnd1 : Nat → Nat) :
      Reachable l → l.numels + 2 ≤ fuel → list_sort fuel rnd l versus = some (r, l1, rnd1) →
      Reachable l1
  | iterator_start (l : list_t α) : Reachable l → Reachable (list_iterator_start l).2
  | iterator_next (l : list_t α) : Reachable l → Reachable (list_iterator_next l).2
  | iterator_stop (l : list_t α) : Reachable l → Reachable (list_iterator_stop l).2

/-! ## Vocabulary for the sort -/

/-- The payload of the entry at position `i` of `ns` (`none` out of range). -/
def dat (mem : Nat → list_entry_s α) (ns : List Nat) (i : Nat) : Option α :=
  match ns[i]? with
  | some p => (mem p).data
  | none => none

/-- The sequence `g` is `f` with the values at positions `lo..hi` rearranged. -/
def PermOn {β : Type} (lo hi : Nat) (f g : Nat → β) : Prop :=
  ∃ σ : Equiv.Perm Nat, (∀ i, σ i ≠ i → lo ≤ i ∧ i ≤ hi) ∧ ∀ i, g i = f (σ i)

/-- The heap `mem1` differs from `mem` at most in the payloads of the entries
at positions `lo..hi` of `ns`: no link changes. -/
def DataFrame (ns : List Nat) (lo hi : Nat) (mem mem1 : Nat → list_entry_s α) : Prop :=
  ∀ a, (mem1 a).next = (mem a).next ∧ (mem1 a).prev = (mem a).prev ∧
    ((∀ k, lo ≤ k → k ≤ hi → ns[k]? ≠ some a) → (mem1 a).data = (mem a).data)

/-- The test `cmp a b * -versus <= 0` of the sort ("`a` is not after `b`")
is total and transitive. -/
def OrdOK (cmp : Option α → Option α → Int) (versus : Int) : Prop :=
  (∀ a b, cmp b a * -versus = -(cmp a b * -versus)) ∧
  ∀ a b c, cmp a b * -versus ≤ 0 → cmp b c * -versus ≤ 0 → cmp a c * -versus ≤ 0

/-- The values of `f` at positions `lo..hi` are in the order asked by
`versus`: no value is after a later one. -/
def SortedOn (cmp : Option α → Option α → Int) (versus : Int) (f : Nat → Option α)
    (lo hi : Nat) : Prop :=
  ∀ i j, lo ≤ i → i < j → j ≤ hi → cmp (f i) (f j) * -versus ≤ 0

/-- A comparator that follows the convention of `acdll.h` for a total
preorder: `cmp a b` is negative when `a > b`, zero when they are equivalent,
positive when `a < b`. Here `a ≤ b` is read `0 ≤ cmp a b`; exchanging the
arguments negates the result, and `≤` is transitive. -/
structure IsComparator (cmp : Option α → Option α → Int) : Prop where
  antisymm : ∀ a b, cmp b a = -cmp a b
  trans : ∀ a b c, 0 ≤ cmp a b → 0 ≤ cmp b c → 0 ≤ cmp a c

/-! ## Sequences of calls and an example comparator -/

/-- A call of `list_insert_at` or of `list_delete_at`. -/
inductive list_op (α : Type) where
  | insert_at (data : Option α) (pos : Nat) (oom : Bool)
  | delete_at (pos : Nat)

/-- The list after a call, whatever the call returns. -/
def list_op.apply (l : list_t α) : list_op α → list_t α
  | .insert_at data pos oom => (list_insert_at l data pos oom).2
  | .delete_at pos => (list_delete_at l pos).2

/-- The list after a sequence of calls on a freshly initialised list. -/
def run_ops (ops : List (list_op α)) : list_t α :=
  ops.foldl list_op.apply (list_init).2

/-- A comparator of numbers that follows the convention of `acdll.h`:
negative when `a > b`, zero when `a = b`, positive when `a < b`; `NULL` is
below every number. -/
def cmp_header (a b : Option Nat) : Int :=
  match a, b with
  | none, none => 0
  | none, some _ => 1
  | some _, none => -1
  | some x, some y => if x > y then -1 else if x < y then 1 else 0

/-- The list made by appending the numbers of `xs` to a fresh list that has
`cmp_header` as comparator. -/
def list_of (xs : List Nat) : list_t Nat :=
  xs.foldl (fun l x => (list_append l (some x) false).2)
    (list_attributes_comparator (list_init).2 (some cmp_header)).2

/-- A sequence of calls with successes and failures: three insertions, a
deletion, a deletion out of range, an insertion served by the free-list, and
insertions whose `malloc` succeeds and fails. -/
def example_ops : List (list_op Nat) :=
  [list_op.insert_at (some 5) 0 false, list_op.insert_at (some 3) 0 false,
   list_op.insert_at (some 1) 2 false, list_op.delete_at 0, list_op.delete_at 7,
   list_op.insert_at (some 4) 1 true, list_op.insert_at (some 9) 0 false,
   list_op.insert_at (some 8) 0 true]

/-- Thirty numbers with repetitions: long enough for `list_sort` to take
the quicksort path (more than `ACDLL_MINQUICKSORTELS` elements). -/
def example_large : List Nat :=
  [17, 3, 25, 9, 1, 17, 12, 7, 22, 5, 28, 14, 2, 19, 11, 26, 8, 21, 3, 16, 29, 6, 13, 24, 10,
   27, 18, 15, 23, 9]

/-! ## Repeated calls of the iterator -/

/-- Version of the file format managed by the dump and restore functions. -/
def ACDLL_DUMPFORMAT_VERSION : Nat := 1

/-- Length of the header. -/
def ACDLL_DUMPFORMAT_HEADERLEN : Nat := 30

/-- A regular file open through a descriptor: its bytes and the file
offset. Reads and writes on it do not fail. -/
structure stream where
  bytes : List Nat
  pos : Nat

/-- The call `lseek(fd, off, SEEK_SET)`. -/
def fd_lseek (fd : stream) (off : Nat) : stream :=
  { fd with pos := off }

/-- The bytes of a file after `buf` is stored at offset `pos`: a gap between
the end of the file and `pos` reads as zeros, what lies after the stored bytes
stays. -/
def patch (bytes : List Nat) (pos : Nat) (buf : List Nat) : List Nat :=
  (bytes ++ List.replicate (pos - bytes.length) 0).take pos ++ buf ++
    bytes.drop (pos + buf.length)

/-- The call `write(fd, buf, n)` where `buf` holds the `n` bytes written; a
write of no byte changes nothing. -/
def fd_write (fd : stream) (buf : List Nat) : stream :=
  if buf = [] then fd
  else { bytes := patch fd.bytes fd.pos buf, pos := fd.pos + buf.length }

/-- The call `read(fd, buf, n)`: the bytes received (fewer than `n` at the end
of the file; their number is what `read` returns) and the descriptor. -/
def fd_read (fd : stream) (n : Nat) : List Nat × stream :=
  let got := (fd.bytes.drop fd.pos).take n
  (got, { fd with pos := fd.pos + got.length })

/-- The two bytes in memory of `htons(v)`: most significant first. -/
def be16 (v : Nat) : List Nat :=
  [v / 256 % 256, v % 256]

/-- The four bytes in memory of `htonl(v)`: most significant first. -/
def be32 (v : Nat) : List Nat :=
  [v / 16777216 % 256, v / 65536 % 256, v / 256 % 256, v % 256]

/-- The value that `ntohs` or `ntohl` returns for a variable whose bytes in
memory are `bs`. -/
def unbe (bs : List Nat) : Nat :=
  bs.foldl (fun a b => a * 256 + b % 256) 0

/-- The four bytes of a 32-bit value, least significant first. -/
def le32 (v : Nat) : List Nat :=
  [v % 256, v / 256 % 256, v / 65536 % 256, v / 16777216 % 256]

/-- The value of bytes read least significant first. -/
def unle (bs : List Nat) : Nat :=
  bs.foldr (fun b a => a * 256 + b % 256) 0

/-- What the source leaves to the platform: the bytes in memory of a
`uint32_t` (`host32`) and the value of such bytes (`unhost32`), the bytes in
memory of the `int64_t` timestamp (`host64`), and the bytes that
`write(fd, &bufsize, sizeof(size_t))` takes after the four of the `uint32_t`
variable `bufsize` (`size_t_pad`: none where `sizeof(size_t)` is 4, four bytes
of the stack frame where it is 8). -/
structure platform where
  host32 : Nat → List Nat
  unhost32 : List Nat → Nat
  host64 : Nat → List Nat
  size_t_pad : List Nat

/-- A little-endian platform with `sizeof(size_t) = 8` (x86-64): here the four
bytes after `bufsize` are zero. -/
def lp64_le : platform :=
  { host32 := le32, unhost32 := unle,
    host64 := fun v => le32 (v % 4294967296) ++ le32 (v / 4294967296),
    size_t_pad := [0, 0, 0, 0] }

/-- A little-endian platform with `sizeof(size_t) = 4` (i386). -/
def ilp32_le : platform :=
  { host32 := le32, unhost32 := unle,
    host64 := fun v => le32 (v % 4294967296) ++ le32 (v / 4294967296),
    size_t_pad := [] }

/-- A big-endian platform with `sizeof(size_t) = 4`. -/
def ilp32_be : platform :=
  { host32 := be32, unhost32 := unbe,
    host64 := fun v => be32 (v / 4294967296) ++ be32 (v % 4294967296),
    size_t_pad := [] }

/-! ## Dump -/

/-- The content loop of `list_dump_filedescriptor`, which is the same in its
serializer branch and in its meter branch: `size` gives the `bufsize` of an
element and `image` the bytes that `write` finds at the buffer. The state is
the cursor `x`, `header.elemlen`, `header.totlistlen` (both `uint32_t`) and the
descriptor. When the speculation breaks the cursor goes back to the head
sentinel and the loop goes on from the first entry; the file offset is not
touched. -/
def list_dump_loop (p : platform) (size : Option α → Nat) (image : Option α → Nat → List Nat)
    (mem : Nat → list_entry_s α) (head tail : Nat) :
    Nat → Nat → Nat → Nat → stream → Option (Nat × Nat × stream)
  | 0, _, _, _, _ => none
  | fuel + 1, x, elemlen, totlistlen, fd =>
    if x ≠ tail then
      let bufsize := size (mem x).data
      let totlistlen1 := (totlistlen + bufsize) % 4294967296
      if elemlen ≠ 0 then
        if elemlen ≠ bufsize then
          list_dump_loop p size image mem head tail fuel (mem head).next 0 0 fd
        else
          list_dump_loop p size image mem head tail fuel (mem x).next elemlen totlistlen1
            (fd_write fd (image (mem x).data bufsize))
      else
        let fd1 := fd_write fd (p.host32 bufsize ++ p.size_t_pad)
        list_dump_loop p size image mem head tail fuel (mem x).next elemlen totlistlen1
          (fd_write fd1 (image (mem x).data bufsize))
    else some (elemlen, totlistlen, fd)

/-- The `bufsize` that `list_dump_filedescriptor` gets for an element from
the serializer (the length of the buffer returned, an `unsigned int`). -/
def serializer_size (ser : Option α → List Nat) (e : Option α) : Nat :=
  (ser e).length % 4294967296

/-- The bytes `write(fd, ser_buf, bufsize)` finds in the buffer returned by
the serializer. -/
def serializer_image (ser : Option α → List Nat) (e : Option α) (n : Nat) : List Nat :=
  (ser e).take n

/-- The `bufsize` that `list_dump_filedescriptor` gets for an element from
the meter (a `size_t` stored in a `uint32_t`). -/
def meter_size (meter : Option α → Nat) (e : Option α) : Nat :=
  meter e % 4294967296

/-- The function `list_dump_filedescriptor`. Inputs that the source takes from
its environment: the platform `p`, the bytes `peek e n` that `write` finds at
an element pointer, the value of `gettimeofday` in microseconds and the value
of `random()`. The result is the value returned and the descriptor. -/
def list_dump_filedescriptor (p : platform) (peek : Option α → Nat → List Nat)
    (timestamp rnd : Nat) (fuel : Nat) (l : list_t α) (fd : stream) : Option (Nat × stream) :=
  if l.attrs.meter.isNone ∧ l.attrs.serializer.isNone then some (0, fd)
  else
    let fd1 := fd_lseek fd ACDLL_DUMPFORMAT_HEADERLEN
    let first := (l.mem l.head_sentinel).next
    let content : Option (Nat × Nat × stream) :=
      if l.numels > 0 then
        match l.attrs.serializer, l.attrs.meter with
        | some ser, _ =>
          list_dump_loop p (serializer_size ser) (serializer_image ser) l.mem l.head_sentinel
            l.tail_sentinel fuel first (serializer_size ser (l.mem first).data) 0 fd1
        | none, some meter =>
          list_dump_loop p (meter_size meter) peek l.mem l.head_sentinel
            l.tail_sentinel fuel first (meter_size meter (l.mem first).data) 0 fd1
        | none, none => some (0, 0, fd1)
      else some (0, 0, fd1)
    match content with
    | none => none
    | some (elemlen, totlistlen, fd2) =>
      let fd3 := fd_write fd2 (be32 rnd)
      let fd4 := fd_lseek fd3 0
      let fd5 := fd_write fd4 (be16 ACDLL_DUMPFORMAT_VERSION)
      let fd6 := fd_write fd5 (p.host64 timestamp)
      let fd7 := fd_write fd6 (be32 rnd)
      let fd8 := fd_write fd7 (be32 totlistlen)
      let fd9 := fd_write fd8 (be32 l.numels)
      let fd10 := fd_write fd9 (be32 elemlen)
      let fd11 := fd_write fd10 (be32 0)
      some (totlistlen, fd11)

/-- The function `list_dump_file`: `file` is the content of the file named, if
it exists, and `openable` tells whether `open` succeeds; the file is truncated
on opening. The result is the value returned and the file afterwards. -/
def list_dump_file (p : platform) (peek : Option α → Nat → List Nat)
    (timestamp rnd : Nat) (fuel : Nat) (l : list_t α) (file : Option (List Nat))
    (openable : Bool) : Option (Nat × Option (List Nat)) :=
  if openable = false then some (0, file)
  else
    match list_dump_filedescriptor p peek timestamp rnd fuel l { bytes := [], pos := 0 } with
    | none => none
    | some (sizetoret, fd) => some (sizetoret, some fd.bytes)

/-! ## Restore -/

/-- The state of the content loops of `list_restore_filedescriptor`: the list,
the descriptor, the four bytes in memory of `elsize`, `totreadlen`,
`totmemorylen`, and whether the function was left with 0 from inside the
loop. -/
structure restore_state (α : Type) where
  l : list_t α
  fd : stream
  elsize : List Nat
  totreadlen : Nat
  totmemorylen : Nat
  failed : Bool

/-- Loop of `list_restore_filedescriptor` for blocks of constant size with an
unserializer; `todo` iterations are left and `cnt` is the loop counter. -/
def restore_fixed_unserialize (p : platform) (unserializer : List Nat → Option α × Nat)
    (oom : Nat → Bool) (elemlen : Nat) : Nat → Nat → restore_state α → restore_state α
  | 0, _, st => st
  | todo + 1, cnt, st =>
    let r := fd_read st.fd elemlen
    if r.1.length ≠ elemlen then { st with fd := r.2, failed := true }
    else
      let u := unserializer r.1
      restore_fixed_unserialize p unserializer oom elemlen todo (cnt + 1)
        { st with l := (list_append st.l u.1 (oom cnt)).2, fd := r.2,
                  elsize := p.host32 (u.2 % 4294967296),
                  totmemorylen := (st.totmemorylen + u.2) % 4294967296 }

/-- Loop of `list_restore_filedescriptor` for blocks of constant size copied
verbatim: `box bs` is the pointer to a fresh buffer that holds `bs`. -/
def restore_fixed_verbatim (box : List Nat → Option α) (oom : Nat → Bool) (elemlen : Nat) :
    Nat → Nat → restore_state α → restore_state α
  | 0, _, st => st
  | todo + 1, cnt, st =>
    let r := fd_read st.fd elemlen
    if r.1.length ≠ elemlen then { st with fd := r.2, failed := true }
    else
      restore_fixed_verbatim box oom elemlen todo (cnt + 1)
        { st with l := (list_append st.l (box r.1) (oom cnt)).2, fd := r.2 }

/-- Loop of `list_restore_filedescriptor` for blocks preceded by their size,
with an unserializer. The result of the first `read` is not looked at: the
bytes received replace the first bytes of `elsize`. -/
def restore_variable_unserialize (p : platform) (unserializer : List Nat → Option α × Nat)
    (oom : Nat → Bool) : Nat → Nat → restore_state α → restore_state α
  | 0, _, st => st
  | todo + 1, cnt, st =>
    let r0 := fd_read st.fd 4
    let img := r0.1 ++ st.elsize.drop r0.1.length
    let elsize := p.unhost32 img
    let r := fd_read r0.2 elsize
    if r.1.length ≠ elsize then { st with fd := r.2, elsize := img, failed := true }
    else
      let u := unserializer r.1
      restore_variable_unserialize p unserializer oom todo (cnt + 1)
        { st with l := (list_append st.l u.1 (oom cnt)).2, fd := r.2,
                  elsize := p.host32 (u.2 % 4294967296),
                  totreadlen := (st.totreadlen + elsize) % 4294967296,
                  totmemorylen := (st.totmemorylen + u.2) % 4294967296 }

/-- Loop of `list_restore_filedescriptor` for blocks preceded by their size,
copied verbatim. -/
def restore_variable_verbatim (p : platform) (box : List Nat → Option α) (oom : Nat → Bool) :
    Nat → Nat → restore_state α → restore_state α
  | 0, _, st => st
  | todo + 1, cnt, st =>
    let r0 := fd_read st.fd 4
    let img := r0.1 ++ st.elsize.drop r0.1.length
    let elsize := p.unhost32 img
    let r := fd_read r0.2 elsize
    if r.1.length ≠ elsize then { st with fd := r.2, elsize := img, failed := true }
    else
      restore_variable_verbatim p box oom todo (cnt + 1)
        { st with l := (list_append st.l (box r.1) (oom cnt)).2, fd := r.2, elsize := img,
                  totreadlen := (st.totreadlen + elsize) % 4294967296 }

/-- The function `list_restore_filedescriptor`. Inputs that the source takes
from its environment: the platform `p`, the pointer `box bs` to a fresh buffer
holding `bs`, the bytes `elsize0` found in the variable `elsize` before it is
first written, and `oom cnt`, whether `malloc` fails in the `list_append` of
iteration `cnt`. The last test compares the offset before `lseek` moves it to
the end of the file. The result is the value returned, the list and the
descriptor. -/
def list_restore_filedescriptor (p : platform) (box : List Nat → Option α)
    (elsize0 : List Nat) (oom : Nat → Bool) (l : list_t α) (fd : stream) :
    Nat × list_t α × stream :=
  let r1 := fd_read fd 2
  if r1.1.length ≠ 2 then (0, l, r1.2)
  else if unbe r1.1 ≠ ACDLL_DUMPFORMAT_VERSION then (0, l, r1.2)
  else
    let r2 := fd_read r1.2 8
    if r2.1.length ≠ 8 then (0, l, r2.2)
    else
      let r3 := fd_read r2.2 4
      if r3.1.length ≠ 4 then (0, l, r3.2)
      else
        let rndterm := unbe r3.1
        let r4 := fd_read r3.2 4
        if r4.1.length ≠ 4 then (0, l, r4.2)
        else
          let totlistlen := unbe r4.1
          let r5 := fd_read r4.2 4
          if r5.1.length ≠ 4 then (0, l, r5.2)
          else
            let numels := unbe r5.1
            let r6 := fd_read r5.2 4
            if r6.1.length ≠ 4 then (0, l, r6.2)
            else
              let elemlen := unbe r6.1
              let r7 := fd_read r6.2 4
              if r7.1.length ≠ 4 then (0, l, r7.2)
              else
                let st0 : restore_state α :=
                  { l := l, fd := r7.2, elsize := elsize0, totreadlen := 0,
                    totmemorylen := 0, failed := false }
                let st :=
                  if elemlen > 0 then
                    match l.attrs.unserializer with
                    | some unserializer =>
                      let st1 := restore_fixed_unserialize p unserializer oom elemlen
                        numels 0 st0
                      { st1 with totreadlen := numels * elemlen % 4294967296 }
                    | none =>
                      let st1 := restore_fixed_verbatim box oom elemlen numels 0 st0
                      { st1 with totmemorylen := numels * elemlen % 4294967296,
                                 totreadlen := numels * elemlen % 4294967296 }
                  else
                    match l.attrs.unserializer with
                    | some unserializer =>
                      restore_variable_unserialize p unserializer oom numels 0 st0
                    | none =>
                      let st1 := restore_variable_verbatim p box oom numels 0 st0
                      { st1 with totmemorylen := st1.totreadlen }
                if st.failed then (0, st.l, st.fd)
                else
                  let r8 := fd_read st.fd 4
                  let elsize := unbe (r8.1 ++ st.elsize.drop r8.1.length)
                  let fd9 : stream := { r8.2 with pos := r8.2.bytes.length }
                  if st.totreadlen ≠ totlistlen ∧ elsize = rndterm then (0, st.l, r8.2)
                  else if r8.2.pos ≠ r8.2.bytes.length then (0, st.l, fd9)
                  else (st.totmemorylen, st.l, fd9)

/-- The function `list_restore_file`: `file` is the content of the file named,
`none` when `open` fails. -/
def list_restore_file (p : platform) (box : List Nat → Option α) (elsize0 : List Nat)
    (oom : Nat → Bool) (l : list_t α) (file : Option (List Nat)) : Nat × list_t α :=
  match file with
  | none => (0, l)
  | some bytes =>
    let r := list_restore_filedescriptor p box elsize0 oom l { bytes := bytes, pos := 0 }
    (r.1, r.2.1)

/-! ## Elements that are byte strings -/

/-- A meter for elements that are byte strings: the length. -/
def bytes_meter (e : Option (List Nat)) : Nat :=
  (e.getD []).length

/-- The first `n` bytes at an element that is a byte string. -/
def bytes_peek (e : Option (List Nat)) (n : Nat) : List Nat :=
  (e.getD []).take n

/-- The list made by appending the byte strings of `xs` to a fresh list that
has `bytes_meter` as meter. -/
def list_of_bytes (xs : List (List Nat)) : list_t (List Nat) :=
  xs.foldl (fun l x => (list_append l (some x) false).2)
    (list_attributes_copy (list_init).2 (some bytes_meter) 0).2

/-! ## The content of a dump in closed form -/

/-- The thirty bytes that `list_restore_filedescriptor` reads first, field
after field: the version in two bytes, the eight bytes of the timestamp, and
in four bytes each the terminator, the total length, the count, the element
length and the hash, all most significant byte first. -/
def header_bytes (ver : Nat) (timestamp : List Nat)
    (rndterm totlistlen numels elemlen listhash : Nat) : List Nat :=
  be16 ver ++ timestamp ++ be32 rndterm ++ be32 totlistlen ++ be32 numels ++ be32 elemlen ++
    be32 listhash

/-! ## The restaurant list (`restaurant.c`) -/

/-- A restaurant (`struct restaurant_s`): its identification number; the
other fields, which the functions below do not touch, are kept as one
value. -/
structure restaurant_s where
  id : Nat
  fields : Nat

/-- The globals of `restaurant.c` and the restaurants in memory: a pointer to
a restaurant is an address of `heap`, and the elements of `list_restaurants`
are such pointers. -/
structure restaurant_globals where
  list_restaurants : list_t Nat
  restaurant_index : Nat
  heap : Nat → restaurant_s

/-- The globals when the program starts: `restaurant_index` is 0 and the list
is zeroed static storage. -/
def restaurant_start (heap : Nat → restaurant_s) : restaurant_globals :=
  { list_restaurants :=
      { mem := fun _ => { data := none, next := 0, prev := 0 }, brk := 0, head_sentinel := 0,
        tail_sentinel := 0, mid_sentinel := 0, numels := 0, spareels := fun _ => 0,
        spareelsnum := 0, iter_active := 0, iter_pos := 0, iter_curentry := 0,
        attrs := { comparator := none, seeker := none, meter := none, serializer := none,
                   unserializer := none } },
    restaurant_index := 0,
    heap := heap }

/-- The function `fn_data_size_restaurant`: `size` is
`sizeof(struct restaurant_s)`. -/
def fn_data_size_restaurant (size : Nat) (_el : Option Nat) : Nat :=
  size

/-- The function `restaurant_init`; the comparator
`fn_comparator_restaurant_distance`, which works on distances in floating
point, is an input here (it is embedded further down, for
`restaurant_list_sort`, with the distances, NaN included, as an input). -/
def restaurant_init (size : Nat)
    (fn_comparator_restaurant_distance : Option Nat → Option Nat → Int)
    (g : restaurant_globals) : restaurant_globals :=
  let l0 : list_t Nat := (list_init).2
  let l1 := (list_attributes_copy l0 (some (fn_data_size_restaurant size)) 0).2
  let l2 := (list_attributes_comparator l1 (some fn_comparator_restaurant_distance)).2
  { g with list_restaurants := l2 }

/-- The function `restaurant_insert`: the restaurant at `r` gets the current
`restaurant_index` as its `id`, the index grows, and the pointer is appended. -/
def restaurant_insert (g : restaurant_globals) (r : Nat) (oom : Bool) :
    Int × restaurant_globals :=
  let heap1 : Nat → restaurant_s := fun a =>
    let x := g.heap a
    if a = r then { id := g.restaurant_index, fields := x.fields } else x
  let res := list_append g.list_restaurants (some r) oom
  (res.1, { list_restaurants := res.2, restaurant_index := g.restaurant_index + 1,
            heap := heap1 })

/-- The function `restaurant_delete`: the element at the position `r->id` is
deleted. -/
def restaurant_delete (g : restaurant_globals) (r : Nat) : restaurant_globals :=
  { g with list_restaurants := (list_delete_at g.list_restaurants (g.heap r).id).2 }

/-! ## The parts of `list_restore_filedescriptor` after the header -/

/-- The content loops of `list_restore_filedescriptor`, as in its body: the
state after the blocks are read, for the count and the element length of the
header. -/
def list_restore_loops (p : platform) (box : List Nat → Option α) (elsize0 : List Nat)
    (oom : Nat → Bool) (l : list_t α) (fd : stream) (numels elemlen : Nat) :
    restore_state α :=
  let st0 : restore_state α :=
    { l := l, fd := fd, elsize := elsize0, totreadlen := 0, totmemorylen := 0,
      failed := false }
  if elemlen > 0 then
    match l.attrs.unserializer with
    | some unserializer =>
      let st1 := restore_fixed_unserialize p unserializer oom elemlen numels 0 st0
      { st1 with totreadlen := numels * elemlen % 4294967296 }
    | none =>
      let st1 := restore_fixed_verbatim box oom elemlen numels 0 st0
      { st1 with totmemorylen := numels * elemlen % 4294967296,
                 totreadlen := numels * elemlen % 4294967296 }
  else
    match l.attrs.unserializer with
    | some unserializer => restore_variable_unserialize p unserializer oom numels 0 st0
    | none =>
      let st1 := restore_variable_verbatim p box oom numels 0 st0
      { st1 with totmemorylen := st1.totreadlen }

/-- The end of `list_restore_filedescriptor`, as in its body: the terminator
is read and the three tests are made. -/
def list_restore_finish (st : restore_state α) (rndterm totlistlen : Nat) :
    Nat × list_t α × stream :=
  if st.failed then (0, st.l, st.fd)
  else
    let r8 := fd_read st.fd 4
    let elsize := unbe (r8.1 ++ st.elsize.drop r8.1.length)
    let fd9 : stream := { r8.2 with pos := r8.2.bytes.length }
    if st.totreadlen ≠ totlistlen ∧ elsize = rndterm then (0, st.l, r8.2)
    else if r8.2.pos ≠ r8.2.bytes.length then (0, st.l, fd9)
    else (st.totmemorylen, st.l, fd9)

/-! ## Examples for the restore functions and the restaurant list -/

/-- The file that `list_dump_file` writes for the list of the one byte string
`1 2 3 4`: header with terminator `18 52 86 120`, total length 4, count 1,
element length 4; the element; the terminator. -/
def example_dump : List Nat :=
  [0, 1, 0, 64, 30, 24, 36, 10, 6, 0, 18, 52, 86, 120, 0, 0, 0, 4, 0, 0, 0, 1, 0, 0, 0, 4,
   0, 0, 0, 0, 1, 2, 3, 4, 18, 52, 86, 120]

/-- What `list_restore_file` returns for a file, and the elements of the
destination afterwards, when the destination is a fresh list with
`bytes_meter`. -/
def restore_example (p : platform) (file : List Nat) : Nat × List (Option (List Nat)) :=
  ((list_restore_file p some [0, 0, 0, 0] (fun _ => false) (list_of_bytes []) (some file)).1,
    list_elements
      (list_restore_file p some [0, 0, 0, 0] (fun _ => false) (list_of_bytes [])
        (some file)).2)

/-- The restaurant list after `restaurant_init` and the insertion of the
restaurants at the addresses 10, 20 and 30, which get the ids 0, 1 and 2. -/
def example_restaurants : restaurant_globals :=
  (restaurant_insert (restaurant_insert (restaurant_insert
    (restaurant_init 2000 (fun _ _ => 0)
      (restaurant_start (fun a => { id := 0, fields := a }))) 10 false).2 20 false).2
    30 false).2

/-! ## Positional lookup: the walk of the specification and the walk chosen -/

/-- Positional lookup as the specification words it, the naive walk: `NULL`
out of the range `-1..numels`, else the entry reached from the head sentinel
by `posstart + 1` steps `ptr = ptr->next`. -/
def list_findpos_naive (l : list_t α) (posstart : Int) : Nat :=
  if posstart < -1 ∨ posstart > (l.numels : Int) then 0
  else walk_next l.mem (posstart + 1).toNat l.head_sentinel

/-- The walk that `list_findpos` chooses, with the same tests as its body:
the entry it starts from, whether it follows `next` (`true`) or `prev`
(`false`), and how many times its loop runs; `none` when it returns `NULL`
at once. -/
def list_findpos_route (l : list_t α) (posstart : Int) : Option (Nat × Bool × Nat) :=
  if posstart < -1 ∨ posstart > (l.numels : Int) then none
  else if ratio_le (posstart + 1) l.numels 1 4 then
    some (l.head_sentinel, true, (posstart - (-1)).toNat)
  else if ratio_lt (posstart + 1) l.numels 1 2 then
    some (l.mid_sentinel, false, ((((l.numels - 1) / 2 : Nat) : Int) - posstart).toNat)
  else if ratio_le (posstart + 1) l.numels 3 4 then
    some (l.mid_sentinel, true, (posstart - (((l.numels - 1) / 2 : Nat) : Int)).toNat)
  else
    some (l.tail_sentinel, false, ((l.numels : Int) - posstart).toNat)

/-! ## The partition step of the quicksort -/

/-- The part of `list_sort_quicksort` between the choice of `pivotid` and the
recursive calls: the pivot entry is found, the two cursors scan and exchange,
and the last loop puts the pivot in its place. The result is the heap, the
pivot entry and `pivotid` as the recursive calls find them. -/
def quicksort_place (cmp : Option α → Option α → Int) (versus : Int) (fuel : Nat)
    (mem : Nat → list_entry_s α) (first fel last lel pivotid : Nat) :
    Option ((Nat → list_entry_s α) × Nat × Nat) :=
  let pivot :=
    if pivotid < (last - first + 1) / 2 then walk_next mem pivotid fel
    else walk_prev mem (last - first - pivotid) lel
  match quicksort_partition cmp versus pivot fuel mem fel lel with
  | none => none
  | some (mem1, left, right) =>
    if right = pivot then quicksort_finish_left cmp versus fuel mem1 left pivot pivotid
    else quicksort_finish_right cmp versus fuel mem1 right pivot pivotid

/-! ## Sorting the restaurant list (`restaurant.c`) -/

/-- The comparison `d1 < d2` of two values of type `double`: `none` is NaN,
and a comparison with NaN is false. -/
def double_lt {D : Type} [LinearOrder D] (d1 d2 : Option D) : Bool :=
  match d1, d2 with
  | some x, some y => decide (x < y)
  | _, _ => false

/-- The function `fn_comparator_restaurant_distance`: -1 when the first
restaurant is nearer to the user, 1 when it is farther, 0 otherwise. The
distance of a restaurant to the user, which the source computes with
`distance()` from the coordinates, is an input: `dist x` for the restaurant
`x`, a value of a linearly ordered type, or `none` when `distance()` returns
NaN (its `acos` is given a number above 1). The elements compared are pointers
to restaurants, not `NULL`. -/
def fn_comparator_restaurant_distance {D : Type} [LinearOrder D]
    (dist : restaurant_s → Option D) (heap : Nat → restaurant_s) (p1 p2 : Option Nat) : Int :=
  let d1 := dist (heap (p1.getD 0))
  let d2 := dist (heap (p2.getD 0))
  if double_lt d1 d2 then -1
  else if double_lt d2 d1 then 1
  else 0

/-- The function `restaurant_list_sort`: the comparator is set and the list is
sorted with direction -1. The stream of `random()` left over is returned with
the globals. -/
def restaurant_list_sort {D : Type} [LinearOrder D] (dist : restaurant_s → Option D)
    (fuel : Nat) (rnd : Nat → Nat) (g : restaurant_globals) :
    Option (restaurant_globals × (Nat → Nat)) :=
  let l1 := (list_attributes_comparator g.list_restaurants
    (some (fn_comparator_restaurant_distance dist g.heap))).2
  match list_sort fuel rnd l1 (-1) with
  | none => none
  | some (_, l2, rnd1) => some ({ g with list_restaurants := l2 }, rnd1)

/-! ## Utilities (`trunk/utils.c`) -/

/-- Description of the days of week: the table `days_of_week`. -/
def days_of_week : List String :=
  ["Sun", "Mon", "Thu", "Wed", "Thu", "Fri", "Sat"]

/-- The function `day_of_week_text`: the entry `d` of the table. An index
outside the table has no defined result: `none`. -/
def day_of_week_text (d : Int) : Option String :=
  if 0 ≤ d then days_of_week[d.toNat]? else none

/-- The function `get_random`: `rand() % max + min`, where `r` is the value
that `rand()` returns. The remainder of C truncates toward zero. A division by
zero and a sum outside of the `int` range have no defined result: `none`. -/
def get_random (r : Int) (min max : Int) : Option Int :=
  if max = 0 then none
  else
    let v := Int.tmod r max + min
    if v < -2147483648 ∨ 2147483647 < v then none else some v

/-! ## The quotient of `list_findpos` as the machine computes it

The definitions `ratio_le`, `ratio_lt` and `list_findpos` compare the quotient
`x = (float)(posstart+1) / numels` exactly. The source computes it in `float`;
here it is computed in IEEE 754 binary32 with rounding to nearest, ties to
even, each conversion and the division rounded once. The two agree on every
list of fewer than `2^23` entries (`list_findpos_binary32_eq`), and differ
from `2^24 + 1` entries on. -/

/-- The number of binary digits of `n` (0 for 0); `fuel` bounds it. -/
def bit_length : Nat → Nat → Nat
  | 0, _ => 0
  | fuel + 1, n => if n = 0 then 0 else bit_length fuel (n / 2) + 1

/-- Rounding to binary32 (24 significant binary digits, to nearest, ties to
even) of the number `q`, or, with `sticky`, of a number strictly between `q`
and `q + 1` (then `q` has more than 24 digits). The result is an integer: what
is kept of `q` is its 24 leading digits `m`, and `m + 1` when the rest `r` is
above the half of the unit, or is the half and `m` is odd. -/
def binary32_round (q : Nat) (sticky : Bool) : Nat :=
  let s := bit_length 128 q
  if s ≤ 24 then q
  else
    let unit := 2 ^ (s - 24)
    let m := q / unit
    let r := q % unit
    let half := unit / 2
    if r > half ∨ (r = half ∧ (sticky = true ∨ m % 2 = 1)) then (m + 1) * unit
    else m * unit

/-- The value of `(float)n` for a number `n` that is not negative. -/
def binary32_of_nat (n : Nat) : Nat :=
  binary32_round n false

/-- The quotient `x = (float)(posstart+1) / l->numels` of `list_findpos`, times
`2^64`: both operands are converted to binary32 (the `unsigned int` divisor by
the usual arithmetic conversions) and the quotient is rounded to binary32.
`none` is the infinity or the NaN of a division by 0. The numerator is not
negative where `list_findpos` computes `x`. For operands below `2^32` a
quotient that is not 0 is at least `2^-32` and below `2^32`: no overflow, no
subnormal number, and `a * 2^64 / b` has more than 24 binary digits, so that
the digits dropped by the integer division only matter through `sticky`. -/
def binary32_quotient (num : Int) (den : Nat) : Option Nat :=
  if den = 0 then none
  else
    let a := binary32_of_nat num.toNat
    let b := binary32_of_nat den
    some (binary32_round (a * 2 ^ 64 / b) (decide (a * 2 ^ 64 % b ≠ 0)))

/-- Test `x <= a/b` for the binary32 quotient `x` of `num` and `den`; false
for an infinity and for NaN. -/
def ratio_le_binary32 (num : Int) (den : Nat) (a b : Nat) : Bool :=
  match binary32_quotient num den with
  | none => false
  | some x => decide (b * x ≤ a * 2 ^ 64)

/-- Test `x < a/b` for the binary32 quotient `x` of `num` and `den`; false for
an infinity and for NaN. -/
def ratio_lt_binary32 (num : Int) (den : Nat) (a b : Nat) : Bool :=
  match binary32_quotient num den with
  | none => false
  | some x => decide (b * x < a * 2 ^ 64)

/-- The function `list_findpos` as the source computes it, with the quotient
`x` in binary32; the comparisons of `x` with 0.25, 0.5 and 0.75 are exact. -/
def list_findpos_binary32 (l : list_t α) (posstart : Int) : Nat :=
  if posstart < -1 ∨ posstart > (l.numels : Int) then 0
  else if ratio_le_binary32 (posstart + 1) l.numels 1 4 then
    walk_next l.mem (posstart - (-1)).toNat l.head_sentinel
  else if ratio_lt_binary32 (posstart + 1) l.numels 1 2 then
    walk_prev l.mem ((((l.numels - 1) / 2 : Nat) : Int) - posstart).toNat l.mid_sentinel
  else if ratio_le_binary32 (posstart + 1) l.numels 3 4 then
    walk_next l.mem (posstart - (((l.numels - 1) / 2 : Nat) : Int)).toNat l.mid_sentinel
  else
    walk_prev l.mem ((l.numels : Int) - posstart).toNat l.tail_sentinel

/-- Second part of `list_insert_at`, with the lookup of `list_findpos` in
binary32. -/
def list_insert_at_link_binary32 (l1 : list_t α) (lent : Nat) (data : Option α) (pos : Nat) :
    list_t α :=
  let l2 := { l1 with mem := set_data l1.mem lent data }
  let prec := list_findpos_binary32 l2 ((pos : Int) - 1)
  let succ := (l2.mem prec).next
  let m1 := set_next l2.mem prec lent
  let m2 := set_prev m1 lent prec
  let m3 := set_next m2 lent succ
  let m4 := set_prev m3 succ lent
  let l3 := { l2 with mem := m4, numels := l2.numels + 1 }
  if l3.numels = 1 then { l3 with mid_sentinel := lent }
  else if l3.numels % 2 ≠ 0 then
    if pos ≥ (l3.numels - 1) / 2 then
      { l3 with mid_sentinel := (l3.mem l3.mid_sentinel).next }
    else l3
  else
    if pos ≤ (l3.numels - 1) / 2 then
      { l3 with mid_sentinel := (l3.mem l3.mid_sentinel).prev }
    else l3

/-- The function `list_insert_at`, with the lookup in binary32. -/
def list_insert_at_binary32 (l : list_t α) (data : Option α) (pos : Nat) (oom : Bool) :
    Int × list_t α :=
  if l.iter_active ≠ 0 ∨ pos > l.numels then (-1, l)
  else
    match list_insert_at_acquire l oom with
    | none => (-1, l)
    | some (lent, l1) => (1, list_insert_at_link_binary32 l1 lent data pos)

/-- The function `list_append`, with the lookup in binary32. -/
def list_append_binary32 (l : list_t α) (data : Option α) (oom : Bool) : Int × list_t α :=
  list_insert_at_binary32 l data l.numels oom

/-- The function `list_delete_at`, with the lookup in binary32. -/
def list_delete_at_binary32 (l : list_t α) (pos : Nat) : Int × list_t α :=
  if l.iter_active ≠ 0 ∨ pos ≥ l.numels then (-1, l)
  else
    let delendo := list_findpos_binary32 l (pos : Int)
    let l1 := (list_drop_elem l delendo pos).2
    (0, { l1 with numels := l1.numels - 1 })

/-- The list made by `list_init` and one `list_append` for each element of
`xs`, no `malloc` failing, with the lookup in binary32. -/
def list_of_appends (xs : List (Option α)) : list_t α :=
  xs.foldl (fun l x => (list_append_binary32 l x false).2) (list_init).2

/-- The elements `0, 1, ..., 2^24` in this order: `2^24 + 1` elements, all
different. -/
def long_example : List (Option Nat) :=
  (List.range 16777217).map some

/-! ## A restaurant list with a distance that is NaN -/

/-- The restaurant list after `restaurant_init` and the insertion of the 25
restaurants at the addresses 101 to 125, in this order. -/
def example_positions : restaurant_globals :=
  (List.range 25).foldl (fun g i => (restaurant_insert g (101 + i) false).2)
    (restaurant_init 2000 (fun _ _ => 0)
      (restaurant_start (fun a => { id := 0, fields := a })))

/-- Distances to the user for the restaurants of `example_positions`: the
restaurant at the address `a` is at the distance `200 - a`, but for the one at
113, for which `distance()` returns NaN. -/
def example_distance (x : restaurant_s) : Option Nat :=
  if x.fields = 113 then none else some (200 - x.fields)

/-! ## Heap lemmas -/

@[simp] theorem set_data_data (mem : Nat → list_entry_s α) (p : Nat) (d : Option α) (a : Nat) :
    (set_data mem p d a).data = if a = p then d else (mem a).data := by
  unfold set_data; split <;> rfl

@[simp] theorem set_data_next (mem : Nat → list_entry_s α) (p : Nat) (d : Option α) (a : Nat) :
    (set_data mem p d a).next = (mem a).next := by
  unfold set_data; split <;> rfl

@[simp] theorem set_data_prev (mem : Nat → list_entry_s α) (p : Nat) (d : Option α) (a : Nat) :
    (set_data mem p d a).prev = (mem a).prev := by
  unfold set_data; split <;> rfl

@[simp] theorem set_next_data (mem : Nat → list_entry_s α) (p q a : Nat) :
    (set_next mem p q a).data = (mem a).data := by
  unfold set_next; split <;> rfl

@[simp] theorem set_next_next (mem : Nat → list_entry_s α) (p q a : Nat) :
    (set_next mem p q a).next = if a = p then q else (mem a).next := by
  unfold set_next; split <;> rfl

@[simp] theorem set_next_prev (mem : Nat → list_entry_s α) (p q a : Nat) :
    (set_next mem p q a).prev = (mem a).prev := by
  unfold set_next; split <;> rfl

@[simp] theorem set_prev_data (mem : Nat → list_entry_s α) (p q a : Nat) :
    (set_prev mem p q a).data = (mem a).data := by
  unfold set_prev; split <;> rfl

@[simp] theorem set_prev_next (mem : Nat → list_entry_s α) (p q a : Nat) :
    (set_prev mem p q a).next = (mem a).next := by
  unfold set_prev; split <;> rfl

@[simp] theorem set_prev_prev (mem : Nat → list_entry_s α) (p q a : Nat) :
    (set_prev mem p q a).prev = if a = p then q else (mem a).prev := by
  unfold set_prev; split <;> rfl

@[simp] theorem set_slot_apply (a : Nat → Nat) (i v j : Nat) :
    set_slot a i v j = if j = i then v else a j := rfl

/-- Two positions of a duplicate-free list holding the same value are equal. -/
theorem nodup_index_eq {ns : List Nat} (h : ns.Nodup) {i j a : Nat}
    (hi : ns[i]? = some a) (hj : ns[j]? = some a) : i = j := by
  have hlt : i < ns.length := by
    rcases List.getElem?_eq_some.1 hi with ⟨h1, _⟩; exact h1
  exact List.getElem?_inj hlt h (hi.trans hj.symm)

/-- A position inside a list holds some value. -/
theorem exists_getElem?_of_lt {ns : List Nat} {i : Nat} (h : i < ns.length) :
    ∃ b, ns[i]? = some b := ⟨ns[i], List.getElem?_eq_getElem h⟩

/-- A position that holds a value is inside the list. -/
theorem lt_length_of_getElem? {ns : List Nat} {i a : Nat} (h : ns[i]? = some a) :
    i < ns.length := by
  rcases List.getElem?_eq_some.1 h with ⟨h1, _⟩; exact h1

/-- Walking `k` links forward along a linked chain moves `k` positions on. -/
theorem walk_next_linked {mem : Nat → list_entry_s α} {ns : List Nat} (h : Linked mem ns) :
    ∀ (k i a : Nat), ns[i]? = some a → i + k < ns.length →
      ns[i + k]? = some (walk_next mem k a) := by
  intro k
  induction k with
  | zero => intro i a hi _; simpa [walk_next] using hi
  | succ k ih =>
    intro i a hi hlt
    obtain ⟨b, hb⟩ := exists_getElem?_of_lt (show i + 1 < ns.length by omega)
    have hn := (h i a b hi hb).1
    have := ih (i + 1) b hb (by omega)
    simp only [walk_next, hn]
    rw [show i + (k + 1) = i + 1 + k by omega]
    exact this

/-- Walking `k` links backward along a linked chain moves `k` positions back. -/
theorem walk_prev_linked {mem : Nat → list_entry_s α} {ns : List Nat} (h : Linked mem ns) :
    ∀ (k i a : Nat), ns[i]? = some a → k ≤ i →
      ns[i - k]? = some (walk_prev mem k a) := by
  intro k
  induction k with
  | zero => intro i a hi _; simpa [walk_prev] using hi
  | succ k ih =>
    intro i a hi hle
    have hlt : i < ns.length := lt_length_of_getElem? hi
    obtain ⟨b, hb⟩ := exists_getElem?_of_lt (show i - 1 < ns.length by omega)
    have hi' : ns[i - 1 + 1]? = some a := by
      rw [show i - 1 + 1 = i by omega]; exact hi
    have hp := (h (i - 1) b a hb hi').2
    have := ih (i - 1) b hb (by omega)
    simp only [walk_prev, hp]
    rw [show i - (k + 1) = i - 1 - k by omega]
    exact this

/-! ## Positional lookup is correct -/

theorem chain_length (l : list_t α) (body : List Nat) :
    (chain l body).length = body.length + 2 := by
  simp [chain]

theorem chain_zero (l : list_t α) (body : List Nat) :
    (chain l body)[0]? = some l.head_sentinel := by
  simp [chain]

theorem chain_succ (l : list_t α) (body : List Nat) {i a : Nat} (h : body[i]? = some a) :
    (chain l body)[i + 1]? = some a := by
  have := lt_length_of_getElem? h
  simp [chain, List.getElem?_append_left this, h]

theorem chain_last (l : list_t α) (body : List Nat) :
    (chain l body)[body.length + 1]? = some l.tail_sentinel := by
  simp [chain]

/-- On a well-formed list `list_findpos` returns the entry of the chain at
position `posstart + 1` (the chain starts with the head sentinel). -/
theorem list_findpos_spec {l : list_t α} {body : List Nat} (h : Inv l body) (j : Nat)
    (hj : j ≤ l.numels + 1) :
    (chain l body)[j]? = some (list_findpos l ((j : Int) - 1)) := by
  have hlen := chain_length l body
  have hn := h.numels_eq
  unfold list_findpos
  rw [if_neg (by omega)]
  simp only [ratio_le, ratio_lt, decide_eq_true_eq]
  split
  · -- from the head
    have := walk_next_linked h.linked j 0 _ (chain_zero l body) (by omega)
    rw [show ((j : Int) - 1 - -1).toNat = j by omega]
    simpa using this
  · split
    · -- back from mid
      rename_i h1 h2
      have hpos : 0 < l.numels := by omega
      have hm := chain_succ l body (h.mid hpos)
      have := walk_prev_linked h.linked ((((l.numels - 1) / 2 : Nat) : Int) - ((j : Int) - 1)).toNat _ _ hm (by omega)
      rw [← this]; congr 1; omega
    · split
      · rename_i h1 h2 h3
        have hpos : 0 < l.numels := by omega
        have hm := chain_succ l body (h.mid hpos)
        have := walk_next_linked h.linked (((j : Int) - 1) - (((l.numels - 1) / 2 : Nat) : Int)).toNat _ _ hm (by omega)
        rw [← this]; congr 1; omega
      · rename_i h1 h2 h3
        have ht := chain_last l body
        have := walk_prev_linked h.linked ((l.numels : Int) - ((j : Int) - 1)).toNat _ _ ht (by omega)
        rw [← this]; congr 1; omega

/-! ## Linking and unlinking an entry -/

/-- Positions of a list with `x` inserted before position `k`. -/
theorem getElem?_insert {ns : List Nat} {k : Nat} (hk : k ≤ ns.length) (x i : Nat) :
    (ns.take k ++ x :: ns.drop k)[i]? =
      if i < k then ns[i]? else if i = k then some x else ns[i - 1]? := by
  have hlen : (ns.take k).length = k := by simp [hk]
  by_cases h1 : i < k
  · rw [if_pos h1, List.getElem?_append_left (by omega), List.getElem?_take_of_lt h1]
  · rw [if_neg h1, List.getElem?_append_right (by omega), hlen]
    by_cases h2 : i = k
    · subst h2; simp
    · rw [if_neg h2]
      obtain ⟨j, rfl⟩ : ∃ j, i = k + (j + 1) := ⟨i - k - 1, by omega⟩
      rw [show k + (j + 1) - k = j + 1 by omega, List.getElem?_cons_succ, List.getElem?_drop]
      congr 1

/-- An entry of a list differs from any value that is not in the list. -/
theorem ne_of_getElem?_of_not_mem {ns : List Nat} {i a x : Nat} (h : ns[i]? = some a)
    (hx : x ∉ ns) : a ≠ x := by
  rintro rfl
  exact hx (List.mem_iff_getElem?.2 ⟨i, h⟩)

/-- Entries at different positions of a duplicate-free list differ. -/
theorem ne_of_index_ne {ns : List Nat} (hnd : ns.Nodup) {i j a b : Nat}
    (hi : ns[i]? = some a) (hj : ns[j]? = some b) (hij : i ≠ j) : a ≠ b := by
  rintro rfl
  exact hij (nodup_index_eq hnd hi hj)

/-- Linking a fresh entry `lent` between two neighbours of a linked chain
gives a linked chain. -/
theorem linked_insert {mem m4 : Nat → list_entry_s α} {ns : List Nat} (hl : Linked mem ns)
    (hnd : ns.Nodup) {k prec succ lent : Nat} (hp : ns[k]? = some prec)
    (hs : ns[k + 1]? = some succ) (hlent : lent ∉ ns)
    (hnext : ∀ a, (m4 a).next = if a = lent then succ else if a = prec then lent
      else (mem a).next)
    (hprev : ∀ a, (m4 a).prev = if a = succ then lent else if a = lent then prec
      else (mem a).prev) :
    Linked m4 (ns.take (k + 1) ++ lent :: ns.drop (k + 1)) := by
  have hk : k + 1 ≤ ns.length := by have := lt_length_of_getElem? hs; omega
  have hpl : prec ≠ lent := ne_of_getElem?_of_not_mem hp hlent
  have hsl : succ ≠ lent := ne_of_getElem?_of_not_mem hs hlent
  intro i a b ha hb
  rw [getElem?_insert hk] at ha hb
  rw [hnext a, hprev b]
  by_cases c1 : i + 1 < k + 1
  · -- both entries before the new one
    rw [if_pos (by omega)] at ha
    rw [if_pos c1] at hb
    have h1 := hl i a b ha hb
    have ha1 : a ≠ lent := ne_of_getElem?_of_not_mem ha hlent
    have ha2 : a ≠ prec := ne_of_index_ne hnd ha hp (by omega)
    have hb1 : b ≠ lent := ne_of_getElem?_of_not_mem hb hlent
    have hb2 : b ≠ succ := ne_of_index_ne hnd hb hs (by omega)
    simp [ha1, ha2, hb1, hb2, h1.1, h1.2]
  · by_cases c2 : i = k
    · -- predecessor and new entry
      subst c2
      rw [if_pos (by omega)] at ha
      rw [if_neg (by omega), if_pos rfl] at hb
      have ha' : a = prec := Option.some.inj (ha.symm.trans hp)
      have hb' : b = lent := (Option.some.inj hb).symm
      subst ha' hb'
      simp [hpl, Ne.symm hsl]
    · by_cases c3 : i = k + 1
      · -- new entry and successor
        subst c3
        rw [if_neg (by omega), if_pos rfl] at ha
        rw [if_neg (by omega), if_neg (by omega)] at hb
        have ha' : a = lent := (Option.some.inj ha).symm
        have hb' : b = succ := by
          rw [show k + 1 + 1 - 1 = k + 1 by omega] at hb
          exact Option.some.inj (hb.symm.trans hs)
        subst ha' hb'
        simp
      · -- both entries after the new one
        rw [if_neg (by omega), if_neg (by omega)] at ha
        rw [if_neg (by omega), if_neg (by omega)] at hb
        rw [show i + 1 - 1 = i - 1 + 1 by omega] at hb
        have h1 := hl (i - 1) a b ha hb
        have ha1 : a ≠ lent := ne_of_getElem?_of_not_mem ha hlent
        have ha2 : a ≠ prec := ne_of_index_ne hnd ha hp (by omega)
        have hb1 : b ≠ lent := ne_of_getElem?_of_not_mem hb hlent
        have hb2 : b ≠ succ := ne_of_index_ne hnd hb hs (by omega)
        simp [ha1, ha2, hb1, hb2, h1.1, h1.2]

/-- Unlinking the entry at position `k` of a linked chain gives a linked
chain. -/
theorem linked_erase {mem m2 : Nat → list_entry_s α} {ns : List Nat} (hl : Linked mem ns)
    (hnd : ns.Nodup) {k prec succ : Nat} (hk : 0 < k) (hp : ns[k - 1]? = some prec)
    (hs : ns[k + 1]? = some succ)
    (hnext : ∀ a, (m2 a).next = if a = prec then succ else (mem a).next)
    (hprev : ∀ a, (m2 a).prev = if a = succ then prec else (mem a).prev) :
    Linked m2 (ns.eraseIdx k) := by
  intro i a b ha hb
  rw [List.getElem?_eraseIdx] at ha hb
  rw [hnext a, hprev b]
  by_cases c1 : i + 1 < k
  · rw [if_pos (by omega)] at ha
    rw [if_pos c1] at hb
    have h1 := hl i a b ha hb
    have ha2 : a ≠ prec := ne_of_index_ne hnd ha hp (by omega)
    have hb2 : b ≠ succ := ne_of_index_ne hnd hb hs (by omega)
    simp [ha2, hb2, h1.1, h1.2]
  · by_cases c2 : i + 1 = k
    · rw [if_pos (by omega)] at ha
      rw [if_neg (by omega)] at hb
      have ha' : a = prec := by
        rw [show i = k - 1 by omega] at ha
        exact Option.some.inj (ha.symm.trans hp)
      have hb' : b = succ := by
        rw [show i + 1 + 1 = k + 1 by omega] at hb
        exact Option.some.inj (hb.symm.trans hs)
      subst ha' hb'
      simp
    · rw [if_neg (by omega)] at ha
      rw [if_neg (by omega)] at hb
      have h1 := hl (i + 1) a b ha hb
      have ha2 : a ≠ prec := ne_of_index_ne hnd ha hp (by omega)
      have hb2 : b ≠ succ := ne_of_index_ne hnd hb hs (by omega)
      simp [ha2, hb2, h1.1, h1.2]

/-! ## Frame of the linking step of `list_insert_at` -/

/-- The heap after `list_insert_at_link`, as the five assignments of the
source. -/
theorem list_insert_at_link_mem (l1 : list_t α) (lent : Nat) (data : Option α) (pos : Nat) :
    (list_insert_at_link l1 lent data pos).mem =
      let m0 := set_data l1.mem lent data
      let prec := list_findpos { l1 with mem := m0 } ((pos : Int) - 1)
      let succ := (m0 prec).next
      set_prev (set_next (set_prev (set_next m0 prec lent) lent prec) lent succ) succ lent := by
  unfold list_insert_at_link
  simp only []
  split_ifs <;> rfl

theorem list_insert_at_link_numels (l1 : list_t α) (lent : Nat) (data : Option α) (pos : Nat) :
    (list_insert_at_link l1 lent data pos).numels = l1.numels + 1 := by
  unfold list_insert_at_link
  simp only []
  split_ifs <;> rfl

theorem list_insert_at_link_frame (l1 : list_t α) (lent : Nat) (data : Option α) (pos : Nat) :
    (list_insert_at_link l1 lent data pos).brk = l1.brk ∧
    (list_insert_at_link l1 lent data pos).head_sentinel = l1.head_sentinel ∧
    (list_insert_at_link l1 lent data pos).tail_sentinel = l1.tail_sentinel ∧
    (list_insert_at_link l1 lent data pos).spareels = l1.spareels ∧
    (list_insert_at_link l1 lent data pos).spareelsnum = l1.spareelsnum ∧
    (list_insert_at_link l1 lent data pos).iter_active = l1.iter_active ∧
    (list_insert_at_link l1 lent data pos).iter_pos = l1.iter_pos ∧
    (list_insert_at_link l1 lent data pos).iter_curentry = l1.iter_curentry ∧
    (list_insert_at_link l1 lent data pos).attrs = l1.attrs := by
  unfold list_insert_at_link
  simp only []
  split_ifs <;> exact ⟨rfl, rfl, rfl, rfl, rfl, rfl, rfl, rfl, rfl⟩


theorem list_insert_at_link_mid (l1 : list_t α) (lent : Nat) (data : Option α) (pos : Nat) :
    (list_insert_at_link l1 lent data pos).mid_sentinel =
      if l1.numels + 1 = 1 then lent
      else if (l1.numels + 1) % 2 ≠ 0 then
        if pos ≥ (l1.numels + 1 - 1) / 2 then
          ((list_insert_at_link l1 lent data pos).mem l1.mid_sentinel).next
        else l1.mid_sentinel
      else
        if pos ≤ (l1.numels + 1 - 1) / 2 then
          ((list_insert_at_link l1 lent data pos).mem l1.mid_sentinel).prev
        else l1.mid_sentinel := by
  unfold list_insert_at_link
  simp only []
  split_ifs <;> rfl

/-- The chain of a list with an entry more. -/
theorem chain_insert (l l1 : list_t α) (body : List Nat) (lent pos : Nat)
    (hpos : pos ≤ body.length) (hh : l.head_sentinel = l1.head_sentinel)
    (ht : l.tail_sentinel = l1.tail_sentinel) :
    chain l (body.take pos ++ lent :: body.drop pos) =
      (chain l1 body).take (pos + 1) ++ lent :: (chain l1 body).drop (pos + 1) := by
  simp [chain, hh, ht, List.take_append_of_le_length hpos, List.drop_append_of_le_length hpos]

/-- Changing the payload of an entry that is neither a sentinel nor needed
keeps the invariant. -/
theorem Inv.set_payload {l : list_t α} {body : List Nat} (h : Inv l body) (p : Nat)
    (d : Option α) (hh : p ≠ l.head_sentinel) (ht : p ≠ l.tail_sentinel) :
    Inv { l with mem := set_data l.mem p d } body where
  numels_eq := h.numels_eq
  nodup := h.nodup
  valid := h.valid
  linked := by
    intro i a b ha hb
    have := h.linked i a b ha hb
    simpa using this
  head_prev := by simpa using h.head_prev
  tail_next := by simpa using h.tail_next
  head_data := by simpa [Ne.symm hh] using h.head_data
  tail_data := by simpa [Ne.symm ht] using h.tail_data
  mid := h.mid
  spare_le := h.spare_le


/-- Consecutive entries of the body are linked. -/
theorem body_linked {l : list_t α} {body : List Nat} (hl : Linked l.mem (chain l body))
    {i a b : Nat} (ha : body[i]? = some a) (hb : body[i + 1]? = some b) :
    (l.mem a).next = b ∧ (l.mem b).prev = a :=
  hl (i + 1) a b (chain_succ l body ha) (chain_succ l body hb)

/-- Linking a fresh entry at position `pos` of a well-formed list gives a
well-formed list whose entries are the old ones with the new entry at index
`pos`. -/
theorem list_insert_at_link_inv {l1 : list_t α} {body : List Nat} (h : Inv l1 body)
    {lent : Nat} (hf1 : lent ∉ list_spares l1 ++ chain l1 body) (hf2 : lent ≠ 0)
    (hf3 : lent < l1.brk) {pos : Nat} (hpos : pos ≤ l1.numels) (d : Option α) :
    Inv (list_insert_at_link l1 lent d pos) (body.take pos ++ lent :: body.drop pos) := by
  have hn := h.numels_eq
  have hlen := chain_length l1 body
  have hfc : lent ∉ chain l1 body := fun hm => hf1 (List.mem_append_right _ hm)
  have hndc : (chain l1 body).Nodup := (List.nodup_append.1 h.nodup).2.1
  have hhead : lent ≠ l1.head_sentinel := by
    intro e; apply hfc; rw [e]; simp [chain]
  have htail : lent ≠ l1.tail_sentinel := by
    intro e; apply hfc; rw [e]; simp [chain]
  have h2 := h.set_payload lent d hhead htail
  have hp := list_findpos_spec h2 pos (show pos ≤ l1.numels + 1 by omega)
  change (chain l1 body)[pos]? = some _ at hp
  obtain ⟨succ, hs⟩ := exists_getElem?_of_lt (show pos + 1 < (chain l1 body).length by omega)
  obtain ⟨hbrk, hhd, htl, hsp, hspn, -, -, -, -⟩ := list_insert_at_link_frame l1 lent d pos
  have hmem := list_insert_at_link_mem l1 lent d pos
  simp only [] at hmem
  have hnum := list_insert_at_link_numels l1 lent d pos
  have hmid := list_insert_at_link_mid l1 lent d pos
  generalize hprec :
    list_findpos { l1 with mem := set_data l1.mem lent d } ((pos : Int) - 1) = prec at hp hmem
  have hsucc : (set_data l1.mem lent d prec).next = succ := by
    simpa using (h.linked pos prec succ hp hs).1
  simp only [hsucc] at hmem
  generalize list_insert_at_link l1 lent d pos = l4 at *
  have hnext : ∀ a, (l4.mem a).next =
      if a = lent then succ else if a = prec then lent else (l1.mem a).next := by
    intro a; rw [hmem]; simp
  have hprev : ∀ a, (l4.mem a).prev =
      if a = succ then lent else if a = lent then prec else (l1.mem a).prev := by
    intro a; rw [hmem]; simp
  have hdata : ∀ a, (l4.mem a).data = if a = lent then d else (l1.mem a).data := by
    intro a; rw [hmem]; simp
  have hch := chain_insert l4 l1 body lent pos (by omega) hhd htl
  have hspares : list_spares l4 = list_spares l1 := by simp [list_spares, hsp, hspn]
  have hlinked : Linked l4.mem (chain l4 (body.take pos ++ lent :: body.drop pos)) := by
    rw [hch]; exact linked_insert h.linked hndc hp hs hfc hnext hprev
  have hperm : (list_spares l4 ++ chain l4 (body.take pos ++ lent :: body.drop pos)).Perm
      (lent :: (list_spares l1 ++ chain l1 body)) := by
    rw [hch, hspares]
    refine (List.Perm.append_left _ ?_).trans List.perm_middle
    exact List.perm_middle.trans (by rw [List.take_append_drop])
  have hget := fun i => getElem?_insert (show pos ≤ body.length by omega) lent i
  refine ⟨?_, ?_, ?_, hlinked, ?_, ?_, ?_, ?_, ?_, ?_⟩
  · simp [hnum, hn]; omega
  · exact hperm.nodup_iff.2 (List.nodup_cons.2 ⟨hf1, h.nodup⟩)
  · intro a ha
    rcases List.mem_cons.1 (hperm.mem_iff.1 ha) with rfl | ha'
    · exact ⟨hf2, by omega⟩
    · have := h.valid a ha'; exact ⟨this.1, by omega⟩
  · -- head.prev
    rw [hhd, hprev]
    have h1 : l1.head_sentinel ≠ succ :=
      ne_of_index_ne hndc (chain_zero l1 body) hs (by omega)
    simp [h1, Ne.symm hhead, h.head_prev]
  · rw [htl, hnext]
    have h1 : l1.tail_sentinel ≠ prec :=
      ne_of_index_ne hndc (chain_last l1 body) hp (by omega)
    simp [h1, Ne.symm htail, h.tail_next]
  · rw [hhd, hdata]; simp [Ne.symm hhead, h.head_data]
  · rw [htl, hdata]; simp [Ne.symm htail, h.tail_data]
  · -- the mid pointer
    intro _
    rw [hnum, hmid]
    by_cases c0 : l1.numels + 1 = 1
    · rw [if_pos c0, hget]
      have : pos = 0 := by omega
      subst this
      simp [show l1.numels = 0 by omega]
    · rw [if_neg c0]
      have hm := h.mid (by omega)
      by_cases c1 : (l1.numels + 1) % 2 ≠ 0
      · rw [if_pos c1]
        by_cases c2 : pos ≥ (l1.numels + 1 - 1) / 2
        · rw [if_pos c2]
          have ha : (body.take pos ++ lent :: body.drop pos)[(l1.numels - 1) / 2]? =
              some l1.mid_sentinel := by
            rw [hget, if_pos (by omega)]; exact hm
          obtain ⟨b, hb⟩ := exists_getElem?_of_lt
            (show (l1.numels - 1) / 2 + 1 < (body.take pos ++ lent :: body.drop pos).length by
              simp; omega)
          rw [(body_linked hlinked ha hb).1, ← hb]
          congr 1; omega
        · rw [if_neg c2, hget, if_neg (by omega), if_neg (by omega), ← hm]
          congr 1; omega
      · rw [if_neg c1]
        by_cases c2 : pos ≤ (l1.numels + 1 - 1) / 2
        · rw [if_pos c2]
          have hb : (body.take pos ++ lent :: body.drop pos)[(l1.numels - 1) / 2 + 1]? =
              some l1.mid_sentinel := by
            rw [hget, if_neg (by omega), if_neg (by omega)]; exact hm
          obtain ⟨a, ha⟩ := exists_getElem?_of_lt
            (show (l1.numels - 1) / 2 < (body.take pos ++ lent :: body.drop pos).length by
              simp; omega)
          rw [(body_linked hlinked ha hb).2, ← ha]
          congr 1; omega
        · rw [if_neg c2, hget, if_pos (by omega), ← hm]
          congr 1; omega
  · rw [hspn]; exact h.spare_le

/-! ## Acquiring an entry -/

/-- The free-list of a list with one spare entry more. -/
theorem list_spares_succ (spareels : Nat → Nat) (n : Nat) :
    (List.range (n + 1)).map spareels = (List.range n).map spareels ++ [spareels n] := by
  simp [List.range_succ]

/-- The entry acquired by `list_insert_at` is allocated, is not `NULL`, and
is neither on the chain nor on the free-list that remains. -/
theorem list_insert_at_acquire_spec {l : list_t α} {body : List Nat} (h : Inv l body)
    {oom : Bool} {lent : Nat} {l1 : list_t α}
    (hacq : list_insert_at_acquire l oom = some (lent, l1)) :
    Inv l1 body ∧ lent ∉ list_spares l1 ++ chain l1 body ∧ lent ≠ 0 ∧ lent < l1.brk ∧
      l1.mem = l.mem ∧ l1.numels = l.numels ∧ l1.iter_active = l.iter_active ∧
      l1.attrs = l.attrs ∧ l1.iter_pos = l.iter_pos ∧ l1.iter_curentry = l.iter_curentry := by
  unfold list_insert_at_acquire at hacq
  split_ifs at hacq with c1 c2
  · -- from the free-list
    simp only [Option.some.injEq, Prod.mk.injEq] at hacq
    obtain ⟨rfl, rfl⟩ := hacq
    obtain ⟨n, hn⟩ : ∃ n, l.spareelsnum = n + 1 := ⟨l.spareelsnum - 1, by omega⟩
    have hsp : list_spares l = (List.range n).map l.spareels ++ [l.spareels n] := by
      simp only [list_spares, hn]; exact list_spares_succ _ _
    have hperm : (list_spares l ++ chain l body).Perm
        (l.spareels n :: ((List.range n).map l.spareels ++ chain l body)) := by
      rw [hsp, List.append_assoc]; exact List.perm_middle
    have hnd := List.nodup_cons.1 (hperm.nodup_iff.1 h.nodup)
    have hv := h.valid (l.spareels n) (hperm.mem_iff.2 (List.mem_cons_self _ _))
    have hn1 : l.spareelsnum - 1 = n := by omega
    have hsp1 : list_spares { l with spareelsnum := l.spareelsnum - 1 } =
        (List.range n).map l.spareels := by
      simp only [list_spares, hn1]
    have hch1 : chain { l with spareelsnum := l.spareelsnum - 1 } body = chain l body := rfl
    refine ⟨⟨h.numels_eq, ?_, ?_, h.linked, h.head_prev, h.tail_next, h.head_data,
      h.tail_data, h.mid, ?_⟩, ?_, ?_, ?_, rfl, rfl, rfl, rfl, rfl, rfl⟩
    · rw [hsp1, hch1]; exact hnd.2
    · intro a ha
      rw [hsp1, hch1] at ha
      exact h.valid a (hperm.mem_iff.2 (List.mem_cons_of_mem _ ha))
    · have := h.spare_le; simp only [hn] at this; simp only [hn1]; omega
    · rw [hsp1, hch1, hn1]; exact hnd.1
    · rw [hn1]; exact hv.1
    · rw [hn1]; exact hv.2
  · simp only [Option.some.injEq, Prod.mk.injEq] at hacq
    obtain ⟨rfl, rfl⟩ := hacq
    have hh := h.valid l.head_sentinel (by simp [chain])
    refine ⟨⟨h.numels_eq, h.nodup, ?_, h.linked, h.head_prev, h.tail_next, h.head_data,
      h.tail_data, h.mid, h.spare_le⟩, ?_, by omega, by simp, rfl, rfl, rfl, rfl, rfl, rfl⟩
    · intro a ha
      have := h.valid a ha
      exact ⟨this.1, by simp only; omega⟩
    · intro hm
      have := (h.valid l.brk hm).2
      omega

/-- An entry is acquired unless the free-list is empty and `malloc` fails. -/
theorem list_insert_at_acquire_isSome (l : list_t α) {oom : Bool}
    (hok : oom = false ∨ 0 < l.spareelsnum) :
    ∃ lent l1, list_insert_at_acquire l oom = some (lent, l1) := by
  unfold list_insert_at_acquire
  split_ifs with c1 c2
  · exact ⟨_, _, rfl⟩
  · rcases hok with h | h
    · simp [h] at c2
    · omega
  · exact ⟨_, _, rfl⟩

/-! ## The entries seen from the head -/

/-- Following `next` from position `i + 1` of the chain lists the entries
from index `i` on. -/
theorem entries_from_spec {l : list_t α} {body : List Nat} (hl : Linked l.mem (chain l body))
    (hnd : (chain l body).Nodup) :
    ∀ (k i p : Nat), i + k = body.length → (chain l body)[i + 1]? = some p →
      entries_from l.mem l.tail_sentinel k p = body.drop i := by
  intro k
  induction k with
  | zero =>
    intro i p hi _
    have : body.length ≤ i := by omega
    simp [entries_from, List.drop_eq_nil_of_le this]
  | succ k ih =>
    intro i p hi hp
    have hlen := chain_length l body
    have hpt : p ≠ l.tail_sentinel :=
      ne_of_index_ne hnd hp (chain_last l body) (by omega)
    obtain ⟨q, hq⟩ := exists_getElem?_of_lt (show i + 1 + 1 < (chain l body).length by omega)
    have hnx := (hl (i + 1) p q hp hq).1
    have hbi : body[i]? = some p := by
      have : (chain l body)[i + 1]? = body[i]? := by
        simp [chain, List.getElem?_append_left (show i < body.length by omega)]
      rw [← this]; exact hp
    rw [entries_from, if_neg hpt, hnx, ih (i + 1) q (by omega) hq]
    have hi' : i < body.length := by omega
    rw [List.drop_eq_getElem_cons hi']
    congr 1
    rw [List.getElem?_eq_getElem hi'] at hbi
    exact (Option.some.inj hbi).symm

/-- The entries of a well-formed list are those of its representation. -/
theorem list_entries_eq {l : list_t α} {body : List Nat} (h : Inv l body) :
    list_entries l = body := by
  have hlen := chain_length l body
  have hndc : (chain l body).Nodup := (List.nodup_append.1 h.nodup).2.1
  obtain ⟨q, hq⟩ := exists_getElem?_of_lt (show 0 + 1 < (chain l body).length by omega)
  have hnx := (h.linked 0 _ q (chain_zero l body) hq).1
  unfold list_entries
  rw [hnx, entries_from_spec h.linked hndc l.numels 0 q (by simp [h.numels_eq]) hq]
  simp

/-- The elements of a well-formed list are the payloads of its entries. -/
theorem list_elements_eq {l : list_t α} {body : List Nat} (h : Inv l body) :
    list_elements l = body.map (fun p => (l.mem p).data) := by
  unfold list_elements; rw [list_entries_eq h]

/-! ## Deletion -/

/-- The free-list after a push. -/
theorem list_spares_push (spareels : Nat → Nat) (n tmp : Nat) :
    (List.range (n + 1)).map (set_slot spareels n tmp) =
      (List.range n).map spareels ++ [tmp] := by
  rw [list_spares_succ]
  congr 1
  · apply List.map_congr_left
    intro i hi
    have : i ≠ n := by have := List.mem_range.1 hi; omega
    simp [this]
  · simp

/-- The fields of the list after a `list_delete_at` that passes the guard. -/
theorem list_delete_at_fields (l : list_t α) (pos : Nat)
    (hok : ¬(l.iter_active ≠ 0 ∨ pos ≥ l.numels)) (htmp : list_findpos l (pos : Int) ≠ 0) :
    (list_delete_at l pos).1 = 0 ∧
    (list_delete_at l pos).2.mem =
      (let tmp := list_findpos l (pos : Int)
       let m1 := set_next l.mem (l.mem tmp).prev (l.mem tmp).next
       set_prev m1 (m1 tmp).next (m1 tmp).prev) ∧
    (list_delete_at l pos).2.mid_sentinel =
      (if l.numels % 2 ≠ 0 then
        if pos ≥ l.numels / 2 then (l.mem l.mid_sentinel).prev else l.mid_sentinel
      else
        if pos < l.numels / 2 then (l.mem l.mid_sentinel).next else l.mid_sentinel) ∧
    list_spares (list_delete_at l pos).2 =
      (if l.spareelsnum < ACDLL_MAX_SPARE_ELEMS then
        list_spares l ++ [list_findpos l (pos : Int)] else list_spares l) ∧
    (list_delete_at l pos).2.spareelsnum =
      (if l.spareelsnum < ACDLL_MAX_SPARE_ELEMS then l.spareelsnum + 1 else l.spareelsnum) ∧
    (list_delete_at l pos).2.numels = l.numels - 1 ∧
    (list_delete_at l pos).2.brk = l.brk ∧
    (list_delete_at l pos).2.head_sentinel = l.head_sentinel ∧
    (list_delete_at l pos).2.tail_sentinel = l.tail_sentinel ∧
    (list_delete_at l pos).2.iter_active = l.iter_active ∧
    (list_delete_at l pos).2.iter_pos = l.iter_pos ∧
    (list_delete_at l pos).2.iter_curentry = l.iter_curentry ∧
    (list_delete_at l pos).2.attrs = l.attrs := by
  unfold list_delete_at list_drop_elem
  rw [if_neg hok]
  simp only [if_neg htmp]
  split_ifs <;> (repeat' constructor) <;>
    first
      | rfl
      | (simp only [list_spares]; exact list_spares_push _ _ _)

/-- Positions of the chain after an entry is removed. -/
theorem chain_erase (l l1 : list_t α) (body : List Nat) (pos : Nat)
    (hh : l.head_sentinel = l1.head_sentinel) (ht : l.tail_sentinel = l1.tail_sentinel)
    (hpos : pos < body.length) :
    chain l (body.eraseIdx pos) = (chain l1 body).eraseIdx (pos + 1) := by
  simp [chain, hh, ht, List.eraseIdx_append_of_lt_length hpos]

/-- A list is a permutation of one of its entries followed by the others. -/
theorem perm_cons_eraseIdx {ns : List Nat} {k a : Nat} (h : ns[k]? = some a) :
    ns.Perm (a :: ns.eraseIdx k) := by
  have hk := lt_length_of_getElem? h
  have ha : ns[k] = a := by
    rw [List.getElem?_eq_getElem hk] at h; exact Option.some.inj h
  have h1 : ns = ns.take k ++ a :: ns.drop (k + 1) := by
    conv_lhs => rw [← List.take_append_drop k ns, List.drop_eq_getElem_cons hk, ha]
  rw [List.eraseIdx_eq_take_drop_succ]
  conv_lhs => rw [h1]
  exact List.perm_middle


/-- Deleting the entry of index `pos` of a well-formed idle list succeeds and
gives a well-formed list whose entries are the old ones without that entry;
no payload changes. -/
theorem list_delete_at_inv {l : list_t α} {body : List Nat} (h : Inv l body)
    (hidle : l.iter_active = 0) {pos : Nat} (hpos : pos < l.numels) :
    (list_delete_at l pos).1 = 0 ∧ Inv (list_delete_at l pos).2 (body.eraseIdx pos) ∧
      (∀ a, ((list_delete_at l pos).2.mem a).data = (l.mem a).data) ∧
      (list_delete_at l pos).2.iter_active = l.iter_active ∧
      (list_delete_at l pos).2.attrs = l.attrs := by
  have hn := h.numels_eq
  have hlen := chain_length l body
  have hndc : (chain l body).Nodup := (List.nodup_append.1 h.nodup).2.1
  have hok : ¬(l.iter_active ≠ 0 ∨ pos ≥ l.numels) := by
    rw [hidle]; simp; omega
  have ht := list_findpos_spec h (pos + 1) (by omega)
  rw [show (((pos + 1 : Nat) : Int) - 1) = (pos : Int) by push_cast; ring] at ht
  have htv := h.valid (list_findpos l (pos : Int))
    (List.mem_append_right _ (List.mem_iff_getElem?.2 ⟨_, ht⟩))
  obtain ⟨hret, hmem, hmid, hspares, hspn, hnum, hbrk, hhd, htl, hia, -, -, hattr⟩ :=
    list_delete_at_fields l pos hok htv.1
  simp only [] at hmem
  generalize list_findpos l (pos : Int) = tmp at *
  generalize list_delete_at l pos = r at *
  obtain ⟨ret, l4⟩ := r
  simp only at hret hmem hmid hspares hspn hnum hbrk hhd htl hia hattr ⊢
  obtain ⟨P, hP⟩ := exists_getElem?_of_lt (show pos < (chain l body).length by omega)
  obtain ⟨N, hN⟩ := exists_getElem?_of_lt (show pos + 1 + 1 < (chain l body).length by omega)
  have hlP := h.linked pos P tmp hP ht
  have hlN := h.linked (pos + 1) tmp N ht hN
  have hnext : ∀ a, (l4.mem a).next = if a = P then N else (l.mem a).next := by
    intro a; rw [hmem]; simp [hlP.2, hlN.1]
  have hprev : ∀ a, (l4.mem a).prev = if a = N then P else (l.mem a).prev := by
    intro a; rw [hmem]; simp [hlP.2, hlN.1]
  have hdata : ∀ a, (l4.mem a).data = (l.mem a).data := by
    intro a; rw [hmem]; simp
  have hch := chain_erase l4 l body pos hhd htl (by omega)
  have hlinked : Linked l4.mem (chain l4 (body.eraseIdx pos)) := by
    rw [hch]
    exact linked_erase h.linked hndc (by omega) (by simpa using hP) hN hnext hprev
  have hpermc := perm_cons_eraseIdx ht
  have hget := fun i => List.getElem?_eraseIdx body pos i
  have hsub : ∀ a, a ∈ list_spares l4 ++ chain l4 (body.eraseIdx pos) →
      a ∈ list_spares l ++ chain l body := by
    intro a ha
    rw [hch, hspares] at ha
    rcases List.mem_append.1 ha with h1 | h1
    · split_ifs at h1
      · rcases List.mem_append.1 h1 with h2 | h2
        · exact List.mem_append_left _ h2
        · rw [List.mem_singleton] at h2; subst h2
          exact List.mem_append_right _ (List.mem_iff_getElem?.2 ⟨_, ht⟩)
      · exact List.mem_append_left _ h1
    · exact List.mem_append_right _ (hpermc.mem_iff.2 (List.mem_cons_of_mem _ h1))
  refine ⟨hret, ⟨?_, ?_, ?_, hlinked, ?_, ?_, ?_, ?_, ?_, ?_⟩, hdata, hia, hattr⟩
  · rw [hnum, List.length_eraseIdx, if_pos (by omega)]; omega
  · rw [hch, hspares]
    have hbase : (list_spares l ++ tmp :: (chain l body).eraseIdx (pos + 1)).Nodup :=
      ((List.Perm.append_left _ hpermc).nodup_iff).1 h.nodup
    split_ifs
    · rw [List.append_assoc]; exact hbase
    · exact hbase.sublist
        (List.Sublist.append (List.Sublist.refl _) (List.sublist_cons_self _ _))
  · intro a ha
    have := h.valid a (hsub a ha)
    exact ⟨this.1, by omega⟩
  · rw [hhd, hprev]
    have h1 : l.head_sentinel ≠ N := ne_of_index_ne hndc (chain_zero l body) hN (by omega)
    simp [h1, h.head_prev]
  · rw [htl, hnext]
    have h1 : l.tail_sentinel ≠ P := ne_of_index_ne hndc (chain_last l body) hP (by omega)
    simp [h1, h.tail_next]
  · rw [hhd, hdata]; exact h.head_data
  · rw [htl, hdata]; exact h.tail_data
  · intro hpos'
    rw [hnum] at hpos' ⊢
    have hm := h.mid (by omega)
    rw [hmid, hget]
    by_cases c1 : l.numels % 2 ≠ 0
    · rw [if_pos c1]
      by_cases c2 : pos ≥ l.numels / 2
      · rw [if_pos c2, if_pos (by omega)]
        obtain ⟨a, ha⟩ := exists_getElem?_of_lt
          (show (l.numels - 1) / 2 - 1 < body.length by omega)
        have hb : body[(l.numels - 1) / 2 - 1 + 1]? = some l.mid_sentinel := by
          rw [← hm]; congr 1; omega
        rw [(body_linked h.linked ha hb).2, ← ha]
        congr 1; omega
      · rw [if_neg c2, if_neg (by omega), ← hm]
        congr 1; omega
    · rw [if_neg c1]
      by_cases c2 : pos < l.numels / 2
      · rw [if_pos c2, if_neg (by omega)]
        obtain ⟨b, hb⟩ := exists_getElem?_of_lt
          (show (l.numels - 1) / 2 + 1 < body.length by omega)
        rw [(body_linked h.linked hm hb).1, ← hb]
        congr 1; omega
      · rw [if_neg c2, if_pos (by omega), ← hm]
        congr 1; omega
  · rw [hspn]
    have := h.spare_le
    split_ifs <;> omega

/-! ## Insertion -/

theorem list_insert_at_link_data (l1 : list_t α) (lent : Nat) (data : Option α) (pos a : Nat) :
    ((list_insert_at_link l1 lent data pos).mem a).data =
      if a = lent then data else (l1.mem a).data := by
  rw [list_insert_at_link_mem]; simp

/-- A `list_insert_at` on a busy list or out of range changes nothing. -/
theorem list_insert_at_guard (l : list_t α) (data : Option α) (pos : Nat) (oom : Bool)
    (hg : l.iter_active ≠ 0 ∨ pos > l.numels) : list_insert_at l data pos oom = (-1, l) := by
  unfold list_insert_at; rw [if_pos hg]

/-- Inserting at a position `pos ≤ numels` of a well-formed idle list, when
an entry can be acquired, returns 1 and gives a well-formed list with a new
entry at index `pos` that holds the data; the other payloads are unchanged. -/
theorem list_insert_at_inv {l : list_t α} {body : List Nat} (h : Inv l body)
    (hidle : l.iter_active = 0) {pos : Nat} (hpos : pos ≤ l.numels) {oom : Bool}
    (hok : oom = false ∨ 0 < l.spareelsnum) (d : Option α) :
    ∃ lent, lent ∉ body ∧ (list_insert_at l d pos oom).1 = 1 ∧
      Inv (list_insert_at l d pos oom).2 (body.take pos ++ lent :: body.drop pos) ∧
      (∀ a, ((list_insert_at l d pos oom).2.mem a).data =
        if a = lent then d else (l.mem a).data) ∧
      (list_insert_at l d pos oom).2.iter_active = l.iter_active ∧
      (list_insert_at l d pos oom).2.attrs = l.attrs := by
  obtain ⟨lent, l1, hacq⟩ := list_insert_at_acquire_isSome l hok
  obtain ⟨h1, hf1, hf2, hf3, hmem, hnum, hia, hattr, -, -⟩ := list_insert_at_acquire_spec h hacq
  have hg : ¬(l.iter_active ≠ 0 ∨ pos > l.numels) := by
    rw [hidle]; simp; omega
  have hlink := list_insert_at_link_inv h1 hf1 hf2 hf3 (show pos ≤ l1.numels by omega) d
  obtain ⟨-, -, -, -, -, hia4, -, -, hattr4⟩ := list_insert_at_link_frame l1 lent d pos
  refine ⟨lent, ?_, ?_⟩
  · intro hm
    apply hf1
    apply List.mem_append_right
    simp [chain, hm]
  · unfold list_insert_at
    rw [if_neg hg, hacq]
    refine ⟨rfl, hlink, ?_, ?_, ?_⟩
    · intro a
      simp only
      rw [list_insert_at_link_data, hmem]
    · simp only; rw [hia4, hia]
    · simp only; rw [hattr4, hattr]

/-- Every `list_insert_at` on a well-formed list gives a well-formed list. -/
theorem list_insert_at_inv_any {l : list_t α} {body : List Nat} (h : Inv l body)
    (d : Option α) (pos : Nat) (oom : Bool) :
    ∃ body1, Inv (list_insert_at l d pos oom).2 body1 := by
  by_cases hg : l.iter_active ≠ 0 ∨ pos > l.numels
  · rw [list_insert_at_guard l d pos oom hg]; exact ⟨body, h⟩
  · unfold list_insert_at
    rw [if_neg hg]
    cases hacq : list_insert_at_acquire l oom with
    | none => exact ⟨body, h⟩
    | some r =>
      obtain ⟨lent, l1⟩ := r
      obtain ⟨h1, hf1, hf2, hf3, -, hnum, -⟩ := list_insert_at_acquire_spec h hacq
      exact ⟨_, list_insert_at_link_inv h1 hf1 hf2 hf3 (show pos ≤ l1.numels by omega) d⟩

/-- A `list_delete_at` on a busy list or out of range changes nothing. -/
theorem list_delete_at_guard (l : list_t α) (pos : Nat)
    (hg : l.iter_active ≠ 0 ∨ pos ≥ l.numels) : list_delete_at l pos = (-1, l) := by
  unfold list_delete_at; rw [if_pos hg]

/-- Every `list_delete_at` on a well-formed list gives a well-formed list. -/
theorem list_delete_at_inv_any {l : list_t α} {body : List Nat} (h : Inv l body)
    (pos : Nat) : ∃ body1, Inv (list_delete_at l pos).2 body1 := by
  by_cases hg : l.iter_active ≠ 0 ∨ pos ≥ l.numels
  · rw [list_delete_at_guard l pos hg]; exact ⟨body, h⟩
  · have h1 : l.iter_active = 0 := by
      by_contra hc; exact hg (Or.inl hc)
    have h2 : pos < l.numels := by
      by_contra hc; exact hg (Or.inr (by omega))
    exact ⟨_, (list_delete_at_inv h h1 h2).2.1⟩

/-! ## Initialisation, attributes, iteration -/

/-- The invariant only reads the heap, the sentinels, the counters and the
free-list. -/
theorem Inv.of_eq {l l1 : list_t α} {body : List Nat} (h : Inv l body)
    (hmem : l1.mem = l.mem) (hbrk : l1.brk = l.brk)
    (hhd : l1.head_sentinel = l.head_sentinel) (htl : l1.tail_sentinel = l.tail_sentinel)
    (hmid : l1.mid_sentinel = l.mid_sentinel) (hnum : l1.numels = l.numels)
    (hsp : l1.spareels = l.spareels) (hspn : l1.spareelsnum = l.spareelsnum) :
    Inv l1 body := by
  have hs : list_spares l1 = list_spares l := by simp [list_spares, hsp, hspn]
  have hc : chain l1 body = chain l body := by simp [chain, hhd, htl]
  refine ⟨?_, ?_, ?_, ?_, ?_, ?_, ?_, ?_, ?_, ?_⟩
  · rw [hnum]; exact h.numels_eq
  · rw [hs, hc]; exact h.nodup
  · rw [hs, hc, hbrk]; exact h.valid
  · rw [hmem, hc]; exact h.linked
  · rw [hmem, hhd]; exact h.head_prev
  · rw [hmem, htl]; exact h.tail_next
  · rw [hmem, hhd]; exact h.head_data
  · rw [hmem, htl]; exact h.tail_data
  · rw [hnum, hmid]; exact h.mid
  · rw [hspn]; exact h.spare_le

/-- A freshly initialised list is well formed and empty. -/
theorem list_init_inv : Inv (list_init (α := α)).2 [] := by
  refine ⟨rfl, ?_, ?_, ?_, ?_, ?_, ?_, ?_, ?_, ?_⟩
  · simp [list_init, list_attributes_setdefaults, chain, list_spares]
  · simp [list_init, list_attributes_setdefaults, chain, list_spares]
  · intro i a b ha hb
    simp only [list_init, list_attributes_setdefaults, chain, List.nil_append] at ha hb ⊢
    match i with
    | 0 =>
      simp at ha hb
      subst ha hb
      simp
    | 1 => simp at hb
    | i + 2 => simp at hb
  · simp [list_init, list_attributes_setdefaults]
  · simp [list_init, list_attributes_setdefaults]
  · simp [list_init, list_attributes_setdefaults]
  · simp [list_init, list_attributes_setdefaults]
  · intro h; simp [list_init, list_attributes_setdefaults] at h
  · simp [list_init, list_attributes_setdefaults, ACDLL_MAX_SPARE_ELEMS]

theorem list_attributes_comparator_inv {l : list_t α} {body : List Nat} (h : Inv l body)
    (f : Option (Option α → Option α → Int)) : Inv (list_attributes_comparator l f).2 body :=
  h.of_eq rfl rfl rfl rfl rfl rfl rfl rfl

theorem list_attributes_seeker_inv {l : list_t α} {body : List Nat} (h : Inv l body)
    (f : Option (Option α → Option α → Int)) : Inv (list_attributes_seeker l f).2 body :=
  h.of_eq rfl rfl rfl rfl rfl rfl rfl rfl

theorem list_attributes_copy_inv {l : list_t α} {body : List Nat} (h : Inv l body)
    (f : Option (Option α → Nat)) (c : Int) : Inv (list_attributes_copy l f c).2 body := by
  unfold list_attributes_copy
  split_ifs
  · exact h
  · exact h.of_eq rfl rfl rfl rfl rfl rfl rfl rfl

theorem list_iterator_start_inv {l : list_t α} {body : List Nat} (h : Inv l body) :
    Inv (list_iterator_start l).2 body := by
  unfold list_iterator_start
  split_ifs
  · exact h
  · exact h.of_eq rfl rfl rfl rfl rfl rfl rfl rfl

theorem list_iterator_next_inv {l : list_t α} {body : List Nat} (h : Inv l body) :
    Inv (list_iterator_next l).2 body := by
  unfold list_iterator_next
  split_ifs
  · exact h
  · exact h.of_eq rfl rfl rfl rfl rfl rfl rfl rfl

theorem list_iterator_stop_inv {l : list_t α} {body : List Nat} (h : Inv l body) :
    Inv (list_iterator_stop l).2 body := by
  unfold list_iterator_stop
  split_ifs
  · exact h
  · exact h.of_eq rfl rfl rfl rfl rfl rfl rfl rfl

/-! ## Rearrangements of a range of positions -/

theorem PermOn.refl_range {β : Type} (lo hi : Nat) (f : Nat → β) : PermOn lo hi f f :=
  ⟨Equiv.refl _, by simp, by simp⟩

theorem PermOn.trans_range {β : Type} {lo hi : Nat} {f g h : Nat → β} (h1 : PermOn lo hi f g)
    (h2 : PermOn lo hi g h) : PermOn lo hi f h := by
  obtain ⟨σ1, hm1, he1⟩ := h1
  obtain ⟨σ2, hm2, he2⟩ := h2
  refine ⟨σ2.trans σ1, ?_, ?_⟩
  · intro i hi'
    by_cases c : σ2 i = i
    · apply hm1; simpa [c] using hi'
    · exact hm2 i c
  · intro i; rw [he2, he1]; rfl

theorem PermOn.mono_range {β : Type} {lo hi lo1 hi1 : Nat} {f g : Nat → β} (h : PermOn lo hi f g)
    (hlo : lo1 ≤ lo) (hhi : hi ≤ hi1) : PermOn lo1 hi1 f g := by
  obtain ⟨σ, hm, he⟩ := h
  exact ⟨σ, fun i hi' => ⟨by have := hm i hi'; omega, by have := hm i hi'; omega⟩, he⟩

/-- A rearrangement of `lo..hi` maps positions of the range into the range. -/
theorem PermOn.image_mem {lo hi : Nat} {σ : Equiv.Perm Nat}
    (hm : ∀ i, σ i ≠ i → lo ≤ i ∧ i ≤ hi) {i : Nat} (hi1 : lo ≤ i) (hi2 : i ≤ hi) :
    lo ≤ σ i ∧ σ i ≤ hi := by
  by_cases c : σ (σ i) = σ i
  · have : σ i = i := σ.injective c
    rw [this]; exact ⟨hi1, hi2⟩
  · exact hm (σ i) c

theorem PermOn.eq_outside {β : Type} {lo hi : Nat} {f g : Nat → β} (h : PermOn lo hi f g)
    {i : Nat} (hi' : i < lo ∨ hi < i) : g i = f i := by
  obtain ⟨σ, hm, he⟩ := h
  rw [he]
  by_cases c : σ i = i
  · rw [c]
  · have := hm i c; omega

/-- What holds of every value of the range still holds after a
rearrangement. -/
theorem PermOn.forall_range {β : Type} {lo hi : Nat} {f g : Nat → β} (h : PermOn lo hi f g)
    {P : β → Prop} (hP : ∀ i, lo ≤ i → i ≤ hi → P (f i)) :
    ∀ i, lo ≤ i → i ≤ hi → P (g i) := by
  obtain ⟨σ, hm, he⟩ := h
  intro i h1 h2
  rw [he]
  have := PermOn.image_mem hm h1 h2
  exact hP _ this.1 this.2

/-- Exchanging the values at two positions of the range rearranges it. -/
theorem PermOn.swap {β : Type} (lo hi : Nat) (f : Nat → β) (i j : Nat) (hi1 : lo ≤ i)
    (hi2 : i ≤ hi) (hj1 : lo ≤ j) (hj2 : j ≤ hi) :
    PermOn lo hi f (Function.update (Function.update f i (f j)) j (f i)) := by
  refine ⟨Equiv.swap i j, ?_, ?_⟩
  · intro k hk
    by_cases c1 : k = i
    · subst c1; exact ⟨hi1, hi2⟩
    · by_cases c2 : k = j
      · subst c2; exact ⟨hj1, hj2⟩
      · exact absurd (Equiv.swap_apply_of_ne_of_ne c1 c2) hk
  · intro k
    by_cases c2 : k = j
    · subst c2; simp
    · by_cases c1 : k = i
      · subst c1; simp [c2]
      · simp [c1, c2, Equiv.swap_apply_of_ne_of_ne c1 c2]

/-- A rearrangement of a range of positions permutes the values listed along
any duplicate-free list of positions that covers the range. -/
theorem PermOn.perm_map {β : Type} {lo hi : Nat} {f g : Nat → β} (h : PermOn lo hi f g)
    {L : List Nat} (hL : L.Nodup) (hcov : ∀ i, lo ≤ i → i ≤ hi → i ∈ L) :
    (L.map g).Perm (L.map f) := by
  obtain ⟨σ, hm, he⟩ := h
  have hg : L.map g = (L.map σ).map f := by
    rw [List.map_map]; apply List.map_congr_left; intro i _; exact he i
  rw [hg]
  apply List.Perm.map
  rw [List.perm_ext_iff_of_nodup (hL.map σ.injective) hL]
  intro a
  rw [List.mem_map]
  constructor
  · rintro ⟨i, hiL, rfl⟩
    by_cases c : σ i = i
    · rw [c]; exact hiL
    · have hr := hm i c
      have := PermOn.image_mem hm hr.1 hr.2
      exact hcov _ this.1 this.2
  · intro ha
    refine ⟨σ.symm a, ?_, by simp⟩
    by_cases c : σ (σ.symm a) = σ.symm a
    · have : σ.symm a = a := by
        have h1 : σ (σ.symm a) = a := by simp
        rw [h1] at c; exact c.symm
      rw [this]; exact ha
    · have hr := hm _ c
      exact hcov _ hr.1 hr.2

/-! ## Payloads along the chain -/

theorem dat_of_getElem? (mem : Nat → list_entry_s α) {ns : List Nat} {i p : Nat}
    (h : ns[i]? = some p) : dat mem ns i = (mem p).data := by
  simp [dat, h]

/-- Writing the payload of the entry at position `i` changes the value at
position `i` only. -/
theorem dat_set_data (mem : Nat → list_entry_s α) {ns : List Nat} (hnd : ns.Nodup)
    {i p : Nat} (h : ns[i]? = some p) (d : Option α) :
    dat (set_data mem p d) ns = Function.update (dat mem ns) i d := by
  funext j
  by_cases c : j = i
  · subst c; simp [dat, h]
  · rw [Function.update_noteq c]
    unfold dat
    cases hj : ns[j]? with
    | none => rfl
    | some q =>
      have : q ≠ p := ne_of_index_ne hnd hj h c
      simp [this]

theorem DataFrame.refl_frame (ns : List Nat) (lo hi : Nat) (mem : Nat → list_entry_s α) :
    DataFrame ns lo hi mem mem := fun _ => ⟨rfl, rfl, fun _ => rfl⟩

theorem DataFrame.trans_frame {ns : List Nat} {lo hi : Nat} {m1 m2 m3 : Nat → list_entry_s α}
    (h1 : DataFrame ns lo hi m1 m2) (h2 : DataFrame ns lo hi m2 m3) :
    DataFrame ns lo hi m1 m3 := by
  intro a
  obtain ⟨a1, a2, a3⟩ := h1 a
  obtain ⟨b1, b2, b3⟩ := h2 a
  exact ⟨b1.trans a1, b2.trans a2, fun hk => (b3 hk).trans (a3 hk)⟩

theorem DataFrame.mono_frame {ns : List Nat} {lo hi lo1 hi1 : Nat} {m1 m2 : Nat → list_entry_s α}
    (h : DataFrame ns lo hi m1 m2) (hlo : lo1 ≤ lo) (hhi : hi ≤ hi1) :
    DataFrame ns lo1 hi1 m1 m2 := by
  intro a
  obtain ⟨a1, a2, a3⟩ := h a
  exact ⟨a1, a2, fun hk => a3 (fun k h1 h2 => hk k (by omega) (by omega))⟩

theorem DataFrame.of_set_data {ns : List Nat} {lo hi : Nat} (mem : Nat → list_entry_s α)
    {i p : Nat} (h : ns[i]? = some p) (h1 : lo ≤ i) (h2 : i ≤ hi) (d : Option α) :
    DataFrame ns lo hi mem (set_data mem p d) := by
  intro a
  refine ⟨by simp, by simp, fun hk => ?_⟩
  have : a ≠ p := by rintro rfl; exact hk i h1 h2 h
  simp [this]

theorem DataFrame.linked {ns ms : List Nat} {lo hi : Nat} {m1 m2 : Nat → list_entry_s α}
    (h : DataFrame ns lo hi m1 m2) (hl : Linked m1 ms) : Linked m2 ms := by
  intro i a b ha hb
  rw [(h a).1, (h b).2.1]
  exact hl i a b ha hb

/-! ## Selection sort -/

theorem OrdOK.self_le {cmp : Option α → Option α → Int} {versus : Int}
    (h : OrdOK cmp versus) (a : Option α) : cmp a a * -versus ≤ 0 := by
  have := h.1 a a; omega

/-- The inner loop of the selection sort returns an entry of the scanned
range that no scanned entry is before. -/
theorem selectionsort_inner_spec (cmp : Option α → Option α → Int) (versus : Int)
    {mem : Nat → list_entry_s α} {ns : List Nat} (hl : Linked mem ns) (hnd : ns.Nodup)
    {hi lel : Nat} (hlel : ns[hi]? = some lel) (hhi : hi + 1 < ns.length) :
    ∀ (d fuel t c toswap cursor : Nat), hi + 1 - c = d → t < c → c ≤ hi + 1 →
      ns[t]? = some toswap → ns[c]? = some cursor → d + 1 ≤ fuel →
      ∃ t1 p1, selectionsort_inner cmp versus mem lel fuel toswap cursor = some p1 ∧
        ns[t1]? = some p1 ∧ t ≤ t1 ∧ t1 ≤ hi ∧ (t1 = t ∨ c ≤ t1) ∧
        (OrdOK cmp versus →
          (∀ k, c ≤ k → k ≤ hi → cmp (dat mem ns t1) (dat mem ns k) * -versus ≤ 0) ∧
          cmp (dat mem ns t1) (dat mem ns t) * -versus ≤ 0) ∧
        ((∀ k, c ≤ k → k ≤ hi → cmp (dat mem ns t) (dat mem ns k) * -versus ≤ 0) →
          t1 = t) := by
  obtain ⟨stop, hstop⟩ := exists_getElem?_of_lt hhi
  have hnext : (mem lel).next = stop := (hl hi lel stop hlel hstop).1
  intro d
  induction d with
  | zero =>
    intro fuel t c toswap cursor hd htc hc ht hcur hfuel
    obtain ⟨f, rfl⟩ : ∃ f, fuel = f + 1 := ⟨fuel - 1, by omega⟩
    have hce : c = hi + 1 := by omega
    subst hce
    have : cursor = stop := Option.some.inj (hcur.symm.trans hstop)
    refine ⟨t, toswap, ?_, ht, le_refl _, by omega, Or.inl rfl, ?_, fun _ => rfl⟩
    · simp [selectionsort_inner, hnext, this]
    · intro hord
      exact ⟨fun k h1 h2 => by omega, hord.self_le _⟩
  | succ d ih =>
    intro fuel t c toswap cursor hd htc hc ht hcur hfuel
    obtain ⟨f, rfl⟩ : ∃ f, fuel = f + 1 := ⟨fuel - 1, by omega⟩
    have hne : cursor ≠ (mem lel).next := by
      rw [hnext]; exact ne_of_index_ne hnd hcur hstop (by omega)
    obtain ⟨c1, hc1⟩ := exists_getElem?_of_lt (show c + 1 < ns.length by omega)
    have hcn : (mem cursor).next = c1 := (hl c cursor c1 hcur hc1).1
    have hdt : dat mem ns t = (mem toswap).data := dat_of_getElem? mem ht
    have hdc : dat mem ns c = (mem cursor).data := dat_of_getElem? mem hcur
    rw [selectionsort_inner, if_pos hne, hcn]
    by_cases hs : cmp (mem toswap).data (mem cursor).data * -versus > 0
    · rw [if_pos hs]
      obtain ⟨t1, p1, hr, hp1, h1, h2, h3, h4, h5⟩ :=
        ih f c (c + 1) cursor c1 (by omega) (by omega) (by omega) hcur hc1 (by omega)
      refine ⟨t1, p1, hr, hp1, by omega, h2, Or.inr h1, ?_, ?_⟩
      · intro hord
        obtain ⟨h6, h7⟩ := h4 hord
        refine ⟨fun k hk1 hk2 => ?_, ?_⟩
        · by_cases hk : k = c
          · subst hk; exact h7
          · exact h6 k (by omega) hk2
        · refine hord.2 _ _ _ h7 ?_
          rw [hord.1, hdc, hdt]; omega
      · intro hall
        have := hall c (le_refl _) (by omega)
        rw [hdt, hdc] at this
        omega
    · rw [if_neg hs]
      obtain ⟨t1, p1, hr, hp1, h1, h2, h3, h4, h5⟩ :=
        ih f t (c + 1) toswap c1 (by omega) (by omega) (by omega) ht hc1 (by omega)
      refine ⟨t1, p1, hr, hp1, h1, h2, ?_, ?_, ?_⟩
      · rcases h3 with h3 | h3
        · exact Or.inl h3
        · exact Or.inr (by omega)
      · intro hord
        obtain ⟨h6, h7⟩ := h4 hord
        refine ⟨fun k hk1 hk2 => ?_, h7⟩
        by_cases hk : k = c
        · subst hk
          refine hord.2 _ _ _ h7 ?_
          rw [hdt, hdc]; omega
        · exact h6 k (by omega) hk2
      · intro hall
        exact h5 (fun k hk1 hk2 => hall k (by omega) hk2)


/-- The outer loop of the selection sort, started at position `j`, ends,
changes payloads of positions `j..hi` only, rearranges them, leaves them in
order when the comparison is a total preorder, and writes nothing when they
are in order already. -/
theorem selectionsort_outer_spec (cmp : Option α → Option α → Int) (versus : Int)
    {ns : List Nat} (hnd : ns.Nodup) {hi lel : Nat} (hlel : ns[hi]? = some lel)
    (hhi : hi + 1 < ns.length) :
    ∀ (d fuel j : Nat) (mem : Nat → list_entry_s α) (fu : Nat), hi - j = d → j ≤ hi →
      Linked mem ns → ns[j]? = some fu → d + 2 ≤ fuel →
      ∃ mem1, selectionsort_outer cmp versus lel fuel mem fu = some mem1 ∧
        DataFrame ns j hi mem mem1 ∧ PermOn j hi (dat mem ns) (dat mem1 ns) ∧
        (OrdOK cmp versus → SortedOn cmp versus (dat mem1 ns) j hi) ∧
        (SortedOn cmp versus (dat mem ns) j hi → mem1 = mem) := by
  intro d
  induction d with
  | zero =>
    intro fuel j mem fu hd hj hl hfu hfuel
    obtain ⟨f, rfl⟩ : ∃ f, fuel = f + 1 := ⟨fuel - 1, by omega⟩
    have hji : j = hi := by omega
    subst hji
    have : fu = lel := Option.some.inj (hfu.symm.trans hlel)
    refine ⟨mem, by simp [selectionsort_outer, this], DataFrame.refl_frame _ _ _ _,
      PermOn.refl_range _ _ _, ?_, fun _ => rfl⟩
    intro _ i k h1 h2 h3
    omega
  | succ d ih =>
    intro fuel j mem fu hd hj hl hfu hfuel
    obtain ⟨f, rfl⟩ : ∃ f, fuel = f + 1 := ⟨fuel - 1, by omega⟩
    have hne : fu ≠ lel := ne_of_index_ne hnd hfu hlel (by omega)
    obtain ⟨c1, hc1⟩ := exists_getElem?_of_lt (show j + 1 < ns.length by omega)
    have hfn : (mem fu).next = c1 := (hl j fu c1 hfu hc1).1
    obtain ⟨t1, p1, hr, hp1, h1, h2, h3, h4, h5⟩ :=
      selectionsort_inner_spec cmp versus hl hnd hlel hhi (hi + 1 - (j + 1)) f j (j + 1) fu c1
        rfl (by omega) (by omega) hfu hc1 (by omega)
    rw [selectionsort_outer, if_pos hne, hfn, hr]
    simp only
    -- the heap after the exchange
    generalize hm1 : (if p1 ≠ fu then
        set_data (set_data mem fu (mem p1).data) p1 (mem fu).data else mem) = mem1
    have hdj : dat mem ns j = (mem fu).data := dat_of_getElem? mem hfu
    have hdt : dat mem ns t1 = (mem p1).data := dat_of_getElem? mem hp1
    have hdat1 : dat mem1 ns =
        Function.update (Function.update (dat mem ns) j (dat mem ns t1)) t1 (dat mem ns j) := by
      rw [← hm1]
      by_cases c : p1 = fu
      · have : t1 = j := nodup_index_eq hnd hp1 (c ▸ hfu)
        subst this
        rw [if_neg (by simpa using c)]
        funext k
        by_cases ck : k = t1
        · subst ck; simp
        · simp [ck]
      · rw [if_pos c, dat_set_data _ hnd hp1, dat_set_data _ hnd hfu, hdj, hdt]
    have hfr1 : DataFrame ns j hi mem mem1 := by
      rw [← hm1]
      split_ifs
      · exact (DataFrame.of_set_data mem hfu (le_refl _) hj _).trans_frame
          (DataFrame.of_set_data _ hp1 h1 h2 _)
      · exact DataFrame.refl_frame _ _ _ _
    have hl1 : Linked mem1 ns := hfr1.linked hl
    have hfn1 : (mem1 fu).next = c1 := by rw [(hfr1 fu).1]; exact hfn
    rw [hfn1]
    obtain ⟨mem2, hr2, hfr2, hperm2, hsort2, hid2⟩ :=
      ih f (j + 1) mem1 c1 (by omega) (by omega) hl1 hc1 (by omega)
    have hperm1 : PermOn j hi (dat mem ns) (dat mem1 ns) := by
      rw [hdat1]; exact PermOn.swap j hi _ j t1 (le_refl _) hj h1 h2
    refine ⟨mem2, hr2, hfr1.trans_frame (hfr2.mono_frame (by omega) (le_refl _)),
      hperm1.trans_range (hperm2.mono_range (by omega) (le_refl _)), ?_, ?_⟩
    · intro hord i k hi1 hik hk
      obtain ⟨h6, h7⟩ := h4 hord
      by_cases ci : i = j
      · subst ci
        have e1 : dat mem2 ns i = dat mem ns t1 := by
          rw [hperm2.eq_outside (Or.inl (by omega)), hdat1]
          by_cases ct : i = t1
          · subst ct; simp
          · simp [ct]
        rw [e1]
        refine hperm2.forall_range (P := fun x => cmp (dat mem ns t1) x * -versus ≤ 0) ?_ k
          (by omega) hk
        intro k1 hk1 hk2
        rw [hdat1]
        by_cases ct : k1 = t1
        · subst ct; simpa using h7
        · have : k1 ≠ i := by omega
          simp only [Function.update_noteq ct, Function.update_noteq this]
          exact h6 k1 hk1 hk2
      · exact hsort2 hord i k (by omega) hik hk
    · intro hsorted
      have ht : t1 = j := h5 (fun k hk1 hk2 => hsorted j k (le_refl _) (by omega) hk2)
      have hp : p1 = fu := by
        subst ht; exact Option.some.inj (hp1.symm.trans hfu)
      have hmm : mem1 = mem := by rw [← hm1, if_neg (by simpa using hp)]
      rw [hid2 (by rw [hmm]; exact fun i k a b c => hsorted i k (by omega) b c), hmm]

/-- The function `list_sort_selectionsort` on the positions `lo..hi` of a
linked chain. -/
theorem list_sort_selectionsort_spec (cmp : Option α → Option α → Int) (versus : Int)
    {ns : List Nat} (hnd : ns.Nodup) {mem : Nat → list_entry_s α} (hl : Linked mem ns)
    {lo hi fel lel : Nat} (hfel : ns[lo]? = some fel) (hlel : ns[hi]? = some lel)
    (hhi : hi + 1 < ns.length) (hlo : lo ≤ hi) (first last fuel : Nat)
    (hfuel : hi - lo + 2 ≤ fuel) :
    ∃ mem1, list_sort_selectionsort cmp versus fuel mem first fel last lel = some mem1 ∧
      DataFrame ns lo hi mem mem1 ∧ PermOn lo hi (dat mem ns) (dat mem1 ns) ∧
      (lo + last = hi + first → OrdOK cmp versus → SortedOn cmp versus (dat mem1 ns) lo hi) ∧
      (SortedOn cmp versus (dat mem ns) lo hi → mem1 = mem) := by
  unfold list_sort_selectionsort
  split_ifs with c
  · refine ⟨mem, rfl, DataFrame.refl_frame _ _ _ _, PermOn.refl_range _ _ _, ?_, fun _ => rfl⟩
    intro he _ i k h1 h2 h3
    omega
  · obtain ⟨mem1, h1, h2, h3, h4, h5⟩ :=
      selectionsort_outer_spec cmp versus hnd hlel hhi (hi - lo) fuel lo mem fel rfl hlo hl hfel
        hfuel
    exact ⟨mem1, h1, h2, h3, fun _ => h4, h5⟩

/-! ## The partition of the quicksort -/

/-- The left scan stops at the pivot or at the first entry after it in the
order; the entries passed are not after the pivot. -/
theorem quicksort_scan_left_spec (cmp : Option α → Option α → Int) (versus : Int)
    {mem : Nat → list_entry_s α} {ns : List Nat} (hl : Linked mem ns) (hnd : ns.Nodup)
    {p pivot : Nat} (hp : ns[p]? = some pivot) :
    ∀ (d fuel a left : Nat), p - a = d → a ≤ p → ns[a]? = some left → d + 1 ≤ fuel →
      ∃ a1 left1, quicksort_scan_left cmp versus mem pivot fuel left = some left1 ∧
        ns[a1]? = some left1 ∧ a ≤ a1 ∧ a1 ≤ p ∧
        (∀ k, a ≤ k → k < a1 → cmp (dat mem ns k) (dat mem ns p) * -versus ≤ 0) ∧
        (a1 = p ∨ cmp (dat mem ns a1) (dat mem ns p) * -versus > 0) := by
  have hdp : dat mem ns p = (mem pivot).data := dat_of_getElem? mem hp
  intro d
  induction d with
  | zero =>
    intro fuel a left hd ha hleft hfuel
    obtain ⟨f, rfl⟩ : ∃ f, fuel = f + 1 := ⟨fuel - 1, by omega⟩
    have hap : a = p := by omega
    subst hap
    have : left = pivot := Option.some.inj (hleft.symm.trans hp)
    exact ⟨a, left, by simp [quicksort_scan_left, this], hleft, le_refl _, le_refl _,
      fun k h1 h2 => by omega, Or.inl rfl⟩
  | succ d ih =>
    intro fuel a left hd ha hleft hfuel
    obtain ⟨f, rfl⟩ : ∃ f, fuel = f + 1 := ⟨fuel - 1, by omega⟩
    have hne : left ≠ pivot := ne_of_index_ne hnd hleft hp (by omega)
    have hda : dat mem ns a = (mem left).data := dat_of_getElem? mem hleft
    obtain ⟨c1, hc1⟩ := exists_getElem?_of_lt
      (show a + 1 < ns.length by have := lt_length_of_getElem? hp; omega)
    have hn : (mem left).next = c1 := (hl a left c1 hleft hc1).1
    rw [quicksort_scan_left]
    by_cases hs : cmp (mem left).data (mem pivot).data * -versus ≤ 0
    · rw [if_pos ⟨hne, hs⟩, hn]
      obtain ⟨a1, left1, hr, h1, h2, h3, h4, h5⟩ :=
        ih f (a + 1) c1 (by omega) (by omega) hc1 (by omega)
      refine ⟨a1, left1, hr, h1, by omega, h3, ?_, h5⟩
      intro k hk1 hk2
      by_cases hk : k = a
      · subst hk; rw [hda, hdp]; exact hs
      · exact h4 k (by omega) hk2
    · rw [if_neg (fun h => hs h.2)]
      refine ⟨a, left, rfl, hleft, le_refl _, ha, fun k h1 h2 => by omega, Or.inr ?_⟩
      rw [hda, hdp]; omega

/-- The right scan stops at the pivot or at the first entry before it in the
order; the entries passed are not before the pivot. -/
theorem quicksort_scan_right_spec (cmp : Option α → Option α → Int) (versus : Int)
    {mem : Nat → list_entry_s α} {ns : List Nat} (hl : Linked mem ns) (hnd : ns.Nodup)
    {p pivot : Nat} (hp : ns[p]? = some pivot) :
    ∀ (d fuel b right : Nat), b - p = d → p ≤ b → ns[b]? = some right → d + 1 ≤ fuel →
      ∃ b1 right1, quicksort_scan_right cmp versus mem pivot fuel right = some right1 ∧
        ns[b1]? = some right1 ∧ b1 ≤ b ∧ p ≤ b1 ∧
        (∀ k, b1 < k → k ≤ b → cmp (dat mem ns k) (dat mem ns p) * -versus ≥ 0) ∧
        (b1 = p ∨ cmp (dat mem ns b1) (dat mem ns p) * -versus < 0) := by
  have hdp : dat mem ns p = (mem pivot).data := dat_of_getElem? mem hp
  intro d
  induction d with
  | zero =>
    intro fuel b right hd hb hright hfuel
    obtain ⟨f, rfl⟩ : ∃ f, fuel = f + 1 := ⟨fuel - 1, by omega⟩
    have hbp : b = p := by omega
    subst hbp
    have : right = pivot := Option.some.inj (hright.symm.trans hp)
    exact ⟨b, right, by simp [quicksort_scan_right, this], hright, le_refl _, le_refl _,
      fun k h1 h2 => by omega, Or.inl rfl⟩
  | succ d ih =>
    intro fuel b right hd hb hright hfuel
    obtain ⟨f, rfl⟩ : ∃ f, fuel = f + 1 := ⟨fuel - 1, by omega⟩
    have hne : right ≠ pivot := ne_of_index_ne hnd hright hp (by omega)
    have hdb : dat mem ns b = (mem right).data := dat_of_getElem? mem hright
    obtain ⟨c1, hc1⟩ := exists_getElem?_of_lt
      (show b - 1 < ns.length by have := lt_length_of_getElem? hright; omega)
    have hright' : ns[b - 1 + 1]? = some right := by
      rw [show b - 1 + 1 = b by omega]; exact hright
    have hn : (mem right).prev = c1 := (hl (b - 1) c1 right hc1 hright').2
    rw [quicksort_scan_right]
    by_cases hs : cmp (mem right).data (mem pivot).data * -versus ≥ 0
    · rw [if_pos ⟨hne, hs⟩, hn]
      obtain ⟨b1, right1, hr, h1, h2, h3, h4, h5⟩ :=
        ih f (b - 1) c1 (by omega) (by omega) hc1 (by omega)
      refine ⟨b1, right1, hr, h1, by omega, h3, ?_, h5⟩
      intro k hk1 hk2
      by_cases hk : k = b
      · subst hk; rw [hdb, hdp]; exact hs
      · exact h4 k hk1 (by omega)
    · rw [if_neg (fun h => hs h.2)]
      refine ⟨b, right, rfl, hright, le_refl _, hb, fun k h1 h2 => by omega, Or.inr ?_⟩
      rw [hdb, hdp]; omega

/-- Exchanging the payloads of the entries at positions `i` and `j`. -/
theorem dat_swap (mem : Nat → list_entry_s α) {ns : List Nat} (hnd : ns.Nodup)
    {i j p q : Nat} (hi : ns[i]? = some p) (hj : ns[j]? = some q) :
    dat (set_data (set_data mem p (mem q).data) q (mem p).data) ns =
      Function.update (Function.update (dat mem ns) i (dat mem ns j)) j (dat mem ns i) := by
  rw [dat_set_data _ hnd hj, dat_set_data _ hnd hi, dat_of_getElem? mem hi,
    dat_of_getElem? mem hj]

/-- The loop `while (left != pivot && right != pivot)`: it ends with one of
the cursors on the pivot, the pivot payload in place, every entry before
`left` not after the pivot and every entry after `right` not before it. -/
theorem quicksort_partition_spec (cmp : Option α → Option α → Int) (versus : Int)
    {ns : List Nat} (hnd : ns.Nodup) (lo hi : Nat) {p pivot : Nat}
    (hp : ns[p]? = some pivot) :
    ∀ (fuel : Nat) (mem : Nat → list_entry_s α) (a b left right : Nat),
      (p - a) + (b - p) + 2 ≤ fuel → lo ≤ a → a ≤ p → p ≤ b → b ≤ hi → Linked mem ns →
      ns[a]? = some left → ns[b]? = some right →
      (∀ k, lo ≤ k → k < a → cmp (dat mem ns k) (dat mem ns p) * -versus ≤ 0) →
      (∀ k, b < k → k ≤ hi → cmp (dat mem ns k) (dat mem ns p) * -versus ≥ 0) →
      ∃ mem1 a1 b1 left1 right1,
        quicksort_partition cmp versus pivot fuel mem left right = some (mem1, left1, right1) ∧
        ns[a1]? = some left1 ∧ ns[b1]? = some right1 ∧ lo ≤ a1 ∧ a1 ≤ p ∧ p ≤ b1 ∧ b1 ≤ hi ∧
        (a1 = p ∨ b1 = p) ∧ DataFrame ns lo hi mem mem1 ∧
        PermOn lo hi (dat mem ns) (dat mem1 ns) ∧
        (∀ k, lo ≤ k → k < a1 → cmp (dat mem1 ns k) (dat mem1 ns p) * -versus ≤ 0) ∧
        (∀ k, b1 < k → k ≤ hi → cmp (dat mem1 ns k) (dat mem1 ns p) * -versus ≥ 0) ∧
        ((∀ k, lo ≤ k → k < p → cmp (dat mem ns k) (dat mem ns p) * -versus ≤ 0) →
          (∀ k, p < k → k ≤ hi → cmp (dat mem ns k) (dat mem ns p) * -versus ≥ 0) →
          mem1 = mem) := by
  intro fuel
  induction fuel with
  | zero => intro mem a b left right hf; omega
  | succ f ih =>
    intro mem a b left right hf hloa hap hpb hbhi hl hleft hright hL hR
    rw [quicksort_partition]
    by_cases hc : left ≠ pivot ∧ right ≠ pivot
    · rw [if_pos hc]
      have ha' : a ≠ p := by
        rintro rfl; exact hc.1 (Option.some.inj (hleft.symm.trans hp))
      have hb' : b ≠ p := by
        rintro rfl; exact hc.2 (Option.some.inj (hright.symm.trans hp))
      obtain ⟨a1, left1, hr1, hl1, h1, h2, h3, h4⟩ :=
        quicksort_scan_left_spec cmp versus hl hnd hp (p - a) f a left rfl hap hleft (by omega)
      obtain ⟨b1, right1, hr2, hl2, g1, g2, g3, g4⟩ :=
        quicksort_scan_right_spec cmp versus hl hnd hp (b - p) f b right rfl hpb hright
          (by omega)
      rw [hr1, hr2]
      simp only
      by_cases hc2 : left1 ≠ pivot ∧ right1 ≠ pivot
      · rw [if_pos hc2]
        have ha1 : a1 ≠ p := by
          rintro rfl; exact hc2.1 (Option.some.inj (hl1.symm.trans hp))
        have hb1 : b1 ≠ p := by
          rintro rfl; exact hc2.2 (Option.some.inj (hl2.symm.trans hp))
        have hs1 : cmp (dat mem ns a1) (dat mem ns p) * -versus > 0 := by
          rcases h4 with h4 | h4
          · exact absurd h4 ha1
          · exact h4
        have hs2 : cmp (dat mem ns b1) (dat mem ns p) * -versus < 0 := by
          rcases g4 with g4 | g4
          · exact absurd g4 hb1
          · exact g4
        generalize hm1 : set_data (set_data mem left1 (mem right1).data) right1
          (mem left1).data = mem1
        have hdat1 : dat mem1 ns = Function.update (Function.update (dat mem ns) a1
            (dat mem ns b1)) b1 (dat mem ns a1) := by
          rw [← hm1]; exact dat_swap mem hnd hl1 hl2
        have hfr1 : DataFrame ns lo hi mem mem1 := by
          rw [← hm1]
          exact (DataFrame.of_set_data mem hl1 (by omega) (by omega) _).trans_frame
            (DataFrame.of_set_data _ hl2 (by omega) (by omega) _)
        have hlk1 : Linked mem1 ns := hfr1.linked hl
        obtain ⟨c1, hc1⟩ := exists_getElem?_of_lt
          (show a1 + 1 < ns.length by have := lt_length_of_getElem? hp; omega)
        obtain ⟨c2, hc2'⟩ := exists_getElem?_of_lt
          (show b1 - 1 < ns.length by have := lt_length_of_getElem? hl2; omega)
        have hl2' : ns[b1 - 1 + 1]? = some right1 := by
          rw [show b1 - 1 + 1 = b1 by omega]; exact hl2
        have hn1 : (mem1 left1).next = c1 := (hlk1 a1 left1 c1 hl1 hc1).1
        have hn2 : (mem1 right1).prev = c2 := (hlk1 (b1 - 1) c2 right1 hc2' hl2').2
        rw [hn1, hn2]
        have hperm1 : PermOn lo hi (dat mem ns) (dat mem1 ns) := by
          rw [hdat1]; exact PermOn.swap lo hi _ a1 b1 (by omega) (by omega) (by omega) (by omega)
        have hdp1 : dat mem1 ns p = dat mem ns p := by
          rw [hdat1]; simp [Ne.symm ha1, Ne.symm hb1]
        obtain ⟨mem2, a2, b2, left2, right2, hr, k1, k2, k3, k4, k5, k6, k7, k8, k9, k10, k11,
            -⟩ := ih mem1 (a1 + 1) (b1 - 1) c1 c2 (by omega) (by omega) (by omega) (by omega)
              (by omega) hlk1 hc1 hc2' (by
                intro k hk1 hk2
                rw [hdp1, hdat1]
                by_cases e1 : k = a1
                · subst e1
                  have : k ≠ b1 := by omega
                  simp only [Function.update_noteq this, Function.update_same]; omega
                · have e2 : k ≠ b1 := by omega
                  simp only [Function.update_noteq e2, Function.update_noteq e1]
                  by_cases e3 : k < a
                  · exact hL k hk1 e3
                  · exact h3 k (by omega) (by omega)) (by
                intro k hk1 hk2
                rw [hdp1, hdat1]
                by_cases e1 : k = b1
                · subst e1
                  simp only [Function.update_same]; omega
                · have e2 : k ≠ a1 := by omega
                  simp only [Function.update_noteq e2, Function.update_noteq e1]
                  by_cases e3 : b < k
                  · exact hR k e3 hk2
                  · exact g3 k (by omega) (by omega))
        refine ⟨mem2, a2, b2, left2, right2, hr, k1, k2, by omega, k4, k5, by omega, k7,
          hfr1.trans_frame k8, hperm1.trans_range k9, k10, k11, ?_⟩
        intro hsl _
        have := hsl a1 (by omega) (by omega)
        omega
      · rw [if_neg hc2]
        have hd : a1 = p ∨ b1 = p := by
          by_contra hcon
          push_neg at hcon
          apply hc2
          exact ⟨ne_of_index_ne hnd hl1 hp hcon.1, ne_of_index_ne hnd hl2 hp hcon.2⟩
        obtain ⟨mem2, a2, b2, left2, right2, hr, k1, k2, k3, k4, k5, k6, k7, k8, k9, k10, k11,
            k12⟩ := ih mem a1 b1 left1 right1 (by omega) (by omega) h2 g2 (by omega) hl hl1 hl2
              (by
                intro k hk1 hk2
                by_cases e3 : k < a
                · exact hL k hk1 e3
                · exact h3 k (by omega) hk2) (by
                intro k hk1 hk2
                by_cases e3 : b < k
                · exact hR k e3 hk2
                · exact g3 k hk1 (by omega))
        exact ⟨mem2, a2, b2, left2, right2, hr, k1, k2, k3, k4, k5, k6, k7, k8, k9, k10, k11,
          k12⟩
    · rw [if_neg hc]
      have hd : a = p ∨ b = p := by
        by_contra hcon
        push_neg at hcon
        apply hc
        exact ⟨ne_of_index_ne hnd hleft hp hcon.1, ne_of_index_ne hnd hright hp hcon.2⟩
      exact ⟨mem, a, b, left, right, rfl, hleft, hright, hloa, hap, hpb, hbhi, hd,
        DataFrame.refl_frame _ _ _ _, PermOn.refl_range _ _ _, hL, hR, fun _ _ => rfl⟩

/-! ## Placing the pivot -/

/-- The loop that ends the partition when the left part is the longer one:
the pivot ends at a position `p1` with every entry of `lo..p1-1` not after it
and every entry of `p1+1..hi` not before it; `pivotid` follows the pivot. -/
theorem quicksort_finish_left_spec (cmp : Option α → Option α → Int) (versus : Int)
    {ns : List Nat} (hnd : ns.Nodup) (lo hi : Nat) (hhi : hi < ns.length) :
    ∀ (fuel : Nat) (mem : Nat → list_entry_s α) (a p left pivot pivotid : Nat),
      (p - a) + 1 ≤ fuel → lo ≤ a → a ≤ p → p ≤ hi → Linked mem ns →
      ns[a]? = some left → ns[p]? = some pivot → p = lo + pivotid →
      (∀ k, lo ≤ k → k < a → cmp (dat mem ns k) (dat mem ns p) * -versus ≤ 0) →
      (∀ k, p < k → k ≤ hi → cmp (dat mem ns k) (dat mem ns p) * -versus ≥ 0) →
      ∃ mem1 p1 pivot1,
        quicksort_finish_left cmp versus fuel mem left pivot pivotid =
          some (mem1, pivot1, p1 - lo) ∧
        ns[p1]? = some pivot1 ∧ lo ≤ p1 ∧ p1 ≤ p ∧ DataFrame ns lo hi mem mem1 ∧
        PermOn lo hi (dat mem ns) (dat mem1 ns) ∧
        (∀ k, lo ≤ k → k < p1 → cmp (dat mem1 ns k) (dat mem1 ns p1) * -versus ≤ 0) ∧
        (∀ k, p1 < k → k ≤ hi → cmp (dat mem1 ns k) (dat mem1 ns p1) * -versus ≥ 0) ∧
        ((∀ k, a ≤ k → k < p → cmp (dat mem ns k) (dat mem ns p) * -versus ≤ 0) →
          mem1 = mem ∧ p1 = p) := by
  intro fuel
  induction fuel with
  | zero => intro mem a p left pivot pivotid hf; omega
  | succ f ih =>
    intro mem a p left pivot pivotid hf hloa hap hphi hl hleft hp hpid hL hR
    rw [quicksort_finish_left]
    by_cases hne : left ≠ pivot
    · rw [if_pos hne]
      have hap' : a < p := by
        rcases Nat.lt_or_ge a p with h | h
        · exact h
        · have : a = p := by omega
          subst this
          exact absurd (Option.some.inj (hleft.symm.trans hp)) hne
      have hda : dat mem ns a = (mem left).data := dat_of_getElem? mem hleft
      have hdp : dat mem ns p = (mem pivot).data := dat_of_getElem? mem hp
      by_cases hs : cmp (mem left).data (mem pivot).data * -versus > 0
      · rw [if_pos hs]
        obtain ⟨q, hq⟩ := exists_getElem?_of_lt (show p - 1 < ns.length by omega)
        have hp' : ns[p - 1 + 1]? = some pivot := by
          rw [show p - 1 + 1 = p by omega]; exact hp
        have hpq : (mem pivot).prev = q := (hl (p - 1) q pivot hq hp').2
        have hdq : dat mem ns (p - 1) = (mem q).data := dat_of_getElem? mem hq
        simp only [set_data_prev, set_data_data, hpq, if_neg (Ne.symm hne)]
        generalize hm3 : set_data (set_data (set_data mem left (mem q).data) q
          (mem pivot).data) pivot (mem left).data = mem3
        have hdat3 : dat mem3 ns = Function.update (Function.update (Function.update
            (dat mem ns) a (dat mem ns (p - 1))) (p - 1) (dat mem ns p)) p (dat mem ns a) := by
          rw [← hm3, dat_set_data _ hnd hp, dat_set_data _ hnd hq, dat_set_data _ hnd hleft,
            hda, hdp, hdq]
        have hfr3 : DataFrame ns lo hi mem mem3 := by
          rw [← hm3]
          exact ((DataFrame.of_set_data mem hleft (by omega) (by omega) _).trans_frame
            (DataFrame.of_set_data _ hq (by omega) (by omega) _)).trans_frame
            (DataFrame.of_set_data _ hp (by omega) (by omega) _)
        have hlk3 : Linked mem3 ns := hfr3.linked hl
        have hperm3 : PermOn lo hi (dat mem ns) (dat mem3 ns) := by
          have s1 := PermOn.swap lo hi (dat mem ns) a (p - 1)
            (by omega) (by omega) (by omega) (by omega)
          have s2 := PermOn.swap lo hi (Function.update (Function.update
            (dat mem ns) a (dat mem ns (p - 1))) (p - 1) (dat mem ns a)) (p - 1) p
            (by omega) (by omega) (by omega) (by omega)
          have e : dat mem3 ns = Function.update (Function.update (Function.update
              (Function.update (dat mem ns) a (dat mem ns (p - 1))) (p - 1) (dat mem ns a))
              (p - 1) (Function.update (Function.update (dat mem ns) a (dat mem ns (p - 1)))
                (p - 1) (dat mem ns a) p)) p (Function.update (Function.update (dat mem ns) a
                  (dat mem ns (p - 1))) (p - 1) (dat mem ns a) (p - 1)) := by
            rw [hdat3]
            have e1 : p ≠ p - 1 := by omega
            have e2 : p ≠ a := by omega
            simp only [Function.update_idem, Function.update_same, Function.update_noteq e1,
              Function.update_noteq e2]
          rw [e]
          exact s1.trans_range s2
        have hd3p : dat mem3 ns p = dat mem ns a := by rw [hdat3]; simp
        have hd3q : dat mem3 ns (p - 1) = dat mem ns p := by
          rw [hdat3]
          have e1 : p - 1 ≠ p := by omega
          simp only [Function.update_noteq e1, Function.update_same]
        have hd3k : ∀ k, k ≠ a → k ≠ p - 1 → k ≠ p → dat mem3 ns k = dat mem ns k := by
          intro k e1 e2 e3
          rw [hdat3]
          simp only [Function.update_noteq e1, Function.update_noteq e2,
            Function.update_noteq e3]
        have hL3 : ∀ k, lo ≤ k → k < a →
            cmp (dat mem3 ns k) (dat mem3 ns (p - 1)) * -versus ≤ 0 := by
          intro k h1 h2
          rw [hd3q, hd3k k (by omega) (by omega) (by omega)]
          exact hL k h1 h2
        have hR3 : ∀ k, p - 1 < k → k ≤ hi →
            cmp (dat mem3 ns k) (dat mem3 ns (p - 1)) * -versus ≥ 0 := by
          intro k h1 h2
          rw [hd3q]
          by_cases e : k = p
          · subst e; rw [hd3p, hda, hdp]; omega
          · rw [hd3k k (by omega) (by omega) e]
            exact hR k (by omega) h2
        by_cases hbr : q = left
        · rw [if_pos hbr]
          have hqa : p - 1 = a := nodup_index_eq hnd hq (hbr ▸ hleft)
          refine ⟨mem3, p - 1, q, ?_, hq, by omega, by omega, hfr3, hperm3, ?_, hR3, ?_⟩
          · rw [show p - 1 - lo = pivotid - 1 by omega]
          · intro k h1 h2; exact hL3 k h1 (by omega)
          · intro hall
            have := hall a (le_refl _) hap'
            rw [hda, hdp] at this
            omega
        · rw [if_neg hbr]
          have hqa : p - 1 ≠ a := by
            intro e
            apply hbr
            rw [e] at hq
            exact Option.some.inj (hq.symm.trans hleft)
          obtain ⟨mem4, p4, pivot4, hr, k1, k2, k3, k4, k5, k6, k7, -⟩ :=
            ih mem3 a (p - 1) left q (pivotid - 1) (by omega) hloa (by omega) (by omega) hlk3
              hleft hq (by omega) hL3 hR3
          refine ⟨mem4, p4, pivot4, hr, k1, k2, by omega, hfr3.trans_frame k4, hperm3.trans_range k5, k6,
            k7, ?_⟩
          intro hall
          have := hall a (le_refl _) hap'
          rw [hda, hdp] at this
          omega
      · rw [if_neg hs]
        obtain ⟨c1, hc1⟩ := exists_getElem?_of_lt (show a + 1 < ns.length by omega)
        have hn : (mem left).next = c1 := (hl a left c1 hleft hc1).1
        rw [hn]
        obtain ⟨mem4, p4, pivot4, hr, k1, k2, k3, k4, k5, k6, k7, k8⟩ :=
          ih mem (a + 1) p c1 pivot pivotid (by omega) (by omega) (by omega) hphi hl hc1 hp hpid
            (by
              intro k h1 h2
              by_cases e : k = a
              · subst e; rw [hda, hdp]; omega
              · exact hL k h1 (by omega)) hR
        refine ⟨mem4, p4, pivot4, hr, k1, k2, k3, k4, k5, k6, k7, ?_⟩
        intro hall
        exact k8 (fun k h1 h2 => hall k (by omega) h2)
    · rw [if_neg hne]
      have hlp : left = pivot := by
        by_contra h; exact hne h
      have hap' : a = p := nodup_index_eq hnd hleft (hlp ▸ hp)
      subst hap'
      refine ⟨mem, a, pivot, ?_, hp, hloa, le_refl _, DataFrame.refl_frame _ _ _ _,
        PermOn.refl_range _ _ _, hL, hR, fun _ => ⟨rfl, rfl⟩⟩
      rw [show a - lo = pivotid by omega]


/-- The loop that ends the partition when the right part is the longer
one. -/
theorem quicksort_finish_right_spec (cmp : Option α → Option α → Int) (versus : Int)
    {ns : List Nat} (hnd : ns.Nodup) (lo hi : Nat) (hhi : hi < ns.length) :
    ∀ (fuel : Nat) (mem : Nat → list_entry_s α) (b p right pivot pivotid : Nat),
      (b - p) + 1 ≤ fuel → lo ≤ p → p ≤ b → b ≤ hi → Linked mem ns →
      ns[b]? = some right → ns[p]? = some pivot → p = lo + pivotid →
      (∀ k, lo ≤ k → k < p → cmp (dat mem ns k) (dat mem ns p) * -versus ≤ 0) →
      (∀ k, b < k → k ≤ hi → cmp (dat mem ns k) (dat mem ns p) * -versus ≥ 0) →
      ∃ mem1 p1 pivot1,
        quicksort_finish_right cmp versus fuel mem right pivot pivotid =
          some (mem1, pivot1, p1 - lo) ∧
        ns[p1]? = some pivot1 ∧ p ≤ p1 ∧ p1 ≤ hi ∧ DataFrame ns lo hi mem mem1 ∧
        PermOn lo hi (dat mem ns) (dat mem1 ns) ∧
        (∀ k, lo ≤ k → k < p1 → cmp (dat mem1 ns k) (dat mem1 ns p1) * -versus ≤ 0) ∧
        (∀ k, p1 < k → k ≤ hi → cmp (dat mem1 ns k) (dat mem1 ns p1) * -versus ≥ 0) ∧
        ((∀ k, p < k → k ≤ b → cmp (dat mem ns k) (dat mem ns p) * -versus ≥ 0) →
          mem1 = mem ∧ p1 = p) := by
  intro fuel
  induction fuel with
  | zero => intro mem b p right pivot pivotid hf; omega
  | succ f ih =>
    intro mem b p right pivot pivotid hf hlop hpb hbhi hl hright hp hpid hL hR
    rw [quicksort_finish_right]
    by_cases hne : right ≠ pivot
    · rw [if_pos hne]
      have hpb' : p < b := by
        rcases Nat.lt_or_ge p b with h | h
        · exact h
        · have : b = p := by omega
          subst this
          exact absurd (Option.some.inj (hright.symm.trans hp)) hne
      have hdb : dat mem ns b = (mem right).data := dat_of_getElem? mem hright
      have hdp : dat mem ns p = (mem pivot).data := dat_of_getElem? mem hp
      by_cases hs : cmp (mem right).data (mem pivot).data * -versus < 0
      · rw [if_pos hs]
        obtain ⟨q, hq⟩ := exists_getElem?_of_lt (show p + 1 < ns.length by omega)
        have hpq : (mem pivot).next = q := (hl p pivot q hp hq).1
        have hdq : dat mem ns (p + 1) = (mem q).data := dat_of_getElem? mem hq
        simp only [set_data_next, set_data_data, hpq, if_neg (Ne.symm hne)]
        generalize hm3 : set_data (set_data (set_data mem right (mem q).data) q
          (mem pivot).data) pivot (mem right).data = mem3
        have hdat3 : dat mem3 ns = Function.update (Function.update (Function.update
            (dat mem ns) b (dat mem ns (p + 1))) (p + 1) (dat mem ns p)) p (dat mem ns b) := by
          rw [← hm3, dat_set_data _ hnd hp, dat_set_data _ hnd hq, dat_set_data _ hnd hright,
            hdb, hdp, hdq]
        have hfr3 : DataFrame ns lo hi mem mem3 := by
          rw [← hm3]
          exact ((DataFrame.of_set_data mem hright (by omega) (by omega) _).trans_frame
            (DataFrame.of_set_data _ hq (by omega) (by omega) _)).trans_frame
            (DataFrame.of_set_data _ hp (by omega) (by omega) _)
        have hlk3 : Linked mem3 ns := hfr3.linked hl
        have hperm3 : PermOn lo hi (dat mem ns) (dat mem3 ns) := by
          have s1 := PermOn.swap lo hi (dat mem ns) b (p + 1)
            (by omega) (by omega) (by omega) (by omega)
          have s2 := PermOn.swap lo hi (Function.update (Function.update
            (dat mem ns) b (dat mem ns (p + 1))) (p + 1) (dat mem ns b)) (p + 1) p
            (by omega) (by omega) (by omega) (by omega)
          have e : dat mem3 ns = Function.update (Function.update (Function.update
              (Function.update (dat mem ns) b (dat mem ns (p + 1))) (p + 1) (dat mem ns b))
              (p + 1) (Function.update (Function.update (dat mem ns) b (dat mem ns (p + 1)))
                (p + 1) (dat mem ns b) p)) p (Function.update (Function.update (dat mem ns) b
                  (dat mem ns (p + 1))) (p + 1) (dat mem ns b) (p + 1)) := by
            rw [hdat3]
            have e1 : p ≠ p + 1 := by omega
            have e2 : p ≠ b := by omega
            simp only [Function.update_idem, Function.update_same, Function.update_noteq e1,
              Function.update_noteq e2]
          rw [e]
          exact s1.trans_range s2
        have hd3p : dat mem3 ns p = dat mem ns b := by rw [hdat3]; simp
        have hd3q : dat mem3 ns (p + 1) = dat mem ns p := by
          rw [hdat3]
          have e1 : p + 1 ≠ p := by omega
          simp only [Function.update_noteq e1, Function.update_same]
        have hd3k : ∀ k, k ≠ b → k ≠ p + 1 → k ≠ p → dat mem3 ns k = dat mem ns k := by
          intro k e1 e2 e3
          rw [hdat3]
          simp only [Function.update_noteq e1, Function.update_noteq e2,
            Function.update_noteq e3]
        have hL3 : ∀ k, lo ≤ k → k < p + 1 →
            cmp (dat mem3 ns k) (dat mem3 ns (p + 1)) * -versus ≤ 0 := by
          intro k h1 h2
          rw [hd3q]
          by_cases e : k = p
          · subst e; rw [hd3p, hdb, hdp]; omega
          · rw [hd3k k (by omega) (by omega) e]
            exact hL k h1 (by omega)
        have hR3 : ∀ k, b < k → k ≤ hi →
            cmp (dat mem3 ns k) (dat mem3 ns (p + 1)) * -versus ≥ 0 := by
          intro k h1 h2
          rw [hd3q, hd3k k (by omega) (by omega) (by omega)]
          exact hR k h1 h2
        by_cases hbr : q = right
        · rw [if_pos hbr]
          have hqb : p + 1 = b := nodup_index_eq hnd hq (hbr ▸ hright)
          refine ⟨mem3, p + 1, q, ?_, hq, by omega, by omega, hfr3, hperm3, hL3, ?_, ?_⟩
          · rw [show p + 1 - lo = pivotid + 1 by omega]
          · intro k h1 h2; exact hR3 k (by omega) h2
          · intro hall
            have := hall b hpb' (le_refl _)
            rw [hdb, hdp] at this
            omega
        · rw [if_neg hbr]
          have hqb : p + 1 ≠ b := by
            intro e
            apply hbr
            rw [e] at hq
            exact Option.some.inj (hq.symm.trans hright)
          obtain ⟨mem4, p4, pivot4, hr, k1, k2, k3, k4, k5, k6, k7, -⟩ :=
            ih mem3 b (p + 1) right q (pivotid + 1) (by omega) (by omega) (by omega) hbhi hlk3
              hright hq (by omega) hL3 hR3
          refine ⟨mem4, p4, pivot4, hr, k1, by omega, k3, hfr3.trans_frame k4, hperm3.trans_range k5, k6,
            k7, ?_⟩
          intro hall
          have := hall b hpb' (le_refl _)
          rw [hdb, hdp] at this
          omega
      · rw [if_neg hs]
        obtain ⟨c1, hc1⟩ := exists_getElem?_of_lt (show b - 1 < ns.length by omega)
        have hright' : ns[b - 1 + 1]? = some right := by
          rw [show b - 1 + 1 = b by omega]; exact hright
        have hn : (mem right).prev = c1 := (hl (b - 1) c1 right hc1 hright').2
        rw [hn]
        obtain ⟨mem4, p4, pivot4, hr, k1, k2, k3, k4, k5, k6, k7, k8⟩ :=
          ih mem (b - 1) p c1 pivot pivotid (by omega) hlop (by omega) (by omega) hl hc1 hp hpid
            hL (by
              intro k h1 h2
              by_cases e : k = b
              · subst e; rw [hdb, hdp]; omega
              · exact hR k (by omega) h2)
        refine ⟨mem4, p4, pivot4, hr, k1, k2, k3, k4, k5, k6, k7, ?_⟩
        intro hall
        exact k8 (fun k h1 h2 => hall k h1 (by omega))
    · rw [if_neg hne]
      have hrp : right = pivot := by
        by_contra h; exact hne h
      have hpb' : b = p := nodup_index_eq hnd hright (hrp ▸ hp)
      subst hpb'
      refine ⟨mem, b, pivot, ?_, hp, le_refl _, hbhi, DataFrame.refl_frame _ _ _ _,
        PermOn.refl_range _ _ _, hL, hR, fun _ => ⟨rfl, rfl⟩⟩
      rw [show b - lo = pivotid by omega]

/-! ## Quicksort -/

/-- The function `list_sort_quicksort` on the positions `lo..hi` of a linked
chain, with fuel `hi - lo + 3` at least: it returns, changes payloads of
`lo..hi` only and rearranges them; when the comparison is a total preorder
the range ends in order, and if it was in order already nothing is
written. -/
theorem list_sort_quicksort_spec (cmp : Option α → Option α → Int) (versus : Int)
    {ns : List Nat} (hnd : ns.Nodup) :
    ∀ (fuel : Nat) (rnd : Nat → Nat) (mem : Nat → list_entry_s α)
      (first fel last lel lo hi : Nat),
      hi - lo + 3 ≤ fuel → lo ≤ hi → hi + 1 < ns.length → lo + last = hi + first →
      Linked mem ns → ns[lo]? = some fel → ns[hi]? = some lel →
      ∃ mem1 rnd1,
        list_sort_quicksort cmp versus fuel rnd mem first fel last lel = some (mem1, rnd1) ∧
        DataFrame ns lo hi mem mem1 ∧ PermOn lo hi (dat mem ns) (dat mem1 ns) ∧
        (OrdOK cmp versus → SortedOn cmp versus (dat mem1 ns) lo hi) ∧
        (OrdOK cmp versus → SortedOn cmp versus (dat mem ns) lo hi → mem1 = mem) := by
  intro fuel
  induction fuel with
  | zero => intro rnd mem first fel last lel lo hi hf; omega
  | succ f ih =>
    intro rnd mem first fel last lel lo hi hf hlohi hhi hidx hl hfel hlel
    rw [list_sort_quicksort]
    by_cases c0 : last ≤ first
    · rw [if_pos c0]
      refine ⟨mem, rnd, rfl, DataFrame.refl_frame _ _ _ _, PermOn.refl_range _ _ _, ?_, fun _ _ => rfl⟩
      intro _ i j h1 h2 h3
      omega
    · rw [if_neg c0]
      by_cases c1 : last - first + 1 ≤ ACDLL_MINQUICKSORTELS
      · rw [if_pos c1]
        obtain ⟨mem1, h1, h2, h3, h4, h5⟩ :=
          list_sort_selectionsort_spec cmp versus hnd hl hfel hlel hhi hlohi first last f
            (by omega)
        rw [h1]
        exact ⟨mem1, rnd, rfl, h2, h3, h4 hidx, fun _ => h5⟩
      · rw [if_neg c1]
        simp only []
        have hpidlt : rnd 0 % (last - first + 1) < last - first + 1 :=
          Nat.mod_lt _ (by omega)
        generalize rnd 0 % (last - first + 1) = pivotid at hpidlt ⊢
        have hp : ns[lo + pivotid]? = some (if pivotid < (last - first + 1) / 2 then
            walk_next mem pivotid fel else walk_prev mem (last - first - pivotid) lel) := by
          split_ifs
          · exact walk_next_linked hl pivotid lo fel hfel (by omega)
          · have := walk_prev_linked hl (last - first - pivotid) hi lel hlel (by omega)
            rw [← this]; congr 1; omega
        generalize (if pivotid < (last - first + 1) / 2 then
            walk_next mem pivotid fel else walk_prev mem (last - first - pivotid) lel) = pivot
          at hp ⊢
        obtain ⟨mem1, a1, b1, left1, right1, hr, k1, k2, k3, k4, k5, k6, k7, k8, k9, k10, k11,
            k12⟩ := quicksort_partition_spec cmp versus hnd lo hi hp f mem lo hi
              fel lel (by omega) (le_refl _) (by omega) (by omega) (le_refl _) hl hfel hlel
              (fun k h1 h2 => by omega) (fun k h1 h2 => by omega)
        rw [hr]
        simp only []
        have hl1 : Linked mem1 ns := k8.linked hl
        -- the pivot is put in place
        have hfin : ∃ mem2 p2 pivot2,
            (if right1 = pivot then quicksort_finish_left cmp versus f mem1 left1 pivot pivotid
              else quicksort_finish_right cmp versus f mem1 right1 pivot pivotid) =
              some (mem2, pivot2, p2 - lo) ∧
            ns[p2]? = some pivot2 ∧ lo ≤ p2 ∧ p2 ≤ hi ∧ DataFrame ns lo hi mem1 mem2 ∧
            PermOn lo hi (dat mem1 ns) (dat mem2 ns) ∧
            (∀ k, lo ≤ k → k < p2 → cmp (dat mem2 ns k) (dat mem2 ns p2) * -versus ≤ 0) ∧
            (∀ k, p2 < k → k ≤ hi → cmp (dat mem2 ns k) (dat mem2 ns p2) * -versus ≥ 0) ∧
            ((∀ k, lo ≤ k → k < lo + pivotid →
                cmp (dat mem1 ns k) (dat mem1 ns (lo + pivotid)) * -versus ≤ 0) →
              (∀ k, lo + pivotid < k → k ≤ hi →
                cmp (dat mem1 ns k) (dat mem1 ns (lo + pivotid)) * -versus ≥ 0) →
              mem2 = mem1 ∧ p2 = lo + pivotid) := by
          by_cases cr : right1 = pivot
          · rw [if_pos cr]
            have hb1 : b1 = lo + pivotid := nodup_index_eq hnd k2 (cr ▸ hp)
            obtain ⟨mem2, p2, pivot2, g1, g2, g3, g4, g5, g6, g7, g8, g9⟩ :=
              quicksort_finish_left_spec cmp versus hnd lo hi (by omega) f mem1
                a1 (lo + pivotid) left1 pivot pivotid (by omega) k3 k4 (by omega) hl1 k1 hp rfl
                k10 (fun k h1 h2 => k11 k (by omega) h2)
            exact ⟨mem2, p2, pivot2, g1, g2, g3, by omega, g5, g6, g7, g8,
              fun h1 _ => g9 (fun k h3 h4 => h1 k (by omega) h4)⟩
          · rw [if_neg cr]
            have ha1 : a1 = lo + pivotid := by
              rcases k7 with h | h
              · exact h
              · exfalso
                apply cr
                rw [h] at k2
                exact Option.some.inj (k2.symm.trans hp)
            obtain ⟨mem2, p2, pivot2, g1, g2, g3, g4, g5, g6, g7, g8, g9⟩ :=
              quicksort_finish_right_spec cmp versus hnd lo hi (by omega) f mem1
                b1 (lo + pivotid) right1 pivot pivotid (by omega) (by omega) k5 k6 hl1 k2 hp rfl
                (fun k h1 h2 => k10 k h1 (by omega)) k11
            exact ⟨mem2, p2, pivot2, g1, g2, by omega, g4, g5, g6, g7, g8,
              fun _ h2 => g9 (fun k h3 h4 => h2 k h3 (by omega))⟩
        obtain ⟨mem2, p2, pivot2, g1, g2, g3, g4, g5, g6, g7, g8, g9⟩ := hfin
        rw [g1]
        simp only []
        have hl2 : Linked mem2 ns := g5.linked hl1
        -- the part before the pivot
        have hA : ∃ mem3 rnd2,
            (if p2 - lo > 0 then
              list_sort_quicksort cmp versus f (fun i => rnd (i + 1)) mem2 first fel
                (first + (p2 - lo) - 1) (mem2 pivot2).prev
              else some (mem2, fun i => rnd (i + 1))) = some (mem3, rnd2) ∧
            DataFrame ns lo hi mem2 mem3 ∧ PermOn lo hi (dat mem2 ns) (dat mem3 ns) ∧
            (∀ k, p2 ≤ k → dat mem3 ns k = dat mem2 ns k) ∧
            (∀ P : Option α → Prop, (∀ k, lo ≤ k → k < p2 → P (dat mem2 ns k)) →
              ∀ k, lo ≤ k → k < p2 → P (dat mem3 ns k)) ∧
            (OrdOK cmp versus → ∀ i j, lo ≤ i → i < j → j < p2 →
              cmp (dat mem3 ns i) (dat mem3 ns j) * -versus ≤ 0) ∧
            (OrdOK cmp versus → (∀ i j, lo ≤ i → i < j → j < p2 →
              cmp (dat mem2 ns i) (dat mem2 ns j) * -versus ≤ 0) → mem3 = mem2) := by
          by_cases cp : p2 - lo > 0
          · rw [if_pos cp]
            obtain ⟨q, hq⟩ := exists_getElem?_of_lt (show p2 - 1 < ns.length by omega)
            have hp2' : ns[p2 - 1 + 1]? = some pivot2 := by
              rw [show p2 - 1 + 1 = p2 by omega]; exact g2
            have hpq : (mem2 pivot2).prev = q := (hl2 (p2 - 1) q pivot2 hq hp2').2
            rw [hpq]
            obtain ⟨mem3, rnd2, e1, e2, e3, e4, e5⟩ :=
              ih (fun i => rnd (i + 1)) mem2 first fel (first + (p2 - lo) - 1) q lo (p2 - 1)
                (by omega) (by omega) (by omega) (by omega) hl2 hfel hq
            refine ⟨mem3, rnd2, e1, e2.mono_frame (le_refl _) (by omega),
              e3.mono_range (le_refl _) (by omega), ?_, ?_, ?_, ?_⟩
            · intro k hk; exact e3.eq_outside (Or.inr (by omega))
            · intro P hP k h1 h2
              exact e3.forall_range (P := P) (fun i a b => hP i a (by omega)) k h1 (by omega)
            · intro hord i j h1 h2 h3
              exact e4 hord i j h1 h2 (by omega)
            · intro hord hs
              exact e5 hord (fun i j h1 h2 h3 => hs i j h1 h2 (by omega))
          · rw [if_neg cp]
            have : p2 = lo := by omega
            refine ⟨mem2, _, rfl, DataFrame.refl_frame _ _ _ _, PermOn.refl_range _ _ _, fun _ _ => rfl,
              fun P hP => hP, ?_, fun _ _ => rfl⟩
            intro _ i j h1 h2 h3
            omega
        obtain ⟨mem3, rnd2, e1, e2, e3, e4, e5, e6, e7⟩ := hA
        rw [e1]
        simp only []
        have hl3 : Linked mem3 ns := e2.linked hl2
        -- the part after the pivot
        have hB : ∃ mem4 rnd3,
            (if first + (p2 - lo) < last then
              list_sort_quicksort cmp versus f rnd2 mem3 (first + (p2 - lo) + 1)
                (mem3 pivot2).next last lel
              else some (mem3, rnd2)) = some (mem4, rnd3) ∧
            DataFrame ns lo hi mem3 mem4 ∧ PermOn lo hi (dat mem3 ns) (dat mem4 ns) ∧
            (∀ k, k ≤ p2 → dat mem4 ns k = dat mem3 ns k) ∧
            (∀ P : Option α → Prop, (∀ k, p2 < k → k ≤ hi → P (dat mem3 ns k)) →
              ∀ k, p2 < k → k ≤ hi → P (dat mem4 ns k)) ∧
            (OrdOK cmp versus → ∀ i j, p2 < i → i < j → j ≤ hi →
              cmp (dat mem4 ns i) (dat mem4 ns j) * -versus ≤ 0) ∧
            (OrdOK cmp versus → (∀ i j, p2 < i → i < j → j ≤ hi →
              cmp (dat mem3 ns i) (dat mem3 ns j) * -versus ≤ 0) → mem4 = mem3) := by
          by_cases cp : first + (p2 - lo) < last
          · rw [if_pos cp]
            obtain ⟨q, hq⟩ := exists_getElem?_of_lt (show p2 + 1 < ns.length by omega)
            have hpq : (mem3 pivot2).next = q := (hl3 p2 pivot2 q g2 hq).1
            rw [hpq]
            obtain ⟨mem4, rnd3, d1, d2, d3, d4, d5⟩ :=
              ih rnd2 mem3 (first + (p2 - lo) + 1) q last lel (p2 + 1) hi
                (by omega) (by omega) (by omega) (by omega) hl3 hq hlel
            refine ⟨mem4, rnd3, d1, d2.mono_frame (by omega) (le_refl _),
              d3.mono_range (by omega) (le_refl _), ?_, ?_, ?_, ?_⟩
            · intro k hk; exact d3.eq_outside (Or.inl (by omega))
            · intro P hP k h1 h2
              exact d3.forall_range (P := P) (fun i a b => hP i (by omega) b) k (by omega) h2
            · intro hord i j h1 h2 h3
              exact d4 hord i j (by omega) h2 h3
            · intro hord hs
              exact d5 hord (fun i j h1 h2 h3 => hs i j (by omega) h2 h3)
          · rw [if_neg cp]
            have : p2 = hi := by omega
            refine ⟨mem3, _, rfl, DataFrame.refl_frame _ _ _ _, PermOn.refl_range _ _ _, fun _ _ => rfl,
              fun P hP => hP, ?_, fun _ _ => rfl⟩
            intro _ i j h1 h2 h3
            omega
        obtain ⟨mem4, rnd3, d1, d2, d3, d4, d5, d6, d7⟩ := hB
        rw [d1]
        refine ⟨mem4, rnd3, rfl, ((k8.trans_frame g5).trans_frame e2).trans_frame d2,
          ((k9.trans_range g6).trans_range e3).trans_range d3, ?_, ?_⟩
        · -- the range is in order
          intro hord i j h1 h2 h3
          have hpv : dat mem4 ns p2 = dat mem2 ns p2 := by
            rw [d4 p2 (le_refl _), e4 p2 (le_refl _)]
          have hleft : ∀ k, lo ≤ k → k < p2 →
              cmp (dat mem4 ns k) (dat mem2 ns p2) * -versus ≤ 0 := by
            intro k a b
            rw [d4 k (by omega)]
            exact e5 (fun x => cmp x (dat mem2 ns p2) * -versus ≤ 0) g7 k a b
          have hright : ∀ k, p2 < k → k ≤ hi →
              cmp (dat mem2 ns p2) (dat mem4 ns k) * -versus ≤ 0 := by
            intro k a b
            have := d5 (fun x => cmp x (dat mem2 ns p2) * -versus ≥ 0)
              (fun k a b => by rw [e4 k (by omega)]; exact g8 k a b) k a b
            simp only at this
            rw [hord.1]; omega
          by_cases cj : j < p2
          · rw [d4 i (by omega), d4 j (by omega)]
            exact e6 hord i j h1 h2 cj
          · by_cases ci : p2 < i
            · exact d6 hord i j ci h2 h3
            · by_cases cj2 : j = p2
              · subst cj2; rw [hpv]; exact hleft i h1 h2
              · by_cases ci2 : i = p2
                · subst ci2; rw [hpv]; exact hright j (by omega) h3
                · exact hord.2 _ _ _ (hleft i h1 (by omega)) (hright j (by omega) h3)
        · -- nothing is written when the range is in order
          intro hord hs
          have hm1 : mem1 = mem := by
            apply k12
            · intro k a b; exact hs k _ a b (by omega)
            · intro k a b
              have := hs _ k (by omega) a b
              rw [hord.1] at this; omega
          have hm2 := g9 (by
              rw [hm1]; intro k a b; exact hs k _ a b (by omega)) (by
              rw [hm1]; intro k a b
              have := hs _ k (by omega) a b
              rw [hord.1] at this; omega)
          have hm3 : mem3 = mem2 := by
            apply e7 hord
            rw [hm2.1, hm1]
            intro i j a b c
            exact hs i j a b (by omega)
          have hm4 : mem4 = mem3 := by
            apply d7 hord
            rw [hm3, hm2.1, hm1]
            intro i j a b c
            exact hs i j (by omega) b c
          rw [hm4, hm3, hm2.1, hm1]

/-! ## `list_sort` on a well-formed list -/

/-- The sentinels are not at the positions `1..numels` of the chain. -/
theorem chain_head_not_body {l : list_t α} {body : List Nat} (h : Inv l body) :
    ∀ k, 1 ≤ k → k ≤ l.numels → (chain l body)[k]? ≠ some l.head_sentinel := by
  intro k h1 h2 hk
  have hndc : (chain l body).Nodup := (List.nodup_append.1 h.nodup).2.1
  have := nodup_index_eq hndc hk (chain_zero l body)
  omega

theorem chain_tail_not_body {l : list_t α} {body : List Nat} (h : Inv l body) :
    ∀ k, 1 ≤ k → k ≤ l.numels → (chain l body)[k]? ≠ some l.tail_sentinel := by
  intro k h1 h2 hk
  have hndc : (chain l body).Nodup := (List.nodup_append.1 h.nodup).2.1
  have := nodup_index_eq hndc hk (chain_last l body)
  have := h.numels_eq
  omega

/-- A heap that differs only in payloads of the entries keeps the list well
formed. -/
theorem Inv.of_dataFrame {l : list_t α} {body : List Nat} (h : Inv l body)
    {mem1 : Nat → list_entry_s α} (hf : DataFrame (chain l body) 1 l.numels l.mem mem1) :
    Inv { l with mem := mem1 } body where
  numels_eq := h.numels_eq
  nodup := h.nodup
  valid := h.valid
  linked := hf.linked h.linked
  head_prev := by
    show (mem1 l.head_sentinel).prev = 0
    rw [(hf l.head_sentinel).2.1]; exact h.head_prev
  tail_next := by
    show (mem1 l.tail_sentinel).next = 0
    rw [(hf l.tail_sentinel).1]; exact h.tail_next
  head_data := by
    show (mem1 l.head_sentinel).data = none
    rw [(hf l.head_sentinel).2.2 (chain_head_not_body h)]; exact h.head_data
  tail_data := by
    show (mem1 l.tail_sentinel).data = none
    rw [(hf l.tail_sentinel).2.2 (chain_tail_not_body h)]; exact h.tail_data
  mid := h.mid
  spare_le := h.spare_le

/-- A `list_sort` on a busy list or without comparator changes nothing. -/
theorem list_sort_guard (fuel : Nat) (rnd : Nat → Nat) (l : list_t α) (versus : Int)
    (hg : l.iter_active ≠ 0 ∨ l.attrs.comparator = none) :
    list_sort fuel rnd l versus = some (-1, l, rnd) := by
  unfold list_sort
  cases hc : l.attrs.comparator with
  | none => rfl
  | some cmp =>
    rcases hg with hg | hg
    · simp only [if_pos hg]
    · rw [hc] at hg; cases hg

/-- On a well-formed idle list with a comparator, `list_sort` with fuel
`numels + 2` at least returns 0; the list keeps its entries, only payloads of
the entries are rearranged; with a total preorder they end in order, and
nothing is written when they were in order. -/
theorem list_sort_spec {l : list_t α} {body : List Nat} (h : Inv l body)
    {cmp : Option α → Option α → Int} (hcmp : l.attrs.comparator = some cmp)
    (hidle : l.iter_active = 0) {fuel : Nat} (hfuel : l.numels + 2 ≤ fuel)
    (rnd : Nat → Nat) (versus : Int) :
    ∃ mem1 rnd1, list_sort fuel rnd l versus = some (0, { l with mem := mem1 }, rnd1) ∧
      DataFrame (chain l body) 1 l.numels l.mem mem1 ∧
      PermOn 1 l.numels (dat l.mem (chain l body)) (dat mem1 (chain l body)) ∧
      (OrdOK cmp versus → SortedOn cmp versus (dat mem1 (chain l body)) 1 l.numels) ∧
      (OrdOK cmp versus → SortedOn cmp versus (dat l.mem (chain l body)) 1 l.numels →
        mem1 = l.mem) := by
  have hn := h.numels_eq
  have hlen := chain_length l body
  have hndc : (chain l body).Nodup := (List.nodup_append.1 h.nodup).2.1
  unfold list_sort
  rw [hcmp]
  simp only []
  rw [if_neg (show ¬(l.iter_active ≠ 0) by simp [hidle])]
  by_cases c : l.numels ≤ 1
  · rw [if_pos c]
    refine ⟨l.mem, rnd, rfl, DataFrame.refl_frame _ _ _ _, PermOn.refl_range _ _ _, ?_, fun _ _ => rfl⟩
    intro _ i j h1 h2 h3
    omega
  · rw [if_neg c]
    obtain ⟨fel, hfel⟩ := exists_getElem?_of_lt (show 0 + 1 < (chain l body).length by omega)
    obtain ⟨lel, hlel⟩ := exists_getElem?_of_lt
      (show l.numels < (chain l body).length by omega)
    have hlel' : (chain l body)[l.numels + 1]? = some l.tail_sentinel := by
      rw [hn]; exact chain_last l body
    have e1 : (l.mem l.head_sentinel).next = fel :=
      (h.linked 0 _ fel (chain_zero l body) hfel).1
    have e2 : (l.mem l.tail_sentinel).prev = lel :=
      (h.linked l.numels lel _ hlel hlel').2
    rw [e1, e2]
    obtain ⟨mem1, rnd1, hr, k1, k2, k3, k4⟩ :=
      list_sort_quicksort_spec cmp versus hndc fuel rnd l.mem 0 fel (l.numels - 1) lel 1
        l.numels (by omega) (by omega) (by omega) (by omega) h.linked hfel hlel
    rw [hr]
    exact ⟨mem1, rnd1, rfl, k1, k2, k3, k4⟩

/-! ## `list_clear` on a well-formed list -/

/-- The first loop of `list_clear` moves the first entries to the free-list
while there is room. -/
theorem list_clear_spare_spec {l : list_t α} {body : List Nat}
    (hl : Linked l.mem (chain l body)) (hnd : (chain l body).Nodup) :
    ∀ (fuel i : Nat) (sp : Nat → Nat) (spn s : Nat), (chain l body)[i + 1]? = some s →
      i ≤ body.length → body.length - i + 1 ≤ fuel →
      ∃ k sp1 s1, list_clear_spare l.mem l.tail_sentinel fuel sp spn s = some (sp1, spn + k, s1) ∧
        (chain l body)[i + k + 1]? = some s1 ∧ i + k ≤ body.length ∧
        k = min (ACDLL_MAX_SPARE_ELEMS - spn) (body.length - i) ∧
        (List.range (spn + k)).map sp1 = (List.range spn).map sp ++ (body.drop i).take k := by
  have hlen := chain_length l body
  intro fuel
  induction fuel with
  | zero => intro i sp spn s _ _ hf; omega
  | succ f ih =>
    intro i sp spn s hs hi hf
    rw [list_clear_spare]
    by_cases c : spn < ACDLL_MAX_SPARE_ELEMS ∧ s ≠ l.tail_sentinel
    · rw [if_pos c]
      have hi' : i < body.length := by
        rcases Nat.lt_or_ge i body.length with h | h
        · exact h
        · exfalso
          have : i = body.length := by omega
          subst this
          exact c.2 (Option.some.inj (hs.symm.trans (chain_last l body)))
      obtain ⟨q, hq⟩ := exists_getElem?_of_lt
        (show i + 1 + 1 < (chain l body).length by omega)
      have hn : (l.mem s).next = q := (hl (i + 1) s q hs hq).1
      rw [hn]
      obtain ⟨k, sp1, s1, hr, h1, h2, h3, h4⟩ :=
        ih (i + 1) (set_slot sp spn s) (spn + 1) q hq (by omega) (by omega)
      have hbi : body[i]? = some s := by
        have : (chain l body)[i + 1]? = body[i]? := by
          simp [chain, List.getElem?_append_left hi']
        rw [← this]; exact hs
      have hdrop : body.drop i = s :: body.drop (i + 1) := by
        rw [List.drop_eq_getElem_cons hi']
        congr 1
        rw [List.getElem?_eq_getElem hi'] at hbi
        exact Option.some.inj hbi
      refine ⟨k + 1, sp1, s1, ?_, ?_, by omega, by omega, ?_⟩
      · rw [hr]; congr 3; omega
      · rw [← h1]; congr 1; omega
      · rw [show spn + (k + 1) = spn + 1 + k by omega, h4, list_spares_push, hdrop]
        simp
    · rw [if_neg c]
      refine ⟨0, sp, s, rfl, hs, hi, ?_, by simp⟩
      by_cases c1 : spn < ACDLL_MAX_SPARE_ELEMS
      · have : s = l.tail_sentinel := by
          by_contra hne; exact c ⟨c1, hne⟩
        have : i = body.length := by
          have := nodup_index_eq hnd hs (this ▸ chain_last l body)
          omega
        omega
      · omega

/-- The second loop of `list_clear` reaches the tail sentinel. -/
theorem list_clear_free_spec {l : list_t α} {body : List Nat}
    (hl : Linked l.mem (chain l body)) :
    ∀ (fuel i s : Nat), (chain l body)[i + 1]? = some s →
      i ≤ body.length → body.length - i + 1 ≤ fuel →
      list_clear_free l.mem l.tail_sentinel fuel s = some l.tail_sentinel := by
  have hlen := chain_length l body
  intro fuel
  induction fuel with
  | zero => intro i s _ _ hf; omega
  | succ f ih =>
    intro i s hs hi hf
    rw [list_clear_free]
    by_cases c : s ≠ l.tail_sentinel
    · rw [if_pos c]
      have hi' : i < body.length := by
        rcases Nat.lt_or_ge i body.length with h | h
        · exact h
        · exfalso
          have : i = body.length := by omega
          subst this
          exact c (Option.some.inj (hs.symm.trans (chain_last l body)))
      obtain ⟨q, hq⟩ := exists_getElem?_of_lt
        (show i + 1 + 1 < (chain l body).length by omega)
      have hn : (l.mem s).next = q := (hl (i + 1) s q hs hq).1
      rw [hn]
      exact ih (i + 1) q hq (by omega) (by omega)
    · rw [if_neg c]
      have : s = l.tail_sentinel := by
        by_contra hne; exact c hne
      rw [this]

/-- A `list_clear` on a busy list changes nothing. -/
theorem list_clear_guard (fuel : Nat) (l : list_t α) (hg : l.iter_active ≠ 0) :
    list_clear fuel l = some (-1, l) := by
  unfold list_clear; rw [if_pos hg]

/-- On a well-formed idle list, `list_clear` with fuel `numels + 1` at least
returns 0 and leaves a well-formed empty list; the first entries went to the
free-list, as many as it had room for. -/
theorem list_clear_spec {l : list_t α} {body : List Nat} (h : Inv l body)
    (hidle : l.iter_active = 0) {fuel : Nat} (hfuel : l.numels + 1 ≤ fuel) :
    ∃ l1, list_clear fuel l = some (0, l1) ∧ Inv l1 [] ∧ l1.numels = 0 ∧
      l1.mid_sentinel = 0 ∧
      list_spares l1 = list_spares l ++
        body.take (min (ACDLL_MAX_SPARE_ELEMS - l.spareelsnum) l.numels) ∧
      l1.spareelsnum =
        l.spareelsnum + min (ACDLL_MAX_SPARE_ELEMS - l.spareelsnum) l.numels ∧
      l1.head_sentinel = l.head_sentinel ∧ l1.tail_sentinel = l.tail_sentinel ∧
      l1.iter_active = l.iter_active ∧ l1.attrs = l.attrs := by
  have hn := h.numels_eq
  have hlen := chain_length l body
  have hndc : (chain l body).Nodup := (List.nodup_append.1 h.nodup).2.1
  obtain ⟨s, hs⟩ := exists_getElem?_of_lt (show 0 + 1 < (chain l body).length by omega)
  have e1 : (l.mem l.head_sentinel).next = s := (h.linked 0 _ s (chain_zero l body) hs).1
  obtain ⟨k, sp1, s1, hr, h1, h2, h3, h4⟩ :=
    list_clear_spare_spec h.linked hndc fuel 0 l.spareels l.spareelsnum s hs (by omega)
      (by omega)
  have hfree := list_clear_free_spec h.linked fuel (0 + k) s1 h1 h2 (by omega)
  have hht : l.head_sentinel ≠ l.tail_sentinel :=
    ne_of_index_ne hndc (chain_zero l body) (chain_last l body) (by omega)
  have hk : k = min (ACDLL_MAX_SPARE_ELEMS - l.spareelsnum) l.numels := by
    rw [h3, hn]; simp
  have hsple := h.spare_le
  unfold list_clear
  rw [if_neg (show ¬(l.iter_active ≠ 0) by simp [hidle]), e1, hr]
  simp only
  rw [hfree]
  simp only
  have hspares : (List.range (l.spareelsnum + k)).map sp1 = list_spares l ++ body.take k := by
    rw [h4]; simp [list_spares]
  refine ⟨_, rfl, ⟨rfl, ?_, ?_, ?_, ?_, ?_, ?_, ?_, ?_, ?_⟩, rfl, rfl, ?_, ?_, rfl, rfl, rfl,
    rfl⟩
  · -- no duplicates
    show (((List.range (l.spareelsnum + k)).map sp1) ++
      (l.head_sentinel :: ([] ++ [l.tail_sentinel]))).Nodup
    rw [hspares, List.append_assoc]
    have hsub : List.Sublist (list_spares l ++ l.head_sentinel ::
        (body.take k ++ [l.tail_sentinel])) (list_spares l ++ chain l body) :=
      List.Sublist.append (List.Sublist.refl _)
        (List.Sublist.cons₂ _ (List.Sublist.append (List.take_sublist _ _)
          (List.Sublist.refl _)))
    have hperm : (list_spares l ++ (body.take k ++ l.head_sentinel ::
        ([] ++ [l.tail_sentinel]))).Perm
        (list_spares l ++ l.head_sentinel :: (body.take k ++ [l.tail_sentinel])) :=
      List.Perm.append_left _ (by simp)
    exact hperm.nodup_iff.2 (h.nodup.sublist hsub)
  · intro a ha
    apply h.valid
    change a ∈ ((List.range (l.spareelsnum + k)).map sp1) ++
      (l.head_sentinel :: ([] ++ [l.tail_sentinel])) at ha
    rw [hspares] at ha
    simp only [List.mem_append, List.mem_cons, List.nil_append, List.mem_singleton,
      List.not_mem_nil, or_false] at ha
    simp only [chain, List.mem_append, List.mem_cons, List.mem_singleton, List.not_mem_nil,
      or_false]
    rcases ha with (ha | ha) | ha | ha
    · exact Or.inl ha
    · exact Or.inr (Or.inr (Or.inl (List.mem_of_mem_take ha)))
    · exact Or.inr (Or.inl ha)
    · exact Or.inr (Or.inr (Or.inr ha))
  · intro i a b ha hb
    simp only [chain, List.nil_append] at ha hb
    match i with
    | 0 =>
      simp at ha hb
      subst ha hb
      simp
    | 1 => simp at hb
    | i + 2 => simp at hb
  · simp [Ne.symm hht, hht, h.head_prev]
  · simp [Ne.symm hht, hht, h.tail_next]
  · simp [h.head_data]
  · simp [h.tail_data]
  · intro hc; simp at hc
  · show l.spareelsnum + k ≤ ACDLL_MAX_SPARE_ELEMS
    omega
  · show (List.range (l.spareelsnum + k)).map sp1 = _
    rw [hspares, hk]
  · show l.spareelsnum + k = _
    rw [hk]

/-- Every `list_clear` that returns leaves a well-formed list. -/
theorem list_clear_inv_any {l : list_t α} {body : List Nat} (h : Inv l body) {fuel : Nat}
    (hfuel : l.numels + 1 ≤ fuel) {r : Int} {l1 : list_t α}
    (hr : list_clear fuel l = some (r, l1)) : ∃ body1, Inv l1 body1 := by
  by_cases hg : l.iter_active ≠ 0
  · rw [list_clear_guard fuel l hg] at hr
    simp only [Option.some.injEq, Prod.mk.injEq] at hr
    exact ⟨body, hr.2 ▸ h⟩
  · have hidle : l.iter_active = 0 := by
      by_contra hc; exact hg hc
    obtain ⟨l2, h1, h2, -⟩ := list_clear_spec h hidle hfuel
    rw [h1] at hr
    simp only [Option.some.injEq, Prod.mk.injEq] at hr
    exact ⟨[], hr.2 ▸ h2⟩

/-- Every `list_sort` that returns leaves a well-formed list with the same
entries. -/
theorem list_sort_inv_any {l : list_t α} {body : List Nat} (h : Inv l body) {fuel : Nat}
    (hfuel : l.numels + 2 ≤ fuel) {rnd : Nat → Nat} {versus : Int} {r : Int} {l1 : list_t α}
    {rnd1 : Nat → Nat} (hr : list_sort fuel rnd l versus = some (r, l1, rnd1)) :
    Inv l1 body := by
  by_cases hg : l.iter_active ≠ 0 ∨ l.attrs.comparator = none
  · rw [list_sort_guard fuel rnd l versus hg] at hr
    simp only [Option.some.injEq, Prod.mk.injEq] at hr
    exact hr.2.1 ▸ h
  · have hidle : l.iter_active = 0 := by
      by_contra hc; exact hg (Or.inl hc)
    obtain ⟨cmp, hcmp⟩ : ∃ cmp, l.attrs.comparator = some cmp := by
      cases hc : l.attrs.comparator with
      | none => exact absurd (Or.inr hc) hg
      | some cmp => exact ⟨cmp, rfl⟩
    obtain ⟨mem1, rnd2, h1, h2, -⟩ := list_sort_spec h hcmp hidle hfuel rnd versus
    rw [h1] at hr
    simp only [Option.some.injEq, Prod.mk.injEq] at hr
    exact hr.2.1 ▸ h.of_dataFrame h2

/-! ## Reachable lists are well formed -/

/-- Every state reached from `list_init` is well formed. -/
theorem Reachable.inv {l : list_t α} (h : Reachable l) : ∃ body, Inv l body := by
  induction h with
  | init => exact ⟨[], list_init_inv⟩
  | attributes_comparator l f _ ih =>
    obtain ⟨body, hb⟩ := ih; exact ⟨body, list_attributes_comparator_inv hb f⟩
  | attributes_seeker l f _ ih =>
    obtain ⟨body, hb⟩ := ih; exact ⟨body, list_attributes_seeker_inv hb f⟩
  | attributes_copy l f c _ ih =>
    obtain ⟨body, hb⟩ := ih; exact ⟨body, list_attributes_copy_inv hb f c⟩
  | insert_at l d pos oom _ ih =>
    obtain ⟨body, hb⟩ := ih; exact list_insert_at_inv_any hb d pos oom
  | delete_at l pos _ ih =>
    obtain ⟨body, hb⟩ := ih; exact list_delete_at_inv_any hb pos
  | clear l fuel r l1 _ hf hr ih =>
    obtain ⟨body, hb⟩ := ih; exact list_clear_inv_any hb hf hr
  | sort l fuel rnd versus r l1 rnd1 _ hf hr ih =>
    obtain ⟨body, hb⟩ := ih; exact ⟨body, list_sort_inv_any hb hf hr⟩
  | iterator_start l _ ih =>
    obtain ⟨body, hb⟩ := ih; exact ⟨body, list_iterator_start_inv hb⟩
  | iterator_next l _ ih =>
    obtain ⟨body, hb⟩ := ih; exact ⟨body, list_iterator_next_inv hb⟩
  | iterator_stop l _ ih =>
    obtain ⟨body, hb⟩ := ih; exact ⟨body, list_iterator_stop_inv hb⟩

/-! ## From positions of the chain to the element sequence -/

/-- The payloads of the entries are the values at positions `1..n` of the
chain. -/
theorem map_data_eq_dat (mem : Nat → list_entry_s α) (l : list_t α) (body : List Nat) :
    body.map (fun p => (mem p).data) =
      (List.range' 1 body.length).map (dat mem (chain l body)) := by
  apply List.ext_getElem?
  intro i
  rw [List.getElem?_map, List.getElem?_map]
  by_cases hi : i < body.length
  · rw [List.getElem?_range' 1 1 hi]
    obtain ⟨p, hp⟩ := exists_getElem?_of_lt hi
    have hc := chain_succ l body hp
    rw [hp]
    simp only [Option.map_some']
    rw [show 1 + 1 * i = i + 1 by omega, dat_of_getElem? mem hc]
  · have h1 : body[i]? = none := List.getElem?_eq_none (by omega)
    have h2 : (List.range' 1 body.length)[i]? = none :=
      List.getElem?_eq_none (by simp; omega)
    rw [h1, h2]; rfl

/-- A rearrangement of the positions `1..n` of the chain permutes the element
sequence. -/
theorem perm_of_permOn (mem mem1 : Nat → list_entry_s α) (l : list_t α) (body : List Nat)
    (h : PermOn 1 body.length (dat mem (chain l body)) (dat mem1 (chain l body))) :
    (body.map (fun p => (mem1 p).data)).Perm (body.map (fun p => (mem p).data)) := by
  rw [map_data_eq_dat mem1 l body, map_data_eq_dat mem l body]
  apply h.perm_map (List.nodup_range' 1 body.length)
  intro i h1 h2
  rw [List.mem_range'_1]; omega

/-- Positions `1..n` of the chain in order give an element sequence in
order. -/
theorem pairwise_of_sortedOn (cmp : Option α → Option α → Int) (versus : Int)
    (mem : Nat → list_entry_s α) (l : list_t α) (body : List Nat)
    (h : SortedOn cmp versus (dat mem (chain l body)) 1 body.length) :
    (body.map (fun p => (mem p).data)).Pairwise (fun a b => cmp a b * -versus ≤ 0) := by
  rw [List.pairwise_iff_getElem]
  intro i j hi hj hij
  rw [List.length_map] at hi hj
  rw [List.getElem_map, List.getElem_map]
  have hci := chain_succ l body (List.getElem?_eq_getElem hi)
  have hcj := chain_succ l body (List.getElem?_eq_getElem hj)
  have := h (i + 1) (j + 1) (by omega) (by omega) (by omega)
  rw [dat_of_getElem? mem hci, dat_of_getElem? mem hcj] at this
  exact this

/-- A comparator of the convention of `acdll.h` makes the tests of the sort
a total preorder, whatever the direction. -/
theorem IsComparator.ordOK {cmp : Option α → Option α → Int} (h : IsComparator cmp)
    (versus : Int) : OrdOK cmp versus := by
  refine ⟨fun a b => by rw [h.antisymm a b]; ring, ?_⟩
  intro a b c h1 h2
  rcases lt_trichotomy versus 0 with hv | hv | hv
  · -- descending: `x` is not after `y` when `cmp x y ≤ 0`
    have e : ∀ x y, cmp x y * -versus ≤ 0 ↔ 0 ≤ cmp y x := by
      intro x y
      rw [h.antisymm x y]
      constructor
      · intro hxy
        by_contra hc
        have : 0 < cmp x y * -versus := mul_pos (by omega) (by omega)
        omega
      · intro hxy
        exact mul_nonpos_of_nonpos_of_nonneg (by omega) (by omega)
    rw [e] at h1 h2 ⊢
    exact h.trans c b a h2 h1
  · subst hv; simp
  · have e : ∀ x y, cmp x y * -versus ≤ 0 ↔ 0 ≤ cmp x y := by
      intro x y
      constructor
      · intro hxy
        by_contra hc
        have : 0 < cmp x y * -versus := mul_pos_of_neg_of_neg (by omega) (by omega)
        omega
      · intro hxy
        exact mul_nonpos_of_nonneg_of_nonpos hxy (by omega)
    rw [e] at h1 h2 ⊢
    exact h.trans a b c h1 h2

theorem eraseIdx_map {β γ : Type} (f : β → γ) (xs : List β) (k : Nat) :
    (xs.map f).eraseIdx k = (xs.eraseIdx k).map f := by
  rw [List.eraseIdx_eq_take_drop_succ, List.eraseIdx_eq_take_drop_succ, List.map_append,
    List.map_take, List.map_drop]

theorem eraseIdx_insert (xs : List Nat) (pos x : Nat) (h : pos ≤ xs.length) :
    (xs.take pos ++ x :: xs.drop pos).eraseIdx pos = xs := by
  have hlen : (xs.take pos).length = pos := by simp [h]
  rw [List.eraseIdx_append_of_length_le (by omega), hlen, Nat.sub_self,
    List.eraseIdx_cons_zero, List.take_append_drop]

/-- The element sequence after an insertion, from the entries. -/
theorem map_insert_data {mem mem1 : Nat → list_entry_s α} {body : List Nat} {lent : Nat}
    (hl : lent ∉ body) (d : Option α)
    (hd : ∀ a, (mem1 a).data = if a = lent then d else (mem a).data) (pos : Nat) :
    (body.take pos ++ lent :: body.drop pos).map (fun p => (mem1 p).data) =
      (body.map (fun p => (mem p).data)).take pos ++ [d] ++
        (body.map (fun p => (mem p).data)).drop pos := by
  have hcongr : ∀ xs : List Nat, (∀ a ∈ xs, a ∈ body) →
      xs.map (fun p => (mem1 p).data) = xs.map (fun p => (mem p).data) := by
    intro xs hx
    apply List.map_congr_left
    intro a ha
    have : a ≠ lent := by rintro rfl; exact hl (hx _ ha)
    simp [hd, this]
  rw [List.map_append, List.map_cons, hcongr _ (fun a ha => List.mem_of_mem_take ha),
    hcongr _ (fun a ha => List.mem_of_mem_drop ha), List.map_take, List.map_drop]
  simp [hd]

/-- States reached by calls of `list_insert_at` and `list_delete_at` are
reachable. -/
theorem run_ops_reachable (ops : List (list_op α)) : Reachable (run_ops ops) := by
  unfold run_ops
  generalize hl : (list_init (α := α)).2 = l0
  have h0 : Reachable l0 := hl ▸ Reachable.init
  clear hl
  induction ops generalizing l0 with
  | nil => exact h0
  | cons op ops ih =>
    rw [List.foldl_cons]
    apply ih
    cases op with
    | insert_at d pos oom => exact Reachable.insert_at l0 d pos oom h0
    | delete_at pos => exact Reachable.delete_at l0 pos h0

theorem cmp_header_isComparator : IsComparator cmp_header := by
  refine ⟨?_, ?_⟩
  · intro a b
    cases a <;> cases b <;> simp only [cmp_header] <;> try rfl
    split_ifs <;> omega
  · intro a b c
    cases a <;> cases b <;> cases c <;> simp only [cmp_header] <;> omega

theorem list_of_reachable (xs : List Nat) : Reachable (list_of xs) := by
  unfold list_of
  generalize hl : (list_attributes_comparator (list_init (α := Nat)).2 (some cmp_header)).2 = l0
  have h0 : Reachable l0 := hl ▸ Reachable.attributes_comparator _ _ Reachable.init
  clear hl
  induction xs generalizing l0 with
  | nil => exact h0
  | cons x xs ih =>
    rw [List.foldl_cons]
    apply ih
    exact Reachable.insert_at l0 (some x) l0.numels false h0

/-! ## The claims -/

/-- Insertion with the exact quotient: on a reachable list with no iteration
active, `list_insert_at` at a position `pos ≤ numels`, when an entry is
acquired (the free-list has one or `malloc` does not fail), returns 1, the
element sequence becomes `old[0..pos) ++ [e] ++ old[pos..numels)` and `numels`
grows by exactly one. -/
theorem list_insert_at_correct (l : list_t α) (hr : Reachable l) (hidle : l.iter_active = 0)
    (pos : Nat) (hpos : pos ≤ l.numels) (e : Option α) (oom : Bool)
    (halloc : oom = false ∨ 0 < l.spareelsnum) :
    (list_insert_at l e pos oom).1 = 1 ∧
    list_elements (list_insert_at l e pos oom).2 =
      (list_elements l).take pos ++ [e] ++ (list_elements l).drop pos ∧
    (list_insert_at l e pos oom).2.numels = l.numels + 1 := by
  obtain ⟨body, hb⟩ := hr.inv
  obtain ⟨lent, hl, h1, h2, h3, -, -⟩ := list_insert_at_inv hb hidle hpos halloc e
  refine ⟨h1, ?_, ?_⟩
  · rw [list_elements_eq h2, list_elements_eq hb]
    exact map_insert_data hl e h3 pos
  · rw [h2.numels_eq, hb.numels_eq]
    simp
    omega

theorem list_insert_at_correct_witness :
    Reachable (list_of [5, 3, 1]) ∧ (list_of [5, 3, 1]).iter_active = 0 ∧
    1 ≤ (list_of [5, 3, 1]).numels ∧
    ((list_insert_at (list_of [5, 3, 1]) (some 7) 1 false).1 = 1 ∧
      list_elements (list_insert_at (list_of [5, 3, 1]) (some 7) 1 false).2 =
        (list_elements (list_of [5, 3, 1])).take 1 ++ [some 7] ++
          (list_elements (list_of [5, 3, 1])).drop 1 ∧
      (list_insert_at (list_of [5, 3, 1]) (some 7) 1 false).2.numels =
        (list_of [5, 3, 1]).numels + 1) ∧
    list_elements (list_insert_at (list_of [5, 3, 1]) (some 7) 1 false).2 =
      [some 5, some 7, some 3, some 1] :=
  ⟨list_of_reachable _, rfl, by decide,
    list_insert_at_correct (list_of [5, 3, 1]) (list_of_reachable _) rfl 1 (by decide) (some 7)
      false (Or.inl rfl),
    by decide⟩

/-- Deletion with the exact quotient: on a reachable list with no iteration
active, `list_delete_at` at a position `pos < numels` returns 0, the element
sequence becomes the old one without its element of index `pos`, and `numels`
decreases by exactly one. -/
theorem list_delete_at_correct (l : list_t α) (hr : Reachable l) (hidle : l.iter_active = 0)
    (pos : Nat) (hpos : pos < l.numels) :
    (list_delete_at l pos).1 = 0 ∧
    list_elements (list_delete_at l pos).2 = (list_elements l).eraseIdx pos ∧
    (list_delete_at l pos).2.numels + 1 = l.numels := by
  obtain ⟨body, hb⟩ := hr.inv
  obtain ⟨h1, h2, h3, -, -⟩ := list_delete_at_inv hb hidle hpos
  refine ⟨h1, ?_, ?_⟩
  · rw [list_elements_eq h2, list_elements_eq hb, eraseIdx_map]
    apply List.map_congr_left
    intro a _
    exact h3 a
  · rw [h2.numels_eq, hb.numels_eq, List.length_eraseIdx,
      if_pos (by rw [← hb.numels_eq]; exact hpos)]
    have := hb.numels_eq
    omega

theorem list_delete_at_correct_witness :
    Reachable (list_of [5, 3, 1]) ∧ (list_of [5, 3, 1]).iter_active = 0 ∧
    1 < (list_of [5, 3, 1]).numels ∧
    ((list_delete_at (list_of [5, 3, 1]) 1).1 = 0 ∧
      list_elements (list_delete_at (list_of [5, 3, 1]) 1).2 =
        (list_elements (list_of [5, 3, 1])).eraseIdx 1 ∧
      (list_delete_at (list_of [5, 3, 1]) 1).2.numels + 1 = (list_of [5, 3, 1]).numels) ∧
    list_elements (list_delete_at (list_of [5, 3, 1]) 1).2 = [some 5, some 1] :=
  ⟨list_of_reachable _, rfl, by decide,
    list_delete_at_correct (list_of [5, 3, 1]) (list_of_reachable _) rfl 1 (by decide),
    by decide⟩

/-- The mid pointer with the exact quotient: after any sequence of
`list_insert_at` and `list_delete_at` calls on a freshly initialised list,
whatever they return, when `numels > 0` the mid pointer is the entry of index
`(numels - 1) / 2` among the entries met from the head, and its payload is the
element of that index. -/
theorem mid_sentinel_is_middle (ops : List (list_op α)) (hpos : 0 < (run_ops ops).numels) :
    (list_entries (run_ops ops))[((run_ops ops).numels - 1) / 2]? =
      some (run_ops ops).mid_sentinel ∧
    (list_elements (run_ops ops))[((run_ops ops).numels - 1) / 2]? =
      some ((run_ops ops).mem (run_ops ops).mid_sentinel).data := by
  obtain ⟨body, hb⟩ := (run_ops_reachable ops).inv
  have hm := hb.mid hpos
  refine ⟨by rw [list_entries_eq hb]; exact hm, ?_⟩
  rw [list_elements_eq hb, List.getElem?_map, hm]
  rfl

theorem mid_sentinel_is_middle_witness :
    0 < (run_ops example_ops).numels ∧
    ((list_entries (run_ops example_ops))[((run_ops example_ops).numels - 1) / 2]? =
        some (run_ops example_ops).mid_sentinel ∧
      (list_elements (run_ops example_ops))[((run_ops example_ops).numels - 1) / 2]? =
        some ((run_ops example_ops).mem (run_ops example_ops).mid_sentinel).data) ∧
    list_elements (run_ops example_ops) = [some 9, some 5, some 4, some 1] ∧
    ((run_ops example_ops).mem (run_ops example_ops).mid_sentinel).data = some 5 :=
  ⟨by decide, mid_sentinel_is_middle example_ops (by decide), by decide, by decide⟩

/-- C4 (the code departs from it): after the only element of a one-element
list is deleted, `numels` is 0 and the sentinels point to each other, but the
mid pointer is the head sentinel and not `NULL`, while `list_init` and
`list_clear` leave it `NULL` on an empty list. -/
theorem list_delete_at_last_mid :
    (list_insert_at (list_init (α := Nat)).2 (some 1) 0 false).2.numels = 1 ∧
    (list_delete_at (list_insert_at (list_init (α := Nat)).2 (some 1) 0 false).2 0).1 = 0 ∧
    (list_delete_at (list_insert_at (list_init (α := Nat)).2 (some 1) 0 false).2 0).2.numels
      = 0 ∧
    ((list_delete_at (list_insert_at (list_init (α := Nat)).2 (some 1) 0 false).2 0).2.mem
      (list_delete_at (list_insert_at (list_init (α := Nat)).2 (some 1) 0 false).2
        0).2.head_sentinel).next =
      (list_delete_at (list_insert_at (list_init (α := Nat)).2 (some 1) 0 false).2
        0).2.tail_sentinel ∧
    ((list_delete_at (list_insert_at (list_init (α := Nat)).2 (some 1) 0 false).2 0).2.mem
      (list_delete_at (list_insert_at (list_init (α := Nat)).2 (some 1) 0 false).2
        0).2.tail_sentinel).prev =
      (list_delete_at (list_insert_at (list_init (α := Nat)).2 (some 1) 0 false).2
        0).2.head_sentinel ∧
    (list_delete_at (list_insert_at (list_init (α := Nat)).2 (some 1) 0 false).2
      0).2.mid_sentinel =
      (list_delete_at (list_insert_at (list_init (α := Nat)).2 (some 1) 0 false).2
        0).2.head_sentinel ∧
    (list_delete_at (list_insert_at (list_init (α := Nat)).2 (some 1) 0 false).2
      0).2.mid_sentinel ≠ 0 ∧
    (list_init (α := Nat)).2.mid_sentinel = 0 ∧
    (list_clear 2 (list_insert_at (list_init (α := Nat)).2 (some 1) 0 false).2).map
      (fun r => (r.1, r.2.numels, r.2.mid_sentinel)) = some (0, 0, 0) := by
  decide

/-- Insertion then deletion with the exact quotient: on a reachable list with
no iteration active, for a position `pos ≤ numels`, `list_insert_at` at `pos`
(an entry being acquired) followed by `list_delete_at` at `pos` both succeed
and give back the count and the element sequence. -/
theorem list_insert_delete_restores (l : list_t α) (hr : Reachable l)
    (hidle : l.iter_active = 0) (pos : Nat) (hpos : pos ≤ l.numels) (e : Option α)
    (oom : Bool) (halloc : oom = false ∨ 0 < l.spareelsnum) :
    (list_insert_at l e pos oom).1 = 1 ∧
    (list_delete_at (list_insert_at l e pos oom).2 pos).1 = 0 ∧
    (list_delete_at (list_insert_at l e pos oom).2 pos).2.numels = l.numels ∧
    list_elements (list_delete_at (list_insert_at l e pos oom).2 pos).2 = list_elements l := by
  obtain ⟨body, hb⟩ := hr.inv
  obtain ⟨lent, hl, h1, h2, h3, h4, -⟩ := list_insert_at_inv hb hidle hpos halloc e
  have hn := hb.numels_eq
  have hn1 := h2.numels_eq
  have hlen : (body.take pos ++ lent :: body.drop pos).length = body.length + 1 := by
    simp; omega
  obtain ⟨g1, g2, g3, -, -⟩ := list_delete_at_inv h2 (h4.trans hidle)
    (show pos < (list_insert_at l e pos oom).2.numels by omega)
  rw [eraseIdx_insert body pos lent (by omega)] at g2
  refine ⟨h1, g1, ?_, ?_⟩
  · rw [g2.numels_eq, hn]
  · rw [list_elements_eq g2, list_elements_eq hb]
    apply List.map_congr_left
    intro a ha
    have : a ≠ lent := by rintro rfl; exact hl ha
    rw [g3 a, h3 a, if_neg this]

theorem list_insert_delete_restores_witness :
    Reachable (list_of [5, 3, 1]) ∧ (list_of [5, 3, 1]).iter_active = 0 ∧
    3 ≤ (list_of [5, 3, 1]).numels ∧
    ((list_insert_at (list_of [5, 3, 1]) (some 7) 3 false).1 = 1 ∧
      (list_delete_at (list_insert_at (list_of [5, 3, 1]) (some 7) 3 false).2 3).1 = 0 ∧
      (list_delete_at (list_insert_at (list_of [5, 3, 1]) (some 7) 3 false).2 3).2.numels =
        (list_of [5, 3, 1]).numels ∧
      list_elements (list_delete_at (list_insert_at (list_of [5, 3, 1]) (some 7) 3 false).2
        3).2 = list_elements (list_of [5, 3, 1])) :=
  ⟨list_of_reachable _, rfl, by decide,
    list_insert_delete_restores (list_of [5, 3, 1]) (list_of_reachable _) rfl 3 (by decide)
      (some 7) false (Or.inl rfl)⟩

/-- C6: while an iteration is active, `list_insert_at`, `list_delete_at`,
`list_clear` and `list_sort` return a negative value and leave the whole list
state (elements, count, mid pointer, free-list, iteration state) as it was,
for all arguments. -/
theorem busy_list_unchanged (l : list_t α) (hbusy : l.iter_active ≠ 0) (data : Option α)
    (pos : Nat) (oom : Bool) (fuel : Nat) (rnd : Nat → Nat) (versus : Int) :
    ((list_insert_at l data pos oom).1 < 0 ∧ (list_insert_at l data pos oom).2 = l) ∧
    ((list_delete_at l pos).1 < 0 ∧ (list_delete_at l pos).2 = l) ∧
    (∃ r, list_clear fuel l = some (r, l) ∧ r < 0) ∧
    (∃ r, list_sort fuel rnd l versus = some (r, l, rnd) ∧ r < 0) := by
  rw [list_insert_at_guard l data pos oom (Or.inl hbusy),
    list_delete_at_guard l pos (Or.inl hbusy), list_clear_guard fuel l hbusy,
    list_sort_guard fuel rnd l versus (Or.inl hbusy)]
  exact ⟨⟨(by decide : (-1 : Int) < 0), rfl⟩, ⟨(by decide : (-1 : Int) < 0), rfl⟩,
    ⟨-1, rfl, by decide⟩, ⟨-1, rfl, by decide⟩⟩

theorem busy_list_unchanged_witness :
    (list_iterator_start (list_of [5, 3, 1])).1 = 1 ∧
    (list_iterator_start (list_of [5, 3, 1])).2.iter_active ≠ 0 ∧
    (((list_insert_at (list_iterator_start (list_of [5, 3, 1])).2 (some 7) 1 false).1 < 0 ∧
        (list_insert_at (list_iterator_start (list_of [5, 3, 1])).2 (some 7) 1 false).2 =
          (list_iterator_start (list_of [5, 3, 1])).2) ∧
      ((list_delete_at (list_iterator_start (list_of [5, 3, 1])).2 1).1 < 0 ∧
        (list_delete_at (list_iterator_start (list_of [5, 3, 1])).2 1).2 =
          (list_iterator_start (list_of [5, 3, 1])).2) ∧
      (∃ r, list_clear 4 (list_iterator_start (list_of [5, 3, 1])).2 =
        some (r, (list_iterator_start (list_of [5, 3, 1])).2) ∧ r < 0) ∧
      (∃ r, list_sort 5 (fun _ => 0) (list_iterator_start (list_of [5, 3, 1])).2 1 =
        some (r, (list_iterator_start (list_of [5, 3, 1])).2, fun _ => 0) ∧ r < 0)) :=
  ⟨by decide, by decide,
    busy_list_unchanged (list_iterator_start (list_of [5, 3, 1])).2 (by decide) (some 7) 1 false
      4 (fun _ => 0) 1⟩

/-- C7: `list_insert_at` with `pos > numels` and `list_delete_at` with
`pos ≥ numels` return a negative value (-1) and leave the whole list state as
it was, the free-list included: no entry is acquired before the range
check. -/
theorem out_of_range_unchanged (l : list_t α) (data : Option α) (oom : Bool) (pos1 pos2 : Nat)
    (h1 : pos1 > l.numels) (h2 : pos2 ≥ l.numels) :
    list_insert_at l data pos1 oom = (-1, l) ∧ list_delete_at l pos2 = (-1, l) ∧
    (list_insert_at l data pos1 oom).1 < 0 ∧ (list_delete_at l pos2).1 < 0 ∧
    list_spares (list_insert_at l data pos1 oom).2 = list_spares l ∧
    (list_insert_at l data pos1 oom).2.spareelsnum = l.spareelsnum := by
  have e1 := list_insert_at_guard l data pos1 oom (Or.inr h1)
  have e2 := list_delete_at_guard l pos2 (Or.inr h2)
  rw [e1, e2]
  exact ⟨rfl, rfl, (by decide : (-1 : Int) < 0), (by decide : (-1 : Int) < 0), rfl, rfl⟩

theorem out_of_range_unchanged_witness :
    4 > (list_of [5, 3, 1]).numels ∧ 0 ≥ (list_init (α := Nat)).2.numels ∧
    (list_insert_at (list_of [5, 3, 1]) (some 7) 4 false = (-1, list_of [5, 3, 1]) ∧
      list_delete_at (list_of [5, 3, 1]) 3 = (-1, list_of [5, 3, 1]) ∧
      (list_insert_at (list_of [5, 3, 1]) (some 7) 4 false).1 < 0 ∧
      (list_delete_at (list_of [5, 3, 1]) 3).1 < 0 ∧
      list_spares (list_insert_at (list_of [5, 3, 1]) (some 7) 4 false).2 =
        list_spares (list_of [5, 3, 1]) ∧
      (list_insert_at (list_of [5, 3, 1]) (some 7) 4 false).2.spareelsnum =
        (list_of [5, 3, 1]).spareelsnum) ∧
    list_delete_at (list_init (α := Nat)).2 0 = (-1, (list_init (α := Nat)).2) :=
  ⟨by decide, by decide,
    out_of_range_unchanged (list_of [5, 3, 1]) (some 7) false 4 3 (by decide) (by decide),
    (out_of_range_unchanged (list_init (α := Nat)).2 none false 1 0 (by decide)
      (by decide)).2.1⟩

theorem list_insert_at_iter_active (l : list_t α) (d : Option α) (pos : Nat) (oom : Bool) :
    (list_insert_at l d pos oom).2.iter_active = l.iter_active := by
  unfold list_insert_at
  split_ifs
  · rfl
  · cases hacq : list_insert_at_acquire l oom with
    | none => rfl
    | some r =>
      obtain ⟨lent, l1⟩ := r
      simp only []
      rw [(list_insert_at_link_frame l1 lent d pos).2.2.2.2.2.1]
      unfold list_insert_at_acquire at hacq
      split_ifs at hacq <;> simp only [Option.some.injEq, Prod.mk.injEq] at hacq <;>
        (rw [← hacq.2])

theorem list_delete_at_iter_active (l : list_t α) (pos : Nat) :
    (list_delete_at l pos).2.iter_active = l.iter_active := by
  unfold list_delete_at list_drop_elem
  simp only []
  split_ifs <;> rfl

theorem list_clear_iter_active {fuel : Nat} {l : list_t α} {r : Int} {l1 : list_t α}
    (h : list_clear fuel l = some (r, l1)) : l1.iter_active = l.iter_active := by
  unfold list_clear at h
  split_ifs at h
  · simp only [Option.some.injEq, Prod.mk.injEq] at h
    rw [← h.2]
  · split at h
    · cases h
    · split at h
      · cases h
      · simp only [Option.some.injEq, Prod.mk.injEq] at h
        rw [← h.2]

theorem list_sort_iter_active {fuel : Nat} {rnd : Nat → Nat} {l : list_t α} {versus : Int}
    {r : Int} {l1 : list_t α} {rnd1 : Nat → Nat}
    (h : list_sort fuel rnd l versus = some (r, l1, rnd1)) :
    l1.iter_active = l.iter_active := by
  unfold list_sort at h
  split at h
  · simp only [Option.some.injEq, Prod.mk.injEq] at h
    rw [← h.2.1]
  · split_ifs at h
    · simp only [Option.some.injEq, Prod.mk.injEq] at h
      rw [← h.2.1]
    · simp only [Option.some.injEq, Prod.mk.injEq] at h
      rw [← h.2.1]
    · split at h
      · cases h
      · simp only [Option.some.injEq, Prod.mk.injEq] at h
        rw [← h.2.1]

/-- During an iteration session of a reachable list the cursor is the entry
of the chain at the iteration position: the entry of index `iter_pos`, or the
tail sentinel when `iter_pos = numels`. -/
theorem Reachable.cursor {l : list_t α} (h : Reachable l) :
    l.iter_active ≠ 0 → l.iter_pos ≤ l.numels →
      (l.head_sentinel :: (list_entries l ++ [l.tail_sentinel]))[l.iter_pos + 1]? =
        some l.iter_curentry := by
  induction h with
  | init => intro ha; exact absurd rfl ha
  | attributes_comparator l f _ ih => exact ih
  | attributes_seeker l f _ ih => exact ih
  | attributes_copy l f c _ ih =>
    unfold list_attributes_copy
    split_ifs
    · exact ih
    · exact ih
  | insert_at l d pos oom _ ih =>
    by_cases hg : l.iter_active ≠ 0 ∨ pos > l.numels
    · rw [list_insert_at_guard l d pos oom hg]; exact ih
    · intro ha
      rw [list_insert_at_iter_active] at ha
      exact absurd (Or.inl ha) hg
  | delete_at l pos _ ih =>
    by_cases hg : l.iter_active ≠ 0 ∨ pos ≥ l.numels
    · rw [list_delete_at_guard l pos hg]; exact ih
    · intro ha
      rw [list_delete_at_iter_active] at ha
      exact absurd (Or.inl ha) hg
  | clear l fuel r l1 _ hf hr ih =>
    by_cases hg : l.iter_active ≠ 0
    · rw [list_clear_guard fuel l hg] at hr
      simp only [Option.some.injEq, Prod.mk.injEq] at hr
      rw [← hr.2]; exact ih
    · intro ha
      rw [list_clear_iter_active hr] at ha
      exact absurd ha hg
  | sort l fuel rnd versus r l1 rnd1 _ hf hr ih =>
    by_cases hg : l.iter_active ≠ 0
    · rw [list_sort_guard fuel rnd l versus (Or.inl hg)] at hr
      simp only [Option.some.injEq, Prod.mk.injEq] at hr
      rw [← hr.2.1]; exact ih
    · intro ha
      rw [list_sort_iter_active hr] at ha
      exact absurd ha hg
  | iterator_start l hl ih =>
    unfold list_iterator_start
    split_ifs with hg
    · exact ih
    · intro _ _
      obtain ⟨body, hb⟩ := hl.inv
      have hlen := chain_length l body
      obtain ⟨q, hq⟩ := exists_getElem?_of_lt (show 0 + 1 < (chain l body).length by omega)
      have hnx := (hb.linked 0 _ q (chain_zero l body) hq).1
      show (l.head_sentinel :: (list_entries l ++ [l.tail_sentinel]))[0 + 1]? =
        some (l.mem l.head_sentinel).next
      rw [list_entries_eq hb, hnx]
      exact hq
  | iterator_next l hl ih =>
    unfold list_iterator_next
    split_ifs with hg
    · exact ih
    · intro _ hpos
      obtain ⟨body, hb⟩ := hl.inv
      have hlen := chain_length l body
      have hn := hb.numels_eq
      have hpos' : l.iter_pos + 1 ≤ l.numels := hpos
      have hc := ih hg (by omega)
      rw [list_entries_eq hb] at hc
      obtain ⟨q, hq⟩ :=
        exists_getElem?_of_lt (show l.iter_pos + 1 + 1 < (chain l body).length by omega)
      have hnx := (hb.linked _ _ q hc hq).1
      show (l.head_sentinel :: (list_entries l ++ [l.tail_sentinel]))[l.iter_pos + 1 + 1]? =
        some (l.mem l.iter_curentry).next
      rw [list_entries_eq hb, hnx]
      exact hq
  | iterator_stop l _ ih =>
    unfold list_iterator_stop
    split_ifs with hg
    · exact ih
    · intro ha; exact absurd rfl ha

/-- C14, the claim refuted: on the list `[5, 3, 1]` with an iteration session
open, `list_iterator_start` returns 0, the value that `acdll.h` gives for "the
list cannot be currently iterated", and not a positive value. -/
theorem list_iterator_start_twice :
    (list_iterator_start (list_of [5, 3, 1])).2.iter_active ≠ 0 ∧
    (list_iterator_start (list_iterator_start (list_of [5, 3, 1])).2).1 = 0 ∧
    ¬ 0 < (list_iterator_start (list_iterator_start (list_of [5, 3, 1])).2).1 := by
  decide

/-- C14 as amended: if an iteration is already active, `list_iterator_start`
is a no-op that returns 0: the list, with its iteration flag, position and
cursor, is unchanged. -/
theorem list_iterator_start_active (l : list_t α) (hact : l.iter_active ≠ 0) :
    list_iterator_start l = (0, l) := by
  unfold list_iterator_start
  rw [if_pos hact]

theorem list_iterator_start_active_witness :
    (list_iterator_start (list_of [5, 3, 1])).2.iter_active ≠ 0 ∧
    list_iterator_start (list_iterator_start (list_of [5, 3, 1])).2 =
      (0, (list_iterator_start (list_of [5, 3, 1])).2) :=
  ⟨by decide, list_iterator_start_active _ (by decide)⟩


/-! ## Writing to a file -/

/-- C19: calls on a list that lacks the attribute they need. With no
comparator `list_sort` returns -1 and the list is as before; with no seeker
`list_seek` returns `NULL` (it takes the list as `const`); with neither a
meter nor a serializer `list_dump_filedescriptor` returns 0 and the
descriptor is as before: nothing is written and the offset is not moved (it
takes the list as `const`). No fuel is needed. -/
theorem misconfigured_calls (l : list_t α) :
    (l.attrs.comparator = none → ∀ (fuel : Nat) (rnd : Nat → Nat) (versus : Int),
      list_sort fuel rnd l versus = some (-1, l, rnd)) ∧
    (l.attrs.seeker = none → ∀ (fuel : Nat) (indicator : Option α),
      list_seek fuel l indicator = some none) ∧
    (l.attrs.meter = none → l.attrs.serializer = none →
      ∀ (p : platform) (peek : Option α → Nat → List Nat) (timestamp rnd fuel : Nat)
        (fd : stream), list_dump_filedescriptor p peek timestamp rnd fuel l fd = some (0, fd)) := by
  refine ⟨?_, ?_, ?_⟩
  · intro hc fuel rnd versus
    exact list_sort_guard fuel rnd l versus (Or.inr hc)
  · intro hs fuel indicator
    unfold list_seek
    rw [hs]
  · intro hm hser p peek timestamp rnd fuel fd
    unfold list_dump_filedescriptor
    rw [if_pos (by rw [hm, hser]; exact ⟨rfl, rfl⟩)]

theorem misconfigured_calls_witness :
    (run_ops example_ops).attrs.comparator = none ∧
    (run_ops example_ops).attrs.seeker = none ∧
    (run_ops example_ops).attrs.meter = none ∧
    (run_ops example_ops).attrs.serializer = none ∧
    list_elements (run_ops example_ops) = [some 9, some 5, some 4, some 1] ∧
    list_sort 0 (fun _ => 0) (run_ops example_ops) 1 =
      some (-1, run_ops example_ops, fun _ => 0) ∧
    list_seek 0 (run_ops example_ops) (some 5) = some none ∧
    list_dump_filedescriptor lp64_le (fun _ _ => []) 1700000000000000 305419896 0
      (run_ops example_ops) { bytes := [9, 9, 9], pos := 1 } =
        some (0, { bytes := [9, 9, 9], pos := 1 }) :=
  ⟨rfl, rfl, rfl, rfl, by decide,
    (misconfigured_calls (run_ops example_ops)).1 rfl 0 (fun _ => 0) 1,
    (misconfigured_calls (run_ops example_ops)).2.1 rfl 0 (some 5),
    (misconfigured_calls (run_ops example_ops)).2.2 rfl rfl lp64_le (fun _ _ => [])
      1700000000000000 305419896 0 { bytes := [9, 9, 9], pos := 1 }⟩

set_option maxRecDepth 1000000 in
/-- C20, the code at failing inputs: `list_dump_file` returns
`header.totlistlen`, the sum of the element sizes, and not the number of bytes
in the file. For one element of 4 bytes it returns 4 and the file has 38
bytes; for the empty list it returns 0 and the file has 34 bytes; for elements
of 4 and 2 bytes it returns 6 and the file has 60 bytes where
`sizeof(size_t)` is 8, 52 where it is 4. -/
theorem list_dump_file_returns_totlistlen :
    (list_dump_file lp64_le bytes_peek 1700000000000000 305419896 4
      (list_of_bytes [[1, 2, 3, 4]]) none true).map (fun r => (r.1, r.2.map List.length)) =
        some (4, some 38) ∧
    (list_dump_file lp64_le bytes_peek 1700000000000000 305419896 2
      (list_of_bytes []) none true).map (fun r => (r.1, r.2.map List.length)) =
        some (0, some 34) ∧
    (list_dump_file lp64_le bytes_peek 1700000000000000 305419896 6
      (list_of_bytes [[1, 2, 3, 4], [5, 6]]) none true).map
        (fun r => (r.1, r.2.map List.length)) = some (6, some 60) ∧
    (list_dump_file ilp32_le bytes_peek 1700000000000000 305419896 6
      (list_of_bytes [[1, 2, 3, 4], [5, 6]]) none true).map
        (fun r => (r.1, r.2.map List.length)) = some (6, some 52) := by
  decide

set_option maxRecDepth 1000000 in
/-- C17, the code at a failing input: for elements of 4 and 6 bytes the
bytes after the header are not the sized blocks alone. The first element was
written while the sizes were taken for constant, and it stays in front: the
content starts with its four bytes `7 7 7 7`, then come the sized blocks and
the terminator. Where `sizeof(size_t)` is 8 each size takes eight bytes. -/
theorem list_dump_variable_layout :
    (list_dump_filedescriptor ilp32_le bytes_peek 1700000000000000 305419896 6
      (list_of_bytes [[7, 7, 7, 7], [1, 2, 3, 4, 5, 6]]) { bytes := [], pos := 0 }).map
        (fun r => (r.2.bytes.take 30, r.2.bytes.drop 30)) =
      some ([0, 1, 0, 64, 30, 24, 36, 10, 6, 0, 18, 52, 86, 120, 0, 0, 0, 10, 0, 0, 0, 2,
          0, 0, 0, 0, 0, 0, 0, 0],
        [7, 7, 7, 7, 4, 0, 0, 0, 7, 7, 7, 7, 6, 0, 0, 0, 1, 2, 3, 4, 5, 6, 18, 52, 86, 120]) ∧
    (list_dump_filedescriptor lp64_le bytes_peek 1700000000000000 305419896 6
      (list_of_bytes [[7, 7, 7, 7], [1, 2, 3, 4, 5, 6]]) { bytes := [], pos := 0 }).map
        (fun r => r.2.bytes.drop 30) =
      some [7, 7, 7, 7, 4, 0, 0, 0, 0, 0, 0, 0, 7, 7, 7, 7, 6, 0, 0, 0, 0, 0, 0, 0,
        1, 2, 3, 4, 5, 6, 18, 52, 86, 120] := by
  decide

set_option maxRecDepth 1000000 in
/-- C15, the code at a failing input: the list of the byte strings
`1 2 3 4` and `5 6`, with the meter only, is dumped to a file and the file is
restored into a fresh list. `list_restore_file` returns 0 and the list gets no
element: the four bytes of the first element, which the dump left in front of
the sized blocks, are read as a size. The same happens for the three
platforms. -/
theorem dump_restore_variable :
    list_elements (list_of_bytes [[1, 2, 3, 4], [5, 6]]) = [some [1, 2, 3, 4], some [5, 6]] ∧
    (list_dump_file ilp32_le bytes_peek 1700000000000000 305419896 6
      (list_of_bytes [[1, 2, 3, 4], [5, 6]]) none true).map (fun r =>
        (r.1, (list_restore_file ilp32_le some [0, 0, 0, 0] (fun _ => false)
            (list_of_bytes []) r.2).1,
          list_elements (list_restore_file ilp32_le some [0, 0, 0, 0] (fun _ => false)
            (list_of_bytes []) r.2).2)) = some (6, 0, []) ∧
    (list_dump_file lp64_le bytes_peek 1700000000000000 305419896 6
      (list_of_bytes [[1, 2, 3, 4], [5, 6]]) none true).map (fun r =>
        (r.1, (list_restore_file lp64_le some [0, 0, 0, 0] (fun _ => false)
            (list_of_bytes []) r.2).1,
          list_elements (list_restore_file lp64_le some [0, 0, 0, 0] (fun _ => false)
            (list_of_bytes []) r.2).2)) = some (6, 0, []) ∧
    (list_dump_file ilp32_be bytes_peek 1700000000000000 305419896 6
      (list_of_bytes [[1, 2, 3, 4], [5, 6]]) none true).map (fun r =>
        (r.1, (list_restore_file ilp32_be some [0, 0, 0, 0] (fun _ => false)
            (list_of_bytes []) r.2).1,
          list_elements (list_restore_file ilp32_be some [0, 0, 0, 0] (fun _ => false)
            (list_of_bytes []) r.2).2)) = some (6, 0, []) := by
  decide


/-! ## `list_restore_filedescriptor` in parts -/

/-- When the seven reads of the header get their bytes and the version is 1,
`list_restore_filedescriptor` is the content loops followed by the final
tests, for the values of the header. -/
theorem list_restore_filedescriptor_parts (p : platform) (box : List Nat → Option α)
    (elsize0 : List Nat) (oom : Nat → Bool) (l : list_t α)
    (fd fd1 fd2 fd3 fd4 fd5 fd6 fd7 : stream) (v1 v2 v3 v4 v5 v6 v7 : List Nat)
    (h1 : fd_read fd 2 = (v1, fd1)) (h2 : fd_read fd1 8 = (v2, fd2))
    (h3 : fd_read fd2 4 = (v3, fd3)) (h4 : fd_read fd3 4 = (v4, fd4))
    (h5 : fd_read fd4 4 = (v5, fd5)) (h6 : fd_read fd5 4 = (v6, fd6))
    (h7 : fd_read fd6 4 = (v7, fd7))
    (l1 : v1.length = 2) (l2 : v2.length = 8) (l3 : v3.length = 4) (l4 : v4.length = 4)
    (l5 : v5.length = 4) (l6 : v6.length = 4) (l7 : v7.length = 4)
    (hv : unbe v1 = ACDLL_DUMPFORMAT_VERSION) :
    list_restore_filedescriptor p box elsize0 oom l fd =
      list_restore_finish (list_restore_loops p box elsize0 oom l fd7 (unbe v5) (unbe v6))
        (unbe v3) (unbe v4) := by
  delta list_restore_filedescriptor
  rw [h1]
  simp only []
  rw [h2]
  simp only []
  rw [h3]
  simp only []
  rw [h4]
  simp only []
  rw [h5]
  simp only []
  rw [h6]
  simp only []
  rw [h7]
  simp only []
  rw [if_neg (by omega), if_neg (by simp [hv]), if_neg (by omega), if_neg (by omega),
    if_neg (by omega), if_neg (by omega), if_neg (by omega), if_neg (by omega)]
  rfl


/-! ## Restoring: the version test -/

/-- C21: when the stream, from the file offset on, has fewer than two bytes,
or its first two bytes read most significant first are not the version 1,
`list_restore_filedescriptor` returns 0 and the destination list is exactly as
it was: no element is appended. This holds for every list and every
platform. -/
theorem list_restore_bad_version (p : platform) (box : List Nat → Option α)
    (elsize0 : List Nat) (oom : Nat → Bool) (l : list_t α) (fd : stream)
    (h : (fd.bytes.drop fd.pos).length < 2 ∨
      unbe ((fd.bytes.drop fd.pos).take 2) ≠ ACDLL_DUMPFORMAT_VERSION) :
    (list_restore_filedescriptor p box elsize0 oom l fd).1 = 0 ∧
    (list_restore_filedescriptor p box elsize0 oom l fd).2.1 = l := by
  have e : (fd_read fd 2).1 = (fd.bytes.drop fd.pos).take 2 := rfl
  delta list_restore_filedescriptor
  simp only []
  by_cases h2 : (fd_read fd 2).1.length ≠ 2
  · rw [if_pos h2]
    exact ⟨rfl, rfl⟩
  · rw [if_neg h2]
    have hv : unbe (fd_read fd 2).1 ≠ ACDLL_DUMPFORMAT_VERSION := by
      rcases h with h | h
      · exfalso
        apply h2
        rw [e, List.length_take]
        omega
      · rw [e]; exact h
    rw [if_pos hv]
    exact ⟨rfl, rfl⟩

theorem list_restore_bad_version_witness :
    ((({ bytes := [7, 0, 2, 0, 0], pos := 1 } : stream).bytes.drop 1).length < 2 ∨
      unbe ((({ bytes := [7, 0, 2, 0, 0], pos := 1 } : stream).bytes.drop 1).take 2) ≠
        ACDLL_DUMPFORMAT_VERSION) ∧
    ((list_restore_filedescriptor lp64_le some [0, 0, 0, 0] (fun _ => false)
        (list_of_bytes [[1, 2]]) { bytes := [7, 0, 2, 0, 0], pos := 1 }).1 = 0 ∧
      (list_restore_filedescriptor lp64_le some [0, 0, 0, 0] (fun _ => false)
        (list_of_bytes [[1, 2]]) { bytes := [7, 0, 2, 0, 0], pos := 1 }).2.1 =
          list_of_bytes [[1, 2]]) ∧
    (list_restore_filedescriptor lp64_le some [0, 0, 0, 0] (fun _ => false)
      (list_of_bytes [[1, 2]]) { bytes := [0], pos := 0 }).1 = 0 :=
  ⟨by decide,
    list_restore_bad_version lp64_le some [0, 0, 0, 0] (fun _ => false)
      (list_of_bytes [[1, 2]]) { bytes := [7, 0, 2, 0, 0], pos := 1 } (by decide),
    (list_restore_bad_version lp64_le some [0, 0, 0, 0] (fun _ => false)
      (list_of_bytes [[1, 2]]) { bytes := [0], pos := 0 } (by decide)).1⟩

/-! ## Clearing, seeking and the free-list -/

/-- C27, the code at a failing input: `list_clear` on the idle list
`[5, 3, 1]`, which has three elements, returns 0 and not 3. -/
theorem list_clear_returns_zero :
    (list_of [5, 3, 1]).iter_active = 0 ∧ (list_of [5, 3, 1]).numels = 3 ∧
    (list_clear 4 (list_of [5, 3, 1])).map (fun r => (r.1, r.2.numels)) = some (0, 0) := by
  decide

/-- The free-list with the exact quotient: in every reachable state the
free-list has at most `ACDLL_MAX_SPARE_ELEMS = 5` entries, they are pairwise
distinct, and none of them is an entry of the chain from the head sentinel to
the tail sentinel, the sentinels included. The reachable states are those
reached from `list_init` through `list_insert_at`, `list_delete_at`,
`list_clear` and the other functions of `acdll.h` that change a list. -/
theorem free_list_invariant (l : list_t α) (hr : Reachable l) :
    l.spareelsnum ≤ ACDLL_MAX_SPARE_ELEMS ∧ (list_spares l).length = l.spareelsnum ∧
    (list_spares l).Nodup ∧
    ∀ a ∈ list_spares l,
      a ∉ list_entries l ∧ a ≠ l.head_sentinel ∧ a ≠ l.tail_sentinel := by
  obtain ⟨body, hb⟩ := hr.inv
  have hnd := List.nodup_append.1 hb.nodup
  refine ⟨hb.spare_le, by simp [list_spares], hnd.1, ?_⟩
  intro a ha
  have hdis : ∀ b ∈ chain l body, a ≠ b := by
    intro b hbm e
    exact hnd.2.2 ha (e ▸ hbm)
  rw [list_entries_eq hb]
  refine ⟨?_, ?_, ?_⟩
  · intro hm
    exact hdis a (by simp [chain, hm]) rfl
  · exact hdis _ (by simp [chain])
  · exact hdis _ (by simp [chain])


/-! ## Reading a file -/

theorem unbe_be16 (v : Nat) : unbe (be16 v) = v % 65536 := by
  simp only [unbe, be16, List.foldl]
  omega

theorem unbe_be32 (v : Nat) : unbe (be32 v) = v % 4294967296 := by
  simp only [unbe, be32, List.foldl]
  omega

/-- A read of as many bytes as the block `a` that the file holds at the
offset: the block is received and the offset is after it. -/
theorem fd_read_append (fd : stream) (a rest : List Nat)
    (h : fd.bytes.drop fd.pos = a ++ rest) :
    fd_read fd a.length = (a, { bytes := fd.bytes, pos := fd.pos + a.length }) ∧
    fd.bytes.drop (fd.pos + a.length) = rest := by
  constructor
  · unfold fd_read
    simp only []
    rw [h, List.take_left' rfl]
  · rw [← List.drop_drop, h, List.drop_left' rfl]

/-- When the file holds, at the offset, a header of version 1 with a timestamp
of eight bytes, `list_restore_filedescriptor` is the content loops followed
by the final tests, run from the offset after the header with the values of
the header. -/
theorem list_restore_filedescriptor_header (p : platform) (box : List Nat → Option α)
    (elsize0 : List Nat) (oom : Nat → Bool) (l : list_t α) (fd : stream)
    (timestamp : List Nat) (rndterm totlistlen numels elemlen listhash : Nat)
    (rest : List Nat) (hts : timestamp.length = 8)
    (hfd : fd.bytes.drop fd.pos =
      header_bytes ACDLL_DUMPFORMAT_VERSION timestamp rndterm totlistlen numels elemlen
        listhash ++ rest) :
    list_restore_filedescriptor p box elsize0 oom l fd =
      list_restore_finish
        (list_restore_loops p box elsize0 oom l { bytes := fd.bytes, pos := fd.pos + 30 }
          (numels % 4294967296) (elemlen % 4294967296))
        (rndterm % 4294967296) (totlistlen % 4294967296) ∧
    fd.bytes.drop (fd.pos + 30) = rest := by
  have h16 : ∀ v, (be16 v).length = 2 := fun _ => rfl
  have h32 : ∀ v, (be32 v).length = 4 := fun _ => rfl
  unfold header_bytes at hfd
  simp only [List.append_assoc] at hfd
  obtain ⟨r1, d1⟩ := fd_read_append fd _ _ hfd
  obtain ⟨r2, d2⟩ := fd_read_append { bytes := fd.bytes, pos := fd.pos + 2 } _ _ d1
  rw [hts] at r2 d2
  obtain ⟨r3, d3⟩ := fd_read_append { bytes := fd.bytes, pos := fd.pos + 2 + 8 } _ _ d2
  obtain ⟨r4, d4⟩ := fd_read_append { bytes := fd.bytes, pos := fd.pos + 2 + 8 + 4 } _ _ d3
  obtain ⟨r5, d5⟩ :=
    fd_read_append { bytes := fd.bytes, pos := fd.pos + 2 + 8 + 4 + 4 } _ _ d4
  obtain ⟨r6, d6⟩ :=
    fd_read_append { bytes := fd.bytes, pos := fd.pos + 2 + 8 + 4 + 4 + 4 } _ _ d5
  obtain ⟨r7, d7⟩ :=
    fd_read_append { bytes := fd.bytes, pos := fd.pos + 2 + 8 + 4 + 4 + 4 + 4 } _ _ d6
  have e := list_restore_filedescriptor_parts p box elsize0 oom l fd _ _ _ _ _ _ _
    _ _ _ _ _ _ _ r1 r2 r3 r4 r5 r6 r7 (h16 _) hts (h32 _) (h32 _) (h32 _) (h32 _) (h32 _)
    (by rw [unbe_be16]; rfl)
  rw [unbe_be32, unbe_be32, unbe_be32, unbe_be32] at e
  exact ⟨e, d7⟩

/-! ## Appending on a well-formed list -/

/-- On a well-formed idle list `list_append` whose `malloc` does not fail
returns 1 and puts the element at the end; the list stays well formed and
idle and keeps its attributes. -/
theorem list_append_spec {l : list_t α} {body : List Nat} (h : Inv l body)
    (hidle : l.iter_active = 0) (e : Option α) :
    (list_append l e false).1 = 1 ∧
    (∃ body1, Inv (list_append l e false).2 body1) ∧
    list_elements (list_append l e false).2 = list_elements l ++ [e] ∧
    (list_append l e false).2.iter_active = 0 ∧
    (list_append l e false).2.attrs = l.attrs := by
  unfold list_append
  obtain ⟨lent, hl, h1, h2, h3, h4, h5⟩ :=
    list_insert_at_inv h hidle (le_refl l.numels) (Or.inl rfl) e
  refine ⟨h1, ⟨_, h2⟩, ?_, by rw [h4, hidle], h5⟩
  rw [list_elements_eq h2, list_elements_eq h, map_insert_data hl e h3 l.numels]
  have hlen : (body.map (fun p => (l.mem p).data)).length = l.numels := by
    rw [List.length_map, h.numels_eq]
  rw [List.take_of_length_le (by omega), List.drop_of_length_le (by omega), List.append_nil]

/-! ## Restoring blocks of constant size, verbatim -/

set_option maxRecDepth 1000000 in
/-- C22, the code at a failing input: `example_dump` is the dump of the list
of the one byte string `1 2 3 4`, and it restores to that list with the value
4. With its last four bytes, the end marker, changed from `18 52 86 120` to
`1 1 1 1`, so that they differ from the terminator of the header,
`list_restore_file` still returns 4 and appends the element: the marker is
only looked at when the length read differs from the total length of the
header. -/
theorem list_restore_wrong_terminator :
    (list_dump_file lp64_le bytes_peek 1700000000000000 305419896 4
      (list_of_bytes [[1, 2, 3, 4]]) none true) = some (4, some example_dump) ∧
    restore_example lp64_le example_dump = (4, [some [1, 2, 3, 4]]) ∧
    restore_example lp64_le (example_dump.take 34 ++ [1, 1, 1, 1]) =
      (4, [some [1, 2, 3, 4]]) := by
  decide

set_option maxRecDepth 1000000 in
/-- C23, the code at a failing input: in `example_dump` the total length of
the header, at the offsets 14 to 17, is changed from 4 to 5, so that it
differs from the 4 bytes of elements that are read. With the end marker equal
to the terminator of the header `list_restore_file` returns 0; with the end
marker changed to `1 1 1 1` it returns 4: the lengths are only compared when
the end marker equals the terminator. -/
theorem list_restore_wrong_length :
    restore_example lp64_le
      (example_dump.take 14 ++ [0, 0, 0, 5] ++ example_dump.drop 18) =
        (0, [some [1, 2, 3, 4]]) ∧
    restore_example lp64_le
      (example_dump.take 14 ++ [0, 0, 0, 5] ++ (example_dump.drop 18).take 16 ++
        [1, 1, 1, 1]) = (4, [some [1, 2, 3, 4]]) := by
  decide

set_option maxRecDepth 1000000 in
/-- C24, the code at failing inputs: `example_dump`, the dump of a list of one
element, has 38 bytes. Cut to its first 33 bytes, inside the element, it is
refused with 0 and nothing is appended. Cut to its first 34, 35, 36 or 37
bytes, that is before or inside the end marker, `list_restore_file` returns 4
as for the whole file and appends the element: the `read` of the end marker is
the only one whose result is not looked at. -/
theorem list_restore_truncated :
    example_dump.length = 38 ∧
    restore_example lp64_le (example_dump.take 33) = (0, []) ∧
    restore_example lp64_le (example_dump.take 34) = (4, [some [1, 2, 3, 4]]) ∧
    restore_example lp64_le (example_dump.take 35) = (4, [some [1, 2, 3, 4]]) ∧
    restore_example lp64_le (example_dump.take 36) = (4, [some [1, 2, 3, 4]]) ∧
    restore_example lp64_le (example_dump.take 37) = (4, [some [1, 2, 3, 4]]) := by
  decide

set_option maxRecDepth 1000000 in
/-- C30, the code at a failing input: after `restaurant_init` the restaurants
at 10, 20 and 30 are inserted and get the ids 0, 1 and 2. `restaurant_delete`
of the first one leaves the restaurants 20 and 30. Then `restaurant_delete` of
the restaurant 20, which is in the list, removes the restaurant 30 and leaves
the restaurant 20: the element at the position `id = 1` is deleted. And
`restaurant_delete` of the restaurant 30 removes nothing, its `id = 2` being
no position of the list. -/
theorem restaurant_delete_by_id :
    list_elements example_restaurants.list_restaurants = [some 10, some 20, some 30] ∧
    (example_restaurants.heap 10).id = 0 ∧ (example_restaurants.heap 20).id = 1 ∧
    (example_restaurants.heap 30).id = 2 ∧
    list_elements (restaurant_delete example_restaurants 10).list_restaurants =
      [some 20, some 30] ∧
    list_elements
      (restaurant_delete (restaurant_delete example_restaurants 10) 20).list_restaurants =
        [some 20] ∧
    list_elements
      (restaurant_delete (restaurant_delete example_restaurants 10) 30).list_restaurants =
        [some 20, some 30] := by
  decide

theorem free_list_invariant_witness :
    Reachable (run_ops example_ops) ∧
    ((run_ops example_ops).spareelsnum ≤ ACDLL_MAX_SPARE_ELEMS ∧
      (list_spares (run_ops example_ops)).length = (run_ops example_ops).spareelsnum ∧
      (list_spares (run_ops example_ops)).Nodup ∧
      ∀ a ∈ list_spares (run_ops example_ops),
        a ∉ list_entries (run_ops example_ops) ∧ a ≠ (run_ops example_ops).head_sentinel ∧
        a ≠ (run_ops example_ops).tail_sentinel) ∧
    (list_clear 8 (list_of [5, 3, 1, 4, 1, 5, 9])).map
      (fun r => (list_spares r.2, list_entries r.2)) = some ([3, 4, 5, 6, 7], []) ∧
    (list_clear 8 (list_of [5, 3, 1, 4, 1, 5, 9])).map
      (fun r => (list_spares (list_append r.2 (some 8) true).2,
        list_entries (list_append r.2 (some 8) true).2)) = some ([3, 4, 5, 6], [7]) :=
  ⟨run_ops_reachable _, free_list_invariant (run_ops example_ops) (run_ops_reachable _),
    by decide, by decide⟩


/-! ## The utilities -/

/-- C31, the code at failing inputs: `get_random` returns `rand() % max + min`,
a value of `min .. min + max - 1`, and `max` is not its upper limit. For
`min = 5`, `max = 6` and `rand() = 5` it returns 10; for the call
`get_random(12345678, 99999999)` of `main_menu.c` and `rand() = 99999998` it
returns 112345676; for `get_random(0, 6)` it never returns 6: the remainders
of the seven values `0..6` of `rand()` are `0..5` and 0. -/
theorem get_random_exceeds_max :
    get_random 5 5 6 = some 10 ∧
    get_random 99999998 12345678 99999999 = some 112345676 ∧
    (List.range 7).map (fun r => get_random r 0 6) =
      [some 0, some 1, some 2, some 3, some 4, some 5, some 0] := by
  decide

/-- C32, the code at a failing input: the entry 2 of `days_of_week` is `Thu`
and not `Tue`, so `day_of_week_text` gives the same text for the day numbers
2 and 4; the other six entries are the abbreviations of their days. -/
theorem day_of_week_text_tuesday :
    day_of_week_text 2 = some "Thu" ∧ day_of_week_text 4 = some "Thu" ∧
    day_of_week_text 2 = day_of_week_text 4 ∧
    (List.range 7).map (fun d => day_of_week_text d) =
      [some "Sun", some "Mon", some "Thu", some "Wed", some "Thu", some "Fri", some "Sat"] := by
  decide


/-! ## Positional lookup against the naive walk -/

/-- The function `list_findpos` makes the walk that `list_findpos_route`
describes. -/
theorem list_findpos_eq_route (l : list_t α) (posstart : Int) :
    list_findpos l posstart =
      match list_findpos_route l posstart with
      | none => 0
      | some (s, true, k) => walk_next l.mem k s
      | some (s, false, k) => walk_prev l.mem k s := by
  unfold list_findpos list_findpos_route
  split_ifs <;> rfl

/-- C33: positional lookup equals the naive walk. On a reachable list, for
every `posstart`, `list_findpos` returns what the walk of `posstart + 1`
steps from the head sentinel returns, and `NULL` out of the range
`-1..numels`; it is the head sentinel for -1, the tail sentinel for `numels`
(also when `numels` is 0), and the entry of index `k` for `k < numels`. The
walk from `mid_sentinel` goes toward the target: backward in the second
quarter, where `posstart` is not after the index `(numels - 1) / 2` of mid,
forward in the third, where it is not before it. -/
theorem list_findpos_refines (l : list_t α) (hr : Reachable l) (posstart : Int) :
    list_findpos l posstart = list_findpos_naive l posstart ∧
    (posstart < -1 ∨ posstart > (l.numels : Int) → list_findpos l posstart = 0) ∧
    (posstart = -1 → list_findpos l posstart = l.head_sentinel) ∧
    (posstart = (l.numels : Int) → list_findpos l posstart = l.tail_sentinel) ∧
    (∀ k : Nat, posstart = (k : Int) → k < l.numels →
      (list_entries l)[k]? = some (list_findpos l posstart)) ∧
    (ratio_le (posstart + 1) l.numels 1 4 = false →
      ratio_lt (posstart + 1) l.numels 1 2 = true →
      posstart ≤ (((l.numels - 1) / 2 : Nat) : Int)) ∧
    (ratio_lt (posstart + 1) l.numels 1 2 = false →
      ratio_le (posstart + 1) l.numels 3 4 = true →
      (((l.numels - 1) / 2 : Nat) : Int) ≤ posstart) := by
  obtain ⟨body, hb⟩ := hr.inv
  have hlen := chain_length l body
  have hn := hb.numels_eq
  have hquad : (ratio_le (posstart + 1) l.numels 1 4 = false →
      ratio_lt (posstart + 1) l.numels 1 2 = true →
      posstart ≤ (((l.numels - 1) / 2 : Nat) : Int)) ∧
    (ratio_lt (posstart + 1) l.numels 1 2 = false →
      ratio_le (posstart + 1) l.numels 3 4 = true →
      (((l.numels - 1) / 2 : Nat) : Int) ≤ posstart) := by
    simp only [ratio_le, ratio_lt, decide_eq_true_eq, decide_eq_false_iff_not]
    constructor
    · intro _ h2; omega
    · intro h1 h2; omega
  by_cases hrange : posstart < -1 ∨ posstart > (l.numels : Int)
  · have h0 : list_findpos l posstart = 0 := by
      unfold list_findpos; rw [if_pos hrange]
    refine ⟨?_, fun _ => h0, ?_, ?_, ?_, hquad⟩
    · rw [h0]; unfold list_findpos_naive; rw [if_pos hrange]
    · intro h; omega
    · intro h; omega
    · intro k hk hlt; omega
  · obtain ⟨j, hj⟩ : ∃ j : Nat, posstart = (j : Int) - 1 := ⟨(posstart + 1).toNat, by omega⟩
    have hjle : j ≤ l.numels + 1 := by omega
    have hs := list_findpos_spec hb j hjle
    rw [← hj] at hs
    have hw := walk_next_linked hb.linked j 0 _ (chain_zero l body) (by omega)
    rw [Nat.zero_add] at hw
    refine ⟨?_, fun h => absurd h hrange, ?_, ?_, ?_, hquad⟩
    · unfold list_findpos_naive
      rw [if_neg hrange, show (posstart + 1).toNat = j by omega]
      exact Option.some.inj (hs.symm.trans hw)
    · intro h
      have : j = 0 := by omega
      subst this
      exact Option.some.inj (hs.symm.trans (chain_zero l body))
    · intro h
      have : j = body.length + 1 := by omega
      subst this
      exact Option.some.inj (hs.symm.trans (chain_last l body))
    · intro k hk hlt
      have : j = k + 1 := by omega
      subst this
      obtain ⟨a, ha⟩ := exists_getElem?_of_lt (show k < body.length by omega)
      rw [list_entries_eq hb, ha]
      exact (chain_succ l body ha).symm.trans hs

/-- C34: on a list of at least one element, for every `posstart` in
`-1..numels`, `list_findpos` follows at most `numels / 4 + 1` links: it makes
the walk of `list_findpos_route`, whose number of steps has this bound. -/
theorem list_findpos_steps_bound (l : list_t α) (posstart : Int) (hn : 1 ≤ l.numels)
    (h1 : -1 ≤ posstart) (h2 : posstart ≤ (l.numels : Int)) :
    ∃ s fwd k, list_findpos_route l posstart = some (s, fwd, k) ∧
      list_findpos l posstart =
        (if fwd = true then walk_next l.mem k s else walk_prev l.mem k s) ∧
      k ≤ l.numels / 4 + 1 := by
  rw [list_findpos_eq_route]
  unfold list_findpos_route
  rw [if_neg (by omega)]
  simp only [ratio_le, ratio_lt, decide_eq_true_eq]
  split_ifs with c1 c2 c3
  · exact ⟨_, _, _, rfl, rfl, by omega⟩
  · exact ⟨_, _, _, rfl, rfl, by omega⟩
  · exact ⟨_, _, _, rfl, rfl, by omega⟩
  · exact ⟨_, _, _, rfl, rfl, by omega⟩


/-! ## More fuel does not change the result of the sort -/

/-- The tests of the sort for a comparator and a direction are those for the
negated comparator and the opposite direction. -/
theorem OrdOK.of_negated {cmp : Option α → Option α → Int} {versus : Int}
    (h : OrdOK (fun a b => -cmp a b) (-versus)) : OrdOK cmp versus := by
  obtain ⟨h1, h2⟩ := h
  have e : ∀ a b, -cmp a b * -(-versus) = cmp a b * -versus := by
    intro a b; ring
  simp only [e] at h1 h2
  exact ⟨h1, h2⟩

/-- With a comparator of the usual convention (its negation follows the
convention of `acdll.h`), `list_sort` returns 0 and leaves the elements in the
order of the tests of the direction. -/
theorem list_sort_usual (l : list_t α) (hr : Reachable l) (cmp : Option α → Option α → Int)
    (hcmp : l.attrs.comparator = some cmp) (hu : IsComparator (fun a b => -cmp a b))
    (hidle : l.iter_active = 0) (fuel : Nat) (hfuel : l.numels + 2 ≤ fuel) (rnd : Nat → Nat)
    (versus : Int) :
    ∃ l1 rnd1, list_sort fuel rnd l versus = some (0, l1, rnd1) ∧
      (list_elements l1).Pairwise (fun a b => cmp a b * -versus ≤ 0) ∧
      (list_elements l1).Perm (list_elements l) ∧ Reachable l1 := by
  obtain ⟨body, hb⟩ := hr.inv
  have hn := hb.numels_eq
  obtain ⟨mem1, rnd1, h1, h2, h3, h4, -⟩ := list_sort_spec hb hcmp hidle hfuel rnd versus
  refine ⟨_, rnd1, h1, ?_, ?_, Reachable.sort l fuel rnd versus 0 _ rnd1 hr hfuel h1⟩
  · rw [list_elements_eq (hb.of_dataFrame h2)]
    have hs := h4 (OrdOK.of_negated (hu.ordOK (-versus)))
    rw [hn] at hs
    exact pairwise_of_sortedOn cmp versus mem1 l body hs
  · rw [list_elements_eq (hb.of_dataFrame h2), list_elements_eq hb]
    rw [hn] at h3
    exact perm_of_permOn l.mem mem1 l body h3

/-- The comparator `fn_comparator_restaurant_distance` is of the usual
convention when no distance is NaN. -/
theorem fn_comparator_restaurant_distance_usual {D : Type} [LinearOrder D]
    (dist : restaurant_s → D) (heap : Nat → restaurant_s) :
    IsComparator
      (fun a b => -fn_comparator_restaurant_distance (fun x => some (dist x)) heap a b) := by
  refine ⟨?_, ?_⟩
  · intro a b
    simp only [fn_comparator_restaurant_distance, double_lt, decide_eq_true_eq]
    rcases lt_trichotomy (dist (heap (a.getD 0))) (dist (heap (b.getD 0))) with h | h | h
    · simp [h, not_lt_of_gt h]
    · simp [h]
    · simp [h, not_lt_of_gt h]
  · intro a b c
    simp only [fn_comparator_restaurant_distance, double_lt, decide_eq_true_eq]
    intro h1 h2
    have e1 : dist (heap (a.getD 0)) ≤ dist (heap (b.getD 0)) := by
      by_contra hc
      rw [not_le] at hc
      simp [hc, not_lt_of_gt hc] at h1
    have e2 : dist (heap (b.getD 0)) ≤ dist (heap (c.getD 0)) := by
      by_contra hc
      rw [not_le] at hc
      simp [hc, not_lt_of_gt hc] at h2
    have e3 := le_trans e1 e2
    rw [if_neg (not_lt_of_ge e3)]
    split_ifs <;> simp

/-- The sense of the direction with a comparator of the usual convention. On
a reachable list with no iteration active whose comparator `cmp` returns a
negative number when its first argument is the smaller one, 0 when they are
equivalent and a positive number when it is the larger one (its negation
follows the convention of `acdll.h`), `list_sort` with direction -1 returns 0
and leaves a non-decreasing sequence (`cmp a b ≤ 0` for `a` before `b`), and
with direction +1 a non-increasing one. The comparator
`fn_comparator_restaurant_distance` is such a comparator when no distance is
NaN, and `restaurant_list_sort` then leaves the restaurants from the nearest
to the farthest: the list is a rearrangement of the old one in which no
restaurant is farther than a later one. -/
theorem list_sort_direction_sense :
    (∀ (l : list_t α), Reachable l → ∀ (cmp : Option α → Option α → Int),
      l.attrs.comparator = some cmp → IsComparator (fun a b => -cmp a b) →
      l.iter_active = 0 → ∀ (fuel : Nat), l.numels + 2 ≤ fuel → ∀ (rnd : Nat → Nat),
      (∃ l1 rnd1, list_sort fuel rnd l (-1) = some (0, l1, rnd1) ∧
        (list_elements l1).Pairwise (fun a b => cmp a b ≤ 0)) ∧
      (∃ l1 rnd1, list_sort fuel rnd l 1 = some (0, l1, rnd1) ∧
        (list_elements l1).Pairwise (fun a b => 0 ≤ cmp a b))) ∧
    (∀ (D : Type) [LinearOrder D] (dist : restaurant_s → D) (g : restaurant_globals),
      Reachable g.list_restaurants → g.list_restaurants.iter_active = 0 →
      ∀ (fuel : Nat), g.list_restaurants.numels + 2 ≤ fuel → ∀ (rnd : Nat → Nat),
      ∃ g1 rnd1, restaurant_list_sort (fun x => some (dist x)) fuel rnd g = some (g1, rnd1) ∧
        g1.heap = g.heap ∧ g1.restaurant_index = g.restaurant_index ∧
        (list_elements g1.list_restaurants).Perm (list_elements g.list_restaurants) ∧
        (list_elements g1.list_restaurants).Pairwise
          (fun a b => dist (g.heap (a.getD 0)) ≤ dist (g.heap (b.getD 0)))) := by
  constructor
  · intro l hr cmp hcmp hu hidle fuel hfuel rnd
    constructor
    · obtain ⟨l1, rnd1, h1, h2, -, -⟩ :=
        list_sort_usual l hr cmp hcmp hu hidle fuel hfuel rnd (-1)
      refine ⟨l1, rnd1, h1, h2.imp ?_⟩
      intro a b hab
      omega
    · obtain ⟨l1, rnd1, h1, h2, -, -⟩ :=
        list_sort_usual l hr cmp hcmp hu hidle fuel hfuel rnd 1
      refine ⟨l1, rnd1, h1, h2.imp ?_⟩
      intro a b hab
      omega
  · intro D _ dist g hr hidle fuel hfuel rnd
    obtain ⟨l1, rnd1, h1, h2, h3, -⟩ :=
      list_sort_usual _ (Reachable.attributes_comparator g.list_restaurants
          (some (fn_comparator_restaurant_distance (fun x => some (dist x)) g.heap)) hr)
        (fn_comparator_restaurant_distance (fun x => some (dist x)) g.heap) rfl
        (fn_comparator_restaurant_distance_usual dist g.heap) hidle fuel hfuel rnd (-1)
    refine ⟨{ g with list_restaurants := l1 }, rnd1, ?_, rfl, rfl, h3, h2.imp ?_⟩
    · unfold restaurant_list_sort
      simp only []
      rw [h1]
    · intro a b hab
      simp only [fn_comparator_restaurant_distance, double_lt, decide_eq_true_eq] at hab
      by_contra hc
      rw [not_le] at hc
      simp [hc, not_lt_of_gt hc] at hab


/-! ## The payload of the pivot during the partition -/

/-- The loop `while (left != pivot && right != pivot)` does not write the
payload of the pivot. -/
theorem quicksort_partition_pivot (cmp : Option α → Option α → Int) (versus : Int)
    (pivot : Nat) :
    ∀ (fuel : Nat) (mem : Nat → list_entry_s α) (left right : Nat)
      (r : (Nat → list_entry_s α) × Nat × Nat),
      quicksort_partition cmp versus pivot fuel mem left right = some r →
      (r.1 pivot).data = (mem pivot).data := by
  intro fuel
  induction fuel with
  | zero => intro mem left right r h; simp [quicksort_partition] at h
  | succ f ih =>
    intro mem left right r h
    rw [quicksort_partition] at h
    by_cases c : left ≠ pivot ∧ right ≠ pivot
    · rw [if_pos c] at h
      cases hl : quicksort_scan_left cmp versus mem pivot f left with
      | none => rw [hl] at h; simp at h
      | some left1 =>
        rw [hl] at h
        simp only [] at h
        cases hr : quicksort_scan_right cmp versus mem pivot f right with
        | none => rw [hr] at h; simp at h
        | some right1 =>
          rw [hr] at h
          simp only [] at h
          by_cases c1 : left1 ≠ pivot ∧ right1 ≠ pivot
          · rw [if_pos c1] at h
            rw [ih _ _ _ _ h]
            simp [Ne.symm c1.1, Ne.symm c1.2]
          · rw [if_neg c1] at h
            exact ih _ _ _ _ h
    · rw [if_neg c] at h
      cases h
      rfl

/-- The loop that ends the partition when the left part is the longer one
moves the payload of the pivot with the pivot. -/
theorem quicksort_finish_left_pivot (cmp : Option α → Option α → Int) (versus : Int)
    {ns : List Nat} (hnd : ns.Nodup) :
    ∀ (fuel : Nat) (mem : Nat → list_entry_s α) (a p left pivot pivotid : Nat)
      (r : (Nat → list_entry_s α) × Nat × Nat),
      Linked mem ns → ns[a]? = some left → ns[p]? = some pivot → a ≤ p →
      quicksort_finish_left cmp versus fuel mem left pivot pivotid = some r →
      (r.1 r.2.1).data = (mem pivot).data := by
  intro fuel
  induction fuel with
  | zero => intro mem a p left pivot pivotid r _ _ _ _ h; simp [quicksort_finish_left] at h
  | succ f ih =>
    intro mem a p left pivot pivotid r hl hleft hp hap h
    have hplen := lt_length_of_getElem? hp
    rw [quicksort_finish_left] at h
    by_cases hne : left ≠ pivot
    · rw [if_pos hne] at h
      have hap' : a < p := by
        rcases Nat.lt_or_ge a p with h | h
        · exact h
        · have : a = p := by omega
          subst this
          exact absurd (Option.some.inj (hleft.symm.trans hp)) hne
      by_cases hs : cmp (mem left).data (mem pivot).data * -versus > 0
      · rw [if_pos hs] at h
        obtain ⟨q, hq⟩ := exists_getElem?_of_lt (show p - 1 < ns.length by omega)
        have hp' : ns[p - 1 + 1]? = some pivot := by
          rw [show p - 1 + 1 = p by omega]; exact hp
        have hpq : (mem pivot).prev = q := (hl (p - 1) q pivot hq hp').2
        have hqp : q ≠ pivot := ne_of_index_ne hnd hq hp (by omega)
        simp only [set_data_prev, set_data_data, hpq, if_neg (Ne.symm hne)] at h
        generalize hm3 : set_data (set_data (set_data mem left (mem q).data) q
          (mem pivot).data) pivot (mem left).data = mem3 at h
        have hfr3 : DataFrame ns 0 ns.length mem mem3 := by
          rw [← hm3]
          exact ((DataFrame.of_set_data mem hleft (by omega) (by omega) _).trans_frame
            (DataFrame.of_set_data _ hq (by omega) (by omega) _)).trans_frame
            (DataFrame.of_set_data _ hp (by omega) (by omega) _)
        have hq3 : (mem3 q).data = (mem pivot).data := by
          rw [← hm3]; simp [hqp]
        by_cases hbr : q = left
        · rw [if_pos hbr] at h
          cases h
          exact hq3
        · rw [if_neg hbr] at h
          rw [ih mem3 a (p - 1) left q (pivotid - 1) r (hfr3.linked hl) hleft hq (by omega) h]
          exact hq3
      · rw [if_neg hs] at h
        obtain ⟨c1, hc1⟩ := exists_getElem?_of_lt (show a + 1 < ns.length by omega)
        have hn : (mem left).next = c1 := (hl a left c1 hleft hc1).1
        rw [hn] at h
        exact ih mem (a + 1) p c1 pivot pivotid r hl hc1 hp (by omega) h
    · rw [if_neg hne] at h
      cases h
      rfl

/-- The loop that ends the partition when the right part is the longer one
moves the payload of the pivot with the pivot. -/
theorem quicksort_finish_right_pivot (cmp : Option α → Option α → Int) (versus : Int)
    {ns : List Nat} (hnd : ns.Nodup) :
    ∀ (fuel : Nat) (mem : Nat → list_entry_s α) (b p right pivot pivotid : Nat)
      (r : (Nat → list_entry_s α) × Nat × Nat),
      Linked mem ns → ns[b]? = some right → ns[p]? = some pivot → p ≤ b →
      quicksort_finish_right cmp versus fuel mem right pivot pivotid = some r →
      (r.1 r.2.1).data = (mem pivot).data := by
  intro fuel
  induction fuel with
  | zero => intro mem b p right pivot pivotid r _ _ _ _ h; simp [quicksort_finish_right] at h
  | succ f ih =>
    intro mem b p right pivot pivotid r hl hright hp hpb h
    have hblen := lt_length_of_getElem? hright
    rw [quicksort_finish_right] at h
    by_cases hne : right ≠ pivot
    · rw [if_pos hne] at h
      have hpb' : p < b := by
        rcases Nat.lt_or_ge p b with h | h
        · exact h
        · have : b = p := by omega
          subst this
          exact absurd (Option.some.inj (hright.symm.trans hp)) hne
      by_cases hs : cmp (mem right).data (mem pivot).data * -versus < 0
      · rw [if_pos hs] at h
        obtain ⟨q, hq⟩ := exists_getElem?_of_lt (show p + 1 < ns.length by omega)
        have hpq : (mem pivot).next = q := (hl p pivot q hp hq).1
        have hqp : q ≠ pivot := ne_of_index_ne hnd hq hp (by omega)
        simp only [set_data_next, set_data_data, hpq, if_neg (Ne.symm hne)] at h
        generalize hm3 : set_data (set_data (set_data mem right (mem q).data) q
          (mem pivot).data) pivot (mem right).data = mem3 at h
        have hfr3 : DataFrame ns 0 ns.length mem mem3 := by
          rw [← hm3]
          exact ((DataFrame.of_set_data mem hright (by omega) (by omega) _).trans_frame
            (DataFrame.of_set_data _ hq (by omega) (by omega) _)).trans_frame
            (DataFrame.of_set_data _ hp (by omega) (by omega) _)
        have hq3 : (mem3 q).data = (mem pivot).data := by
          rw [← hm3]; simp [hqp]
        by_cases hbr : q = right
        · rw [if_pos hbr] at h
          cases h
          exact hq3
        · rw [if_neg hbr] at h
          rw [ih mem3 b (p + 1) right q (pivotid + 1) r (hfr3.linked hl) hright hq (by omega) h]
          exact hq3
      · rw [if_neg hs] at h
        obtain ⟨c1, hc1⟩ := exists_getElem?_of_lt (show b - 1 < ns.length by omega)
        have hright' : ns[b - 1 + 1]? = some right := by
          rw [show b - 1 + 1 = b by omega]; exact hright
        have hn : (mem right).prev = c1 := (hl (b - 1) c1 right hc1 hright').2
        rw [hn] at h
        exact ih mem (b - 1) p c1 pivot pivotid r hl hc1 hp (by omega) h
    · rw [if_neg hne] at h
      cases h
      rfl

/-! ## The partition step on a chain -/

/-- The step `quicksort_place` on the positions `lo..hi` of a linked chain,
with fuel `hi - lo + 2` at least and any comparator: it returns; the pivot is
then at a position `p2` of `lo..hi` and holds the payload it held when it was
chosen, `pivotid` is `p2 - lo`, no entry of `lo..p2-1` is after the pivot in
the order of the tests and no entry of `p2+1..hi` is before it; payloads of
`lo..hi` only are rearranged. -/
theorem quicksort_place_chain (cmp : Option α → Option α → Int) (versus : Int)
    {ns : List Nat} (hnd : ns.Nodup) (fuel : Nat) (mem : Nat → list_entry_s α)
    (first fel last lel lo hi pivotid : Nat) (hf : hi - lo + 2 ≤ fuel) (hlohi : lo ≤ hi)
    (hhi : hi + 1 < ns.length) (hidx : lo + last = hi + first) (hl : Linked mem ns)
    (hfel : ns[lo]? = some fel) (hlel : ns[hi]? = some lel) (hpid : pivotid ≤ last - first) :
    ∃ mem2 p2 pivot2,
      quicksort_place cmp versus fuel mem first fel last lel pivotid =
        some (mem2, pivot2, p2 - lo) ∧
      ns[p2]? = some pivot2 ∧ lo ≤ p2 ∧ p2 ≤ hi ∧ DataFrame ns lo hi mem mem2 ∧
      PermOn lo hi (dat mem ns) (dat mem2 ns) ∧
      (∀ k, lo ≤ k → k < p2 → cmp (dat mem2 ns k) (dat mem2 ns p2) * -versus ≤ 0) ∧
      (∀ k, p2 < k → k ≤ hi → cmp (dat mem2 ns k) (dat mem2 ns p2) * -versus ≥ 0) ∧
      dat mem2 ns p2 = dat mem ns (lo + pivotid) := by
  unfold quicksort_place
  simp only []
  have hp : ns[lo + pivotid]? = some (if pivotid < (last - first + 1) / 2 then
      walk_next mem pivotid fel else walk_prev mem (last - first - pivotid) lel) := by
    split_ifs
    · exact walk_next_linked hl pivotid lo fel hfel (by omega)
    · have := walk_prev_linked hl (last - first - pivotid) hi lel hlel (by omega)
      rw [← this]; congr 1; omega
  generalize (if pivotid < (last - first + 1) / 2 then
      walk_next mem pivotid fel else walk_prev mem (last - first - pivotid) lel) = pivot
    at hp ⊢
  obtain ⟨mem1, a1, b1, left1, right1, hr, k1, k2, k3, k4, k5, k6, k7, k8, k9, k10, k11, -⟩ :=
    quicksort_partition_spec cmp versus hnd lo hi hp fuel mem lo hi
      fel lel (by omega) (le_refl _) (by omega) (by omega) (le_refl _) hl hfel hlel
      (fun k h1 h2 => by omega) (fun k h1 h2 => by omega)
  have hpv1 : (mem1 pivot).data = (mem pivot).data :=
    quicksort_partition_pivot cmp versus pivot fuel mem fel lel _ hr
  rw [hr]
  simp only []
  have hl1 : Linked mem1 ns := k8.linked hl
  have hdp : dat mem ns (lo + pivotid) = (mem pivot).data := dat_of_getElem? mem hp
  by_cases cr : right1 = pivot
  · rw [if_pos cr]
    have hb1 : b1 = lo + pivotid := nodup_index_eq hnd k2 (cr ▸ hp)
    obtain ⟨mem2, p2, pivot2, g1, g2, g3, g4, g5, g6, g7, g8, -⟩ :=
      quicksort_finish_left_spec cmp versus hnd lo hi (by omega) fuel mem1
        a1 (lo + pivotid) left1 pivot pivotid (by omega) k3 k4 (by omega) hl1 k1 hp rfl
        k10 (fun k h1 h2 => k11 k (by omega) h2)
    have hpv2 := quicksort_finish_left_pivot cmp versus hnd fuel mem1 a1 (lo + pivotid) left1
      pivot pivotid _ hl1 k1 hp k4 g1
    refine ⟨mem2, p2, pivot2, g1, g2, g3, by omega, k8.trans_frame g5, k9.trans_range g6,
      g7, g8, ?_⟩
    rw [dat_of_getElem? mem2 g2, hdp, ← hpv1]
    exact hpv2
  · rw [if_neg cr]
    have ha1 : a1 = lo + pivotid := by
      rcases k7 with h | h
      · exact h
      · exfalso
        apply cr
        rw [h] at k2
        exact Option.some.inj (k2.symm.trans hp)
    obtain ⟨mem2, p2, pivot2, g1, g2, g3, g4, g5, g6, g7, g8, -⟩ :=
      quicksort_finish_right_spec cmp versus hnd lo hi (by omega) fuel mem1
        b1 (lo + pivotid) right1 pivot pivotid (by omega) (by omega) k5 k6 hl1 k2 hp rfl
        (fun k h1 h2 => k10 k h1 (by omega)) k11
    have hpv2 := quicksort_finish_right_pivot cmp versus hnd fuel mem1 b1 (lo + pivotid) right1
      pivot pivotid _ hl1 k2 hp k5 g1
    refine ⟨mem2, p2, pivot2, g1, g2, by omega, g4, k8.trans_frame g5, k9.trans_range g6,
      g7, g8, ?_⟩
    rw [dat_of_getElem? mem2 g2, hdp, ← hpv1]
    exact hpv2

/-- The element of index `k` of a well-formed list is the payload at the
position `k + 1` of its chain. -/
theorem list_elements_getElem? {l : list_t α} {body : List Nat} (h : Inv l body) (k : Nat)
    (hk : k < l.numels) :
    (list_elements l)[k]? = some (dat l.mem (chain l body) (k + 1)) := by
  obtain ⟨a, ha⟩ := exists_getElem?_of_lt (show k < body.length by rw [← h.numels_eq]; exact hk)
  rw [list_elements_eq h, List.getElem?_map, ha, dat_of_getElem? l.mem (chain_succ l body ha)]
  rfl

/-- C35: the partition postcondition of the quicksort. On a well-formed list
(any state met while a reachable list is sorted), for the partition of the
entries of index `first..last`, whose first and last entries are `fel` and
`lel`, every comparator, every direction and every pivot index
`pivotid ≤ last - first`, the step of `list_sort_quicksort` between the choice
of the pivot and the recursive calls returns (fuel `last - first + 2` is
enough). Afterwards the pivot entry is `pivotid2` links after `fel`, inside
the partition, and its payload is the payload chosen as the pivot; for every
element `x` before it in the partition the test `cmp x pivot * -versus <= 0`
holds, for every element after it the test `>= 0`; the list keeps its
entries and stays well formed, its elements are rearranged, and those out of
the partition keep their places. -/
theorem quicksort_partition_postcondition (l : list_t α) (hw : ∃ body, Inv l body)
    (cmp : Option α → Option α → Int) (versus : Int) (first fel last lel pivotid fuel : Nat)
    (hfl : first ≤ last) (hlast : last < l.numels)
    (hfel : (list_entries l)[first]? = some fel) (hlel : (list_entries l)[last]? = some lel)
    (hpid : pivotid ≤ last - first) (hfuel : last - first + 2 ≤ fuel) :
    ∃ mem2 pivot2 pivotid2,
      quicksort_place cmp versus fuel l.mem first fel last lel pivotid =
        some (mem2, pivot2, pivotid2) ∧
      pivotid2 ≤ last - first ∧
      walk_next mem2 pivotid2 fel = pivot2 ∧
      (list_entries l)[first + pivotid2]? = some pivot2 ∧
      (list_elements l)[first + pivotid]? = some (mem2 pivot2).data ∧
      (list_elements { l with mem := mem2 })[first + pivotid2]? = some (mem2 pivot2).data ∧
      (∀ (k : Nat) (x : Option α), first ≤ k → k < first + pivotid2 →
        (list_elements { l with mem := mem2 })[k]? = some x →
        cmp x (mem2 pivot2).data * -versus ≤ 0) ∧
      (∀ (k : Nat) (x : Option α), first + pivotid2 < k → k ≤ last →
        (list_elements { l with mem := mem2 })[k]? = some x →
        cmp x (mem2 pivot2).data * -versus ≥ 0) ∧
      (∀ k : Nat, k < first ∨ last < k →
        (list_elements { l with mem := mem2 })[k]? = (list_elements l)[k]?) ∧
      (list_elements { l with mem := mem2 }).Perm (list_elements l) ∧
      list_entries { l with mem := mem2 } = list_entries l ∧
      (∃ body, Inv { l with mem := mem2 } body) := by
  obtain ⟨body, hb⟩ := hw
  have hn := hb.numels_eq
  have hlen := chain_length l body
  have hndc : (chain l body).Nodup := (List.nodup_append.1 hb.nodup).2.1
  rw [list_entries_eq hb] at hfel hlel
  obtain ⟨mem2, p2, pivot2, g1, g2, g3, g4, g5, g6, g7, g8, g9⟩ :=
    quicksort_place_chain cmp versus hndc fuel l.mem first fel last lel (first + 1) (last + 1)
      pivotid (by omega) (by omega) (by omega) (by omega) hb.linked (chain_succ l body hfel)
      (chain_succ l body hlel) hpid
  have hfr : DataFrame (chain l body) 1 l.numels l.mem mem2 :=
    g5.mono_frame (by omega) (by omega)
  have hb2 : Inv { l with mem := mem2 } body := hb.of_dataFrame hfr
  have hdp2 : dat mem2 (chain l body) p2 = (mem2 pivot2).data := dat_of_getElem? mem2 g2
  have hel2 : ∀ k, k < l.numels →
      (list_elements { l with mem := mem2 })[k]? = some (dat mem2 (chain l body) (k + 1)) :=
    fun k hk => list_elements_getElem? hb2 k hk
  have hp2 : first + 1 + (p2 - (first + 1)) = p2 := by omega
  refine ⟨mem2, pivot2, p2 - (first + 1), g1, by omega, ?_, ?_, ?_, ?_, ?_, ?_, ?_, ?_, ?_,
    ⟨body, hb2⟩⟩
  · have := walk_next_linked (g5.linked hb.linked) (p2 - (first + 1)) (first + 1) fel
      (chain_succ l body hfel) (by omega)
    rw [hp2] at this
    exact Option.some.inj (this.symm.trans g2)
  · rw [list_entries_eq hb]
    obtain ⟨a, ha⟩ := exists_getElem?_of_lt
      (show first + (p2 - (first + 1)) < body.length by omega)
    have hc := chain_succ l body ha
    rw [show first + (p2 - (first + 1)) + 1 = p2 by omega] at hc
    rw [ha]
    exact hc.symm.trans g2
  · rw [list_elements_getElem? hb (first + pivotid) (by omega),
      show first + pivotid + 1 = first + 1 + pivotid by omega, ← g9, hdp2]
  · rw [hel2 (first + (p2 - (first + 1))) (by omega),
      show first + (p2 - (first + 1)) + 1 = p2 by omega, hdp2]
  · intro k x h1 h2 hx
    rw [hel2 k (by omega)] at hx
    have := g7 (k + 1) (by omega) (by omega)
    rw [hdp2, Option.some.inj hx] at this
    exact this
  · intro k x h1 h2 hx
    rw [hel2 k (by omega)] at hx
    have := g8 (k + 1) (by omega) (by omega)
    rw [hdp2, Option.some.inj hx] at this
    exact this
  · intro k hk
    by_cases hkn : k < l.numels
    · rw [hel2 k hkn, list_elements_getElem? hb k hkn]
      congr 1
      exact g6.eq_outside (by omega)
    · rw [List.getElem?_eq_none, List.getElem?_eq_none]
      · rw [list_elements_eq hb, List.length_map]; omega
      · rw [list_elements_eq hb2, List.length_map]; omega
  · rw [list_elements_eq hb2, list_elements_eq hb]
    have hperm : PermOn 1 body.length (dat l.mem (chain l body)) (dat mem2 (chain l body)) :=
      g6.mono_range (by omega) (by omega)
    exact perm_of_permOn l.mem mem2 l body hperm
  · rw [list_entries_eq hb2, list_entries_eq hb]


/-! ## Restoring a whole dump of blocks of constant size -/

theorem flatten_length_const (blocks : List (List Nat)) (L : Nat)
    (hb : ∀ b ∈ blocks, b.length = L) : blocks.flatten.length = blocks.length * L := by
  induction blocks with
  | nil => simp
  | cons b bs ih =>
    rw [List.flatten_cons, List.length_append, hb b (List.mem_cons_self _ _),
      ih (fun x hx => hb x (List.mem_cons_of_mem _ hx)), List.length_cons]
    ring

/-- The loop of `list_restore_filedescriptor` for blocks of constant size
copied verbatim, on a file that holds all the blocks asked for: the loop does
not leave the function, and the offset is after the blocks, whatever the calls
of `list_append` do. -/
theorem restore_fixed_verbatim_fd (box : List Nat → Option α) (oom : Nat → Bool)
    (elemlen : Nat) :
    ∀ (blocks : List (List Nat)) (rest : List Nat) (cnt : Nat) (st : restore_state α),
      (∀ b ∈ blocks, b.length = elemlen) →
      st.fd.bytes.drop st.fd.pos = blocks.flatten ++ rest →
      (restore_fixed_verbatim box oom elemlen blocks.length cnt st).failed = st.failed ∧
      (restore_fixed_verbatim box oom elemlen blocks.length cnt st).fd =
        { bytes := st.fd.bytes, pos := st.fd.pos + blocks.length * elemlen } := by
  intro blocks
  induction blocks with
  | nil =>
    intro rest cnt st _ _
    simp [restore_fixed_verbatim]
  | cons b bs ih =>
    intro rest cnt st hb hfd
    have hbl : b.length = elemlen := hb b (List.mem_cons_self _ _)
    rw [List.flatten_cons, List.append_assoc] at hfd
    obtain ⟨r1, d1⟩ := fd_read_append st.fd _ _ hfd
    rw [hbl] at r1 d1
    rw [List.length_cons]
    unfold restore_fixed_verbatim
    simp only []
    rw [r1]
    simp only []
    rw [if_neg (by simp [hbl])]
    have := ih rest (cnt + 1)
      { st with l := (list_append st.l (box b) (oom cnt)).2,
                fd := { bytes := st.fd.bytes, pos := st.fd.pos + elemlen } }
      (fun x hx => hb x (List.mem_cons_of_mem _ hx)) d1
    refine ⟨this.1, ?_⟩
    rw [this.2]
    simp only []
    congr 1
    ring

/-- The same loop on a list with no iteration active, when no `malloc` fails:
the blocks are appended in the order of the file. -/
theorem restore_fixed_verbatim_idle (box : List Nat → Option α) (oom : Nat → Bool)
    (hoom : ∀ c, oom c = false) (elemlen : Nat) :
    ∀ (blocks : List (List Nat)) (rest : List Nat) (cnt : Nat) (st : restore_state α)
      (body : List Nat),
      (∀ b ∈ blocks, b.length = elemlen) →
      st.fd.bytes.drop st.fd.pos = blocks.flatten ++ rest →
      Inv st.l body → st.l.iter_active = 0 →
      list_elements (restore_fixed_verbatim box oom elemlen blocks.length cnt st).l =
        list_elements st.l ++ blocks.map box := by
  intro blocks
  induction blocks with
  | nil =>
    intro rest cnt st body _ _ _ _
    simp [restore_fixed_verbatim]
  | cons b bs ih =>
    intro rest cnt st body hb hfd hinv hidle
    have hbl : b.length = elemlen := hb b (List.mem_cons_self _ _)
    rw [List.flatten_cons, List.append_assoc] at hfd
    obtain ⟨r1, d1⟩ := fd_read_append st.fd _ _ hfd
    rw [hbl] at r1 d1
    obtain ⟨-, ⟨body1, hinv1⟩, hel, hidle1, -⟩ := list_append_spec hinv hidle (box b)
    rw [List.length_cons]
    unfold restore_fixed_verbatim
    simp only []
    rw [r1]
    simp only []
    rw [if_neg (by simp [hbl]), hoom cnt]
    have := ih rest (cnt + 1)
      { st with l := (list_append st.l (box b) false).2,
                fd := { bytes := st.fd.bytes, pos := st.fd.pos + elemlen } } body1
      (fun x hx => hb x (List.mem_cons_of_mem _ hx)) d1 hinv1 hidle1
    rw [this]
    simp only []
    rw [hel, List.map_cons, List.append_assoc]
    rfl

/-- The same loop on a list with an iteration active: every `list_append`
fails and the list is as before. -/
theorem restore_fixed_verbatim_busy (box : List Nat → Option α) (oom : Nat → Bool)
    (elemlen : Nat) :
    ∀ (blocks : List (List Nat)) (rest : List Nat) (cnt : Nat) (st : restore_state α),
      (∀ b ∈ blocks, b.length = elemlen) →
      st.fd.bytes.drop st.fd.pos = blocks.flatten ++ rest →
      st.l.iter_active ≠ 0 →
      (restore_fixed_verbatim box oom elemlen blocks.length cnt st).l = st.l := by
  intro blocks
  induction blocks with
  | nil =>
    intro rest cnt st _ _ _
    simp [restore_fixed_verbatim]
  | cons b bs ih =>
    intro rest cnt st hb hfd hbusy
    have hbl : b.length = elemlen := hb b (List.mem_cons_self _ _)
    rw [List.flatten_cons, List.append_assoc] at hfd
    obtain ⟨r1, d1⟩ := fd_read_append st.fd _ _ hfd
    rw [hbl] at r1 d1
    have happ : list_append st.l (box b) (oom cnt) = (-1, st.l) := by
      unfold list_append
      exact list_insert_at_guard st.l (box b) st.l.numels (oom cnt) (Or.inl hbusy)
    rw [List.length_cons]
    unfold restore_fixed_verbatim
    simp only []
    rw [r1]
    simp only []
    rw [if_neg (by simp [hbl]), happ]
    exact ih rest (cnt + 1)
      { st with l := st.l, fd := { bytes := st.fd.bytes, pos := st.fd.pos + elemlen } }
      (fun x hx => hb x (List.mem_cons_of_mem _ hx)) d1 hbusy

/-- A file that holds, at the offset, a header of version 1 with element
length `elemlen > 0`, count `numels` and total length `numels * elemlen`, then
`numels` blocks of `elemlen` bytes and four more bytes, and nothing else,
restored into a list without unserializer: `list_restore_filedescriptor`
returns `numels * elemlen`, the list is what the loop of the blocks leaves,
and the offset is the end of the file. The four last bytes are not looked
at. The blocks start thirty bytes after the offset. -/
theorem list_restore_filedescriptor_fixed (p : platform) (box : List Nat → Option α)
    (elsize0 : List Nat) (oom : Nat → Bool) (l : list_t α) (fd : stream)
    (timestamp : List Nat) (rndterm totlistlen numels elemlen listhash : Nat)
    (blocks : List (List Nat)) (term : List Nat) (hu : l.attrs.unserializer = none)
    (hts : timestamp.length = 8) (hpos : 0 < elemlen) (hel : elemlen < 4294967296)
    (hnum : numels < 4294967296) (hk : blocks.length = numels)
    (hb : ∀ b ∈ blocks, b.length = elemlen) (hterm : term.length = 4)
    (htot : totlistlen % 4294967296 = numels * elemlen % 4294967296)
    (hfd : fd.bytes.drop fd.pos =
      header_bytes ACDLL_DUMPFORMAT_VERSION timestamp rndterm totlistlen numels elemlen
        listhash ++ (blocks.flatten ++ term)) :
    list_restore_filedescriptor p box elsize0 oom l fd =
      (numels * elemlen % 4294967296,
        (restore_fixed_verbatim box oom elemlen numels 0
          { l := l, fd := { bytes := fd.bytes, pos := fd.pos + 30 }, elsize := elsize0,
            totreadlen := 0, totmemorylen := 0, failed := false }).l,
        { bytes := fd.bytes, pos := fd.bytes.length }) ∧
    fd.bytes.drop (fd.pos + 30) = blocks.flatten ++ term := by
  obtain ⟨e, d⟩ := list_restore_filedescriptor_header p box elsize0 oom l fd timestamp rndterm
    totlistlen numels elemlen listhash _ hts hfd
  refine ⟨?_, d⟩
  rw [e, Nat.mod_eq_of_lt hel, Nat.mod_eq_of_lt hnum]
  have hflat : blocks.flatten.length = numels * elemlen := by
    rw [flatten_length_const blocks elemlen hb, hk]
  have hloop := restore_fixed_verbatim_fd box oom elemlen blocks term 0
    { l := l, fd := { bytes := fd.bytes, pos := fd.pos + 30 }, elsize := elsize0,
      totreadlen := 0, totmemorylen := 0, failed := false } hb d
  rw [hk] at hloop
  obtain ⟨-, d2⟩ := fd_read_append { bytes := fd.bytes, pos := fd.pos + 30 } _ _ d
  rw [hflat] at d2
  obtain ⟨r8, d8⟩ := fd_read_append
    { bytes := fd.bytes, pos := fd.pos + 30 + numels * elemlen } term []
    (by rw [List.append_nil]; exact d2)
  rw [hterm] at r8
  have hlen : fd.bytes.length = fd.pos + 30 + numels * elemlen + 4 := by
    have := congrArg List.length hfd
    rw [List.length_drop, List.length_append, List.length_append, hflat, hterm] at this
    have h30 : (header_bytes ACDLL_DUMPFORMAT_VERSION timestamp rndterm totlistlen numels
        elemlen listhash).length = 30 := by
      simp [header_bytes, be16, be32, hts]
    omega
  unfold list_restore_finish list_restore_loops
  simp only []
  rw [if_pos hpos, hu]
  simp only []
  rw [hloop.1, hloop.2]
  simp only [Bool.false_eq_true, if_false]
  rw [r8]
  simp only []
  rw [if_neg (fun h => h.1 htot.symm), if_neg (by simp [hlen])]

/-- C40: `list_restore_filedescriptor` does not honour the iteration lock.
The file holds at the offset a dump of `numels ≥ 1` blocks of `elemlen > 0`
bytes: the header of version 1 with this count, this element length and the
total length `numels * elemlen`, the blocks, the terminator of the header, and
nothing else. On a destination without unserializer that has an iteration
active, every `list_append` is rejected: the function returns
`numels * elemlen`, which is not 0, and the list is exactly as before. On a
reachable destination without unserializer and with no iteration active, when
no `malloc` fails, the function returns the same value and the blocks are
appended. -/
theorem list_restore_ignores_iteration (l : list_t α) (hbusy : l.iter_active ≠ 0)
    (hu : l.attrs.unserializer = none) (p : platform) (box : List Nat → Option α)
    (elsize0 : List Nat) (oom : Nat → Bool) (fd : stream) (timestamp : List Nat)
    (rndterm numels elemlen listhash : Nat) (blocks : List (List Nat))
    (hts : timestamp.length = 8) (hpos : 0 < elemlen) (hn : 0 < numels)
    (htot : numels * elemlen < 4294967296) (hk : blocks.length = numels)
    (hb : ∀ b ∈ blocks, b.length = elemlen)
    (hfd : fd.bytes.drop fd.pos =
      header_bytes ACDLL_DUMPFORMAT_VERSION timestamp rndterm (numels * elemlen) numels elemlen
        listhash ++ (blocks.flatten ++ be32 rndterm)) :
    list_restore_filedescriptor p box elsize0 oom l fd =
      (numels * elemlen, l, { bytes := fd.bytes, pos := fd.bytes.length }) ∧
    0 < numels * elemlen ∧
    (∀ dest : list_t α, Reachable dest → dest.iter_active = 0 →
      dest.attrs.unserializer = none → (∀ c, oom c = false) →
      (list_restore_filedescriptor p box elsize0 oom dest fd).1 = numels * elemlen ∧
      list_elements (list_restore_filedescriptor p box elsize0 oom dest fd).2.1 =
        list_elements dest ++ blocks.map box) := by
  have hel : elemlen < 4294967296 :=
    lt_of_le_of_lt (Nat.le_mul_of_pos_left elemlen hn) htot
  have hnum : numels < 4294967296 :=
    lt_of_le_of_lt (Nat.le_mul_of_pos_right numels hpos) htot
  refine ⟨?_, Nat.mul_pos hn hpos, ?_⟩
  · obtain ⟨e, d⟩ := list_restore_filedescriptor_fixed p box elsize0 oom l fd timestamp rndterm
      (numels * elemlen) numels elemlen listhash blocks (be32 rndterm) hu hts hpos hel hnum hk
      hb rfl rfl hfd
    have hl := restore_fixed_verbatim_busy box oom elemlen blocks (be32 rndterm) 0
      { l := l, fd := { bytes := fd.bytes, pos := fd.pos + 30 }, elsize := elsize0,
        totreadlen := 0, totmemorylen := 0, failed := false } hb d hbusy
    rw [hk] at hl
    rw [e, hl, Nat.mod_eq_of_lt htot]
  · intro dest hr hidle hud hoom
    obtain ⟨body, hinv⟩ := hr.inv
    obtain ⟨e, d⟩ := list_restore_filedescriptor_fixed p box elsize0 oom dest fd timestamp
      rndterm (numels * elemlen) numels elemlen listhash blocks (be32 rndterm) hud hts hpos hel
      hnum hk hb rfl rfl hfd
    have hl := restore_fixed_verbatim_idle box oom hoom elemlen blocks (be32 rndterm) 0
      { l := dest, fd := { bytes := fd.bytes, pos := fd.pos + 30 }, elsize := elsize0,
        totreadlen := 0, totmemorylen := 0, failed := false } body hb d hinv hidle
    rw [hk] at hl
    rw [e]
    exact ⟨Nat.mod_eq_of_lt htot, hl⟩

theorem example_restaurants_reachable : Reachable example_restaurants.list_restaurants :=
  Reachable.insert_at _ (some 30) _ false
    (Reachable.insert_at _ (some 20) _ false
      (Reachable.insert_at _ (some 10) _ false
        (Reachable.attributes_comparator _ _
          (Reachable.attributes_copy _ _ _ Reachable.init))))

set_option maxRecDepth 1000000 in
theorem list_findpos_refines_witness :
    Reachable (list_of [5, 3, 1, 4, 1, 5, 9]) ∧
    (list_findpos (list_of [5, 3, 1, 4, 1, 5, 9]) 3 =
        list_findpos_naive (list_of [5, 3, 1, 4, 1, 5, 9]) 3 ∧
      ((3 : Int) < -1 ∨ (3 : Int) > ((list_of [5, 3, 1, 4, 1, 5, 9]).numels : Int) →
        list_findpos (list_of [5, 3, 1, 4, 1, 5, 9]) 3 = 0) ∧
      ((3 : Int) = -1 → list_findpos (list_of [5, 3, 1, 4, 1, 5, 9]) 3 =
        (list_of [5, 3, 1, 4, 1, 5, 9]).head_sentinel) ∧
      ((3 : Int) = ((list_of [5, 3, 1, 4, 1, 5, 9]).numels : Int) →
        list_findpos (list_of [5, 3, 1, 4, 1, 5, 9]) 3 =
          (list_of [5, 3, 1, 4, 1, 5, 9]).tail_sentinel) ∧
      (∀ k : Nat, (3 : Int) = (k : Int) → k < (list_of [5, 3, 1, 4, 1, 5, 9]).numels →
        (list_entries (list_of [5, 3, 1, 4, 1, 5, 9]))[k]? =
          some (list_findpos (list_of [5, 3, 1, 4, 1, 5, 9]) 3)) ∧
      (ratio_le ((3 : Int) + 1) (list_of [5, 3, 1, 4, 1, 5, 9]).numels 1 4 = false →
        ratio_lt ((3 : Int) + 1) (list_of [5, 3, 1, 4, 1, 5, 9]).numels 1 2 = true →
        (3 : Int) ≤ ((((list_of [5, 3, 1, 4, 1, 5, 9]).numels - 1) / 2 : Nat) : Int)) ∧
      (ratio_lt ((3 : Int) + 1) (list_of [5, 3, 1, 4, 1, 5, 9]).numels 1 2 = false →
        ratio_le ((3 : Int) + 1) (list_of [5, 3, 1, 4, 1, 5, 9]).numels 3 4 = true →
        ((((list_of [5, 3, 1, 4, 1, 5, 9]).numels - 1) / 2 : Nat) : Int) ≤ (3 : Int))) ∧
    list_entries (list_of [5, 3, 1, 4, 1, 5, 9]) = [3, 4, 5, 6, 7, 8, 9] ∧
    (List.range 11).map (fun j => list_findpos (list_of [5, 3, 1, 4, 1, 5, 9]) ((j : Int) - 2)) =
      [0, 1, 3, 4, 5, 6, 7, 8, 9, 2, 0] ∧
    (List.range 11).map
        (fun j => list_findpos_naive (list_of [5, 3, 1, 4, 1, 5, 9]) ((j : Int) - 2)) =
      [0, 1, 3, 4, 5, 6, 7, 8, 9, 2, 0] :=
  ⟨list_of_reachable _,
    list_findpos_refines (list_of [5, 3, 1, 4, 1, 5, 9]) (list_of_reachable _) 3,
    by decide, by decide, by decide⟩

set_option maxRecDepth 1000000 in
theorem list_findpos_steps_bound_witness :
    1 ≤ (list_of [1, 2, 3]).numels ∧ (-1 : Int) ≤ 0 ∧
    (0 : Int) ≤ ((list_of [1, 2, 3]).numels : Int) ∧
    (∃ s fwd k, list_findpos_route (list_of [1, 2, 3]) 0 = some (s, fwd, k) ∧
      list_findpos (list_of [1, 2, 3]) 0 =
        (if fwd = true then walk_next (list_of [1, 2, 3]).mem k s
          else walk_prev (list_of [1, 2, 3]).mem k s) ∧
      k ≤ (list_of [1, 2, 3]).numels / 4 + 1) ∧
    list_findpos_route (list_of [1, 2, 3]) 0 = some (4, false, 1) ∧
    (List.range 32).map (fun j =>
        (list_findpos_route (list_of example_large) ((j : Int) - 1)).map (fun r => r.2.2)) =
      [0, 1, 2, 3, 4, 5, 6, 7, 7, 6, 5, 4, 3, 2, 1, 0, 1, 2, 3, 4, 5, 6, 7, 8, 7, 6, 5, 4, 3,
        2, 1, 0].map some :=
  ⟨by decide, by decide, by decide,
    list_findpos_steps_bound (list_of [1, 2, 3]) 0 (by decide) (by decide) (by decide),
    by decide, by decide⟩

set_option maxRecDepth 1000000 in
theorem quicksort_partition_postcondition_witness :
    (∃ body, Inv (list_of example_large) body) ∧ 0 ≤ 29 ∧
    29 < (list_of example_large).numels ∧
    (list_entries (list_of example_large))[0]? = some 3 ∧
    (list_entries (list_of example_large))[29]? = some 32 ∧ 7 ≤ 29 - 0 ∧ 29 - 0 + 2 ≤ 31 ∧
    (∃ mem2 pivot2 pivotid2,
      quicksort_place cmp_header 1 31 (list_of example_large).mem 0 3 29 32 7 =
        some (mem2, pivot2, pivotid2) ∧
      pivotid2 ≤ 29 - 0 ∧
      walk_next mem2 pivotid2 3 = pivot2 ∧
      (list_entries (list_of example_large))[0 + pivotid2]? = some pivot2 ∧
      (list_elements (list_of example_large))[0 + 7]? = some (mem2 pivot2).data ∧
      (list_elements { list_of example_large with mem := mem2 })[0 + pivotid2]? =
        some (mem2 pivot2).data ∧
      (∀ (k : Nat) (x : Option Nat), 0 ≤ k → k < 0 + pivotid2 →
        (list_elements { list_of example_large with mem := mem2 })[k]? = some x →
        cmp_header x (mem2 pivot2).data * -1 ≤ 0) ∧
      (∀ (k : Nat) (x : Option Nat), 0 + pivotid2 < k → k ≤ 29 →
        (list_elements { list_of example_large with mem := mem2 })[k]? = some x →
        cmp_header x (mem2 pivot2).data * -1 ≥ 0) ∧
      (∀ k : Nat, k < 0 ∨ 29 < k →
        (list_elements { list_of example_large with mem := mem2 })[k]? =
          (list_elements (list_of example_large))[k]?) ∧
      (list_elements { list_of example_large with mem := mem2 }).Perm
        (list_elements (list_of example_large)) ∧
      list_entries { list_of example_large with mem := mem2 } =
        list_entries (list_of example_large) ∧
      (∃ body, Inv { list_of example_large with mem := mem2 } body)) ∧
    (quicksort_place cmp_header 1 31 (list_of example_large).mem 0 3 29 32 7).map
        (fun r => (list_elements { list_of example_large with mem := r.1 }, r.2)) =
      some ([6, 3, 3, 2, 1, 5, 7, 12, 22, 17, 28, 14, 9, 19, 11, 26, 8, 21, 25, 16, 29, 17,
        13, 24, 10, 27, 18, 15, 23, 9].map some, 9, 6) ∧
    (quicksort_place cmp_header (-1) 31 (list_of example_large).mem 0 3 29 32 7).map
        (fun r => (list_elements { list_of example_large with mem := r.1 }, r.2)) =
      some ([17, 9, 25, 9, 23, 17, 12, 15, 22, 18, 28, 14, 27, 19, 11, 26, 8, 21, 10, 16, 29,
        24, 13, 7, 6, 3, 2, 5, 1, 3].map some, 26, 23) :=
  ⟨(list_of_reachable _).inv, by decide, by decide, by decide, by decide, by decide, by decide,
    quicksort_partition_postcondition (list_of example_large) (list_of_reachable _).inv
      cmp_header 1 0 3 29 32 7 31 (by decide) (by decide) (by decide) (by decide) (by decide)
      (by decide),
    by decide, by decide⟩

set_option maxRecDepth 1000000 in
theorem list_sort_direction_sense_witness :
    Reachable example_restaurants.list_restaurants ∧
    example_restaurants.list_restaurants.iter_active = 0 ∧
    example_restaurants.list_restaurants.numels + 2 ≤ 5 ∧
    (∃ g1 rnd1, restaurant_list_sort (fun x : restaurant_s => some (x.fields * 7 % 50)) 5
        (fun _ => 0) example_restaurants = some (g1, rnd1) ∧
      g1.heap = example_restaurants.heap ∧
      g1.restaurant_index = example_restaurants.restaurant_index ∧
      (list_elements g1.list_restaurants).Perm
        (list_elements example_restaurants.list_restaurants) ∧
      (list_elements g1.list_restaurants).Pairwise
        (fun a b => (example_restaurants.heap (a.getD 0)).fields * 7 % 50 ≤
          (example_restaurants.heap (b.getD 0)).fields * 7 % 50)) ∧
    list_elements example_restaurants.list_restaurants = [some 10, some 20, some 30] ∧
    [10, 20, 30].map (fun a => (example_restaurants.heap a).fields * 7 % 50) = [20, 40, 10] ∧
    (restaurant_list_sort (fun x : restaurant_s => some (x.fields * 7 % 50)) 5 (fun _ => 0)
        example_restaurants).map (fun r => list_elements r.1.list_restaurants) =
      some [some 30, some 10, some 20] ∧
    Reachable (list_of [5, 3, 1, 4, 1, 5, 9]) ∧
    (list_attributes_comparator (list_of [5, 3, 1, 4, 1, 5, 9])
      (some (fun a b => -cmp_header a b))).2.attrs.comparator =
        some (fun a b => -cmp_header a b) ∧
    IsComparator (fun a b => - -cmp_header a b) ∧
    ((∃ l1 rnd1, list_sort 9 (fun _ => 0)
          (list_attributes_comparator (list_of [5, 3, 1, 4, 1, 5, 9])
            (some (fun a b => -cmp_header a b))).2 (-1) = some (0, l1, rnd1) ∧
        (list_elements l1).Pairwise (fun a b => -cmp_header a b ≤ 0)) ∧
      (∃ l1 rnd1, list_sort 9 (fun _ => 0)
          (list_attributes_comparator (list_of [5, 3, 1, 4, 1, 5, 9])
            (some (fun a b => -cmp_header a b))).2 1 = some (0, l1, rnd1) ∧
        (list_elements l1).Pairwise (fun a b => 0 ≤ -cmp_header a b))) ∧
    (list_sort 9 (fun _ => 0)
        (list_attributes_comparator (list_of [5, 3, 1, 4, 1, 5, 9])
          (some (fun a b => -cmp_header a b))).2 (-1)).map
      (fun r => (r.1, list_elements r.2.1)) =
        some (0, [some 1, some 1, some 3, some 4, some 5, some 5, some 9]) ∧
    (list_sort 9 (fun _ => 0)
        (list_attributes_comparator (list_of [5, 3, 1, 4, 1, 5, 9])
          (some (fun a b => -cmp_header a b))).2 1).map
      (fun r => (r.1, list_elements r.2.1)) =
        some (0, [some 9, some 5, some 5, some 4, some 3, some 1, some 1]) :=
  ⟨example_restaurants_reachable, rfl, by decide,
    (list_sort_direction_sense (α := Nat)).2 Nat (fun x : restaurant_s => x.fields * 7 % 50)
      example_restaurants example_restaurants_reachable rfl 5 (by decide) (fun _ => 0),
    by decide, by decide, by decide, list_of_reachable _, rfl,
    (by simpa using cmp_header_isComparator),
    (list_sort_direction_sense (α := Nat)).1
      (list_attributes_comparator (list_of [5, 3, 1, 4, 1, 5, 9])
        (some (fun a b => -cmp_header a b))).2
      (Reachable.attributes_comparator _ _ (list_of_reachable _))
      (fun a b => -cmp_header a b) rfl (by simpa using cmp_header_isComparator) rfl 9
      (by decide) (fun _ => 0),
    by decide, by decide⟩

set_option maxRecDepth 1000000 in
theorem list_restore_ignores_iteration_witness :
    (list_iterator_start (list_of_bytes [[9, 9, 9, 9]])).2.iter_active ≠ 0 ∧
    (list_iterator_start (list_of_bytes [[9, 9, 9, 9]])).2.attrs.unserializer = none ∧
    ([0, 64, 30, 24, 36, 10, 6, 0] : List Nat).length = 8 ∧ 0 < 4 ∧ 0 < 1 ∧
    1 * 4 < 4294967296 ∧ ([[1, 2, 3, 4]] : List (List Nat)).length = 1 ∧
    (∀ b ∈ ([[1, 2, 3, 4]] : List (List Nat)), b.length = 4) ∧
    (({ bytes := example_dump, pos := 0 } : stream).bytes.drop
        ({ bytes := example_dump, pos := 0 } : stream).pos =
      header_bytes ACDLL_DUMPFORMAT_VERSION [0, 64, 30, 24, 36, 10, 6, 0] 305419896 (1 * 4) 1 4
        0 ++ (([[1, 2, 3, 4]] : List (List Nat)).flatten ++ be32 305419896)) ∧
    (list_restore_filedescriptor lp64_le some [0, 0, 0, 0] (fun _ => false)
        (list_iterator_start (list_of_bytes [[9, 9, 9, 9]])).2
        { bytes := example_dump, pos := 0 } =
      (1 * 4, (list_iterator_start (list_of_bytes [[9, 9, 9, 9]])).2,
        { bytes := ({ bytes := example_dump, pos := 0 } : stream).bytes,
          pos := ({ bytes := example_dump, pos := 0 } : stream).bytes.length }) ∧
      0 < 1 * 4 ∧
      (∀ dest : list_t (List Nat), Reachable dest → dest.iter_active = 0 →
        dest.attrs.unserializer = none → (∀ c, (fun _ : Nat => false) c = false) →
        (list_restore_filedescriptor lp64_le some [0, 0, 0, 0] (fun _ => false) dest
          { bytes := example_dump, pos := 0 }).1 = 1 * 4 ∧
        list_elements (list_restore_filedescriptor lp64_le some [0, 0, 0, 0] (fun _ => false)
          dest { bytes := example_dump, pos := 0 }).2.1 =
            list_elements dest ++ ([[1, 2, 3, 4]] : List (List Nat)).map some)) ∧
    list_elements (list_iterator_start (list_of_bytes [[9, 9, 9, 9]])).2 = [some [9, 9, 9, 9]] ∧
    (list_restore_filedescriptor lp64_le some [0, 0, 0, 0] (fun _ => false)
        (list_iterator_start (list_of_bytes [[9, 9, 9, 9]])).2
        { bytes := example_dump, pos := 0 }).1 = 4 ∧
    list_elements (list_restore_filedescriptor lp64_le some [0, 0, 0, 0] (fun _ => false)
        (list_iterator_start (list_of_bytes [[9, 9, 9, 9]])).2
        { bytes := example_dump, pos := 0 }).2.1 = [some [9, 9, 9, 9]] ∧
    restore_example lp64_le example_dump = (4, [some [1, 2, 3, 4]]) :=
  ⟨by decide, rfl, rfl, by decide, by decide, by decide, rfl, by decide, by decide,
    list_restore_ignores_iteration (list_iterator_start (list_of_bytes [[9, 9, 9, 9]])).2
      (by decide) rfl lp64_le some [0, 0, 0, 0] (fun _ => false)
      { bytes := example_dump, pos := 0 } [0, 64, 30, 24, 36, 10, 6, 0] 305419896 1 4 0
      [[1, 2, 3, 4]] rfl (by decide) (by decide) (by decide) rfl (by decide) (by decide),
    by decide, by decide, by decide, by decide⟩


/-! ## The lookup in binary32 -/

/-- The digits counted by `bit_length` are digits of the number. -/
theorem bit_length_le (fuel n : Nat) (hn : 0 < n) : 2 ^ (bit_length fuel n - 1) ≤ n := by
  induction fuel generalizing n with
  | zero => simp [bit_length]; omega
  | succ f ih =>
    rw [bit_length, if_neg (by omega)]
    by_cases h2 : n / 2 = 0
    · have : bit_length f (n / 2) = 0 := by
        rw [h2]; cases f <;> simp [bit_length]
      rw [this]; simp; omega
    · have h3 := ih (n / 2) (by omega)
      have h4 : bit_length f (n / 2) + 1 - 1 = (bit_length f (n / 2) - 1) + 1 ∨
          bit_length f (n / 2) = 0 := by omega
      rcases h4 with h4 | h4
      · rw [h4, pow_succ]; omega
      · rw [h4]; simp; omega

/-- With enough fuel `bit_length` counts all the digits. -/
theorem lt_pow_bit_length (fuel n : Nat) (hn : n < 2 ^ fuel) : n < 2 ^ bit_length fuel n := by
  induction fuel generalizing n with
  | zero => simp at hn; simp [bit_length, hn]
  | succ f ih =>
    rw [bit_length]
    split_ifs with h0
    · simp [h0]
    · have h3 := ih (n / 2) (by rw [pow_succ] at hn; omega)
      rw [pow_succ]; omega

/-- A number below `2^24` is a binary32 number. -/
theorem binary32_of_nat_small (n : Nat) (hn : n < 2 ^ 24) : binary32_of_nat n = n := by
  unfold binary32_of_nat binary32_round
  have h : bit_length 128 n ≤ 24 := by
    by_contra hc
    rcases Nat.eq_zero_or_pos n with h0 | h0
    · subst h0; simp [bit_length] at hc
    · have h1 := bit_length_le 128 n h0
      have h2 : 2 ^ 24 ≤ 2 ^ (bit_length 128 n - 1) :=
        Nat.pow_le_pow_right (by decide) (by omega)
      omega
  simp only [if_pos h]

/-- The conversion to binary32 of a positive number is positive. -/
theorem binary32_round_pos (n : Nat) (s : Bool) (hn : 0 < n) : 0 < binary32_round n s := by
  unfold binary32_round
  simp only []
  have h1 := bit_length_le 128 n hn
  split_ifs with h
  · exact hn
  · have hu : 0 < 2 ^ (bit_length 128 n - 24) := Nat.two_pow_pos _
    exact Nat.mul_pos (Nat.succ_pos _) hu
  · have hu : 0 < 2 ^ (bit_length 128 n - 24) := Nat.two_pow_pos _
    have hle : 2 ^ (bit_length 128 n - 24) ≤ n :=
      le_trans (Nat.pow_le_pow_right (by decide) (by omega)) h1
    exact Nat.mul_pos (Nat.div_pos hle hu) hu

set_option maxRecDepth 100000 in
/-- The number 1, scaled by `2^64`, is a binary32 number. -/
theorem binary32_round_one : binary32_round (2 ^ 64) (decide (0 ≠ 0)) = 2 ^ 64 := by
  decide

theorem binary32_round_self (a : Nat) (ha : 0 < a) :
    binary32_round (a * 2 ^ 64 / a) (decide (a * 2 ^ 64 % a ≠ 0)) = 2 ^ 64 := by
  have h1 : a * 2 ^ 64 / a = 2 ^ 64 := Nat.mul_div_cancel_left _ ha
  have h2 : a * 2 ^ 64 % a = 0 := Nat.mul_mod_right _ _
  rw [h1, h2]
  exact binary32_round_one

/-- The binary32 quotient of a positive number by itself is 1. -/
theorem binary32_quotient_self (n : Nat) (hn : 0 < n) :
    binary32_quotient (n : Int) n = some (2 ^ 64) := by
  unfold binary32_quotient
  rw [if_neg (by omega)]
  exact congrArg some (binary32_round_self _ (binary32_round_pos n false hn))


/-! ## Agreement of the two quotients on lists of fewer than `2^23` entries -/

/-- Rounding to binary32 does not go below a number that has no digit under
the unit of the rounding. -/
theorem le_binary32_round (q t : Nat) (b : Bool) (hq : t ≤ q)
    (hd : 2 ^ (bit_length 128 q - 24) ∣ t) : t ≤ binary32_round q b := by
  unfold binary32_round
  simp only []
  split_ifs with h1 h2
  · exact hq
  all_goals
    obtain ⟨k, rfl⟩ := hd
    have hu : 0 < 2 ^ (bit_length 128 q - 24) := Nat.two_pow_pos _
    have hk : k ≤ q / 2 ^ (bit_length 128 q - 24) := by
      rw [Nat.le_div_iff_mul_le hu, Nat.mul_comm]; exact hq
    rw [Nat.mul_comm]
  · exact Nat.mul_le_mul_right _ (le_trans hk (Nat.le_succ _))
  · exact Nat.mul_le_mul_right _ hk

/-- Rounding to binary32 does not go above a greater number that has no digit
under the unit of the rounding. -/
theorem binary32_round_le (q t : Nat) (b : Bool) (hq : q < t)
    (hd : 2 ^ (bit_length 128 q - 24) ∣ t) : binary32_round q b ≤ t := by
  unfold binary32_round
  simp only []
  split_ifs with h1 h2
  · exact le_of_lt hq
  all_goals
    obtain ⟨k, rfl⟩ := hd
    have hu : 0 < 2 ^ (bit_length 128 q - 24) := Nat.two_pow_pos _
    have hk : q / 2 ^ (bit_length 128 q - 24) < k := by
      rw [Nat.div_lt_iff_lt_mul hu, Nat.mul_comm]; exact hq
    rw [Nat.mul_comm _ k]
  · exact Nat.mul_le_mul_right _ hk
  · exact Nat.mul_le_mul_right _ (le_of_lt hk)

/-- The number of digits of a number below `2^k`. -/
theorem bit_length_le_of_lt (q k : Nat) (hq : q < 2 ^ k) : bit_length 128 q ≤ k := by
  rcases Nat.eq_zero_or_pos q with h0 | h0
  · subst h0; simp [bit_length]
  · have h1 := bit_length_le 128 q h0
    by_contra hc
    have h2 : 2 ^ k ≤ 2 ^ (bit_length 128 q - 1) := Nat.pow_le_pow_right (by decide) (by omega)
    omega

/-- The number of digits of a number from `2^k` on, below `2^128`. -/
theorem lt_bit_length_of_le (q k : Nat) (hk : 2 ^ k ≤ q) (hq : q < 2 ^ 128) :
    k < bit_length 128 q := by
  have h1 := lt_pow_bit_length 128 q hq
  by_contra hc
  have h2 : 2 ^ bit_length 128 q ≤ 2 ^ k := Nat.pow_le_pow_right (by decide) (by omega)
  omega


set_option maxRecDepth 100000 in
/-- The thresholds of `list_findpos` are binary32 numbers. -/
theorem binary32_round_thresholds (b : Bool) :
    binary32_round (2 ^ 62) b = 2 ^ 62 ∧ binary32_round (3 * 2 ^ 62) b = 3 * 2 ^ 62 := by
  cases b <;> decide

/-- The bound on the scaled quotient of `list_findpos`. -/
theorem quotient_lt (n d : Nat) (hd : 0 < d) (hn : n ≤ d + 1) : n * 2 ^ 64 / d < 2 ^ 67 := by
  rw [Nat.div_lt_iff_lt_mul hd]
  omega

/-- The test `x <= 0.25` is the same on the binary32 quotient and on the exact
quotient, for fewer than `2^23` entries. -/
theorem binary32_quarter (n d : Nat) (hd : 0 < d) (hd2 : d < 2 ^ 23) (hn : n ≤ d + 1) :
    4 * binary32_round (n * 2 ^ 64 / d) (decide (n * 2 ^ 64 % d ≠ 0)) ≤ 1 * 2 ^ 64 ↔
      4 * n ≤ d := by
  have hq := quotient_lt n d hd hn
  generalize hb : decide (n * 2 ^ 64 % d ≠ 0) = b
  constructor
  · intro hx
    by_contra hc
    have h1 : 2 ^ 62 + 2 ^ 39 ≤ n * 2 ^ 64 / d := by
      rw [Nat.le_div_iff_mul_le hd]; omega
    by_cases h2 : n * 2 ^ 64 / d < 2 ^ 63
    · have h3 := bit_length_le_of_lt _ _ h2
      have h4 := le_binary32_round _ _ b h1
        (dvd_add (pow_dvd_pow 2 (by omega)) (pow_dvd_pow 2 (by omega)))
      omega
    · have h3 := bit_length_le_of_lt _ _ hq
      have h4 := le_binary32_round (n * 2 ^ 64 / d) (2 ^ 63) b (by omega) (pow_dvd_pow 2 (by omega))
      omega
  · intro h
    have h1 : n * 2 ^ 64 / d ≤ 2 ^ 62 := by
      apply Nat.div_le_of_le_mul; omega
    rcases Nat.lt_or_ge (n * 2 ^ 64 / d) (2 ^ 62) with h2 | h2
    · have h3 := bit_length_le_of_lt _ _ h2
      have h4 := binary32_round_le _ (2 ^ 62) b h2 (pow_dvd_pow 2 (by omega))
      omega
    · have h3 : n * 2 ^ 64 / d = 2 ^ 62 := le_antisymm h1 h2
      rw [h3, (binary32_round_thresholds b).1]
      decide


/-- The test `x < 0.5` is the same on the binary32 quotient and on the exact
quotient, for fewer than `2^23` entries. -/
theorem binary32_half (n d : Nat) (hd : 0 < d) (hd2 : d < 2 ^ 23) (hn : n ≤ d + 1) :
    2 * binary32_round (n * 2 ^ 64 / d) (decide (n * 2 ^ 64 % d ≠ 0)) < 1 * 2 ^ 64 ↔
      2 * n < d := by
  have hq := quotient_lt n d hd hn
  generalize hb : decide (n * 2 ^ 64 % d ≠ 0) = b
  constructor
  · intro hx
    by_contra hc
    have h1 : 2 ^ 63 ≤ n * 2 ^ 64 / d := by
      rw [Nat.le_div_iff_mul_le hd]; omega
    have h3 := bit_length_le_of_lt _ _ hq
    have h4 := le_binary32_round (n * 2 ^ 64 / d) (2 ^ 63) b h1 (pow_dvd_pow 2 (by omega))
    omega
  · intro h
    have h1 : n * 2 ^ 64 / d ≤ 2 ^ 63 - 2 ^ 40 := by
      apply Nat.div_le_of_le_mul; omega
    have h2 : n * 2 ^ 64 / d < 2 ^ 63 := by omega
    have h3 := bit_length_le_of_lt _ _ h2
    have h4 := binary32_round_le (n * 2 ^ 64 / d) (2 ^ 63 - 2 ^ 39) b (by omega)
      (dvd_trans (pow_dvd_pow 2 (show bit_length 128 (n * 2 ^ 64 / d) - 24 ≤ 39 by omega))
        ⟨2 ^ 24 - 1, by norm_num⟩)
    omega

/-- The test `x <= 0.75` is the same on the binary32 quotient and on the exact
quotient, for fewer than `2^23` entries. -/
theorem binary32_three_quarters (n d : Nat) (hd : 0 < d) (hd2 : d < 2 ^ 23) (hn : n ≤ d + 1) :
    4 * binary32_round (n * 2 ^ 64 / d) (decide (n * 2 ^ 64 % d ≠ 0)) ≤ 3 * 2 ^ 64 ↔
      4 * n ≤ 3 * d := by
  have hq := quotient_lt n d hd hn
  have hdm := Nat.div_add_mod (n * 2 ^ 64) d
  generalize hb : decide (n * 2 ^ 64 % d ≠ 0) = b
  constructor
  · intro hx
    by_contra hc
    have h1 : 3 * 2 ^ 62 + 2 ^ 39 ≤ n * 2 ^ 64 / d := by
      rw [Nat.le_div_iff_mul_le hd]; omega
    have hst : n * 2 ^ 64 / d = 3 * 2 ^ 62 + 2 ^ 39 → b = true := by
      intro hqe
      rw [hqe] at hdm
      rw [← hb, decide_eq_true_eq]
      intro h0
      omega
    by_cases h2 : n * 2 ^ 64 / d < 2 ^ 64
    · have h3 := bit_length_le_of_lt _ _ h2
      have h5 := lt_bit_length_of_le (n * 2 ^ 64 / d) 63 (by omega) (by omega)
      have h6 : bit_length 128 (n * 2 ^ 64 / d) = 64 := by omega
      unfold binary32_round at hx
      simp only [h6] at hx
      generalize n * 2 ^ 64 / d = q at *
      split_ifs at hx with c1 c2
      · omega
      · omega
      · have c3 : ¬(q % 2 ^ (64 - 24) = 2 ^ (64 - 24) / 2 ∧ b = true) := by
          intro hc3; exact c2 (Or.inr ⟨hc3.1, Or.inl hc3.2⟩)
        have c4 : ¬(q % 2 ^ (64 - 24) > 2 ^ (64 - 24) / 2) := by
          intro hc4; exact c2 (Or.inl hc4)
        by_cases hqe : q = 3 * 2 ^ 62 + 2 ^ 39
        · have := hst hqe
          subst hqe
          exact c3 ⟨by norm_num, this⟩
        · omega
    · have h3 := bit_length_le_of_lt _ _ hq
      have h4 := le_binary32_round (n * 2 ^ 64 / d) (2 ^ 64) b (by omega)
        (pow_dvd_pow 2 (by omega))
      omega
  · intro h
    have h1 : n * 2 ^ 64 / d ≤ 3 * 2 ^ 62 := by
      apply Nat.div_le_of_le_mul; omega
    rcases Nat.lt_or_ge (n * 2 ^ 64 / d) (3 * 2 ^ 62) with h2 | h2
    · have h3 := bit_length_le_of_lt (n * 2 ^ 64 / d) 64 (by omega)
      have h4 := binary32_round_le _ (3 * 2 ^ 62) b h2
        (Dvd.dvd.mul_left (pow_dvd_pow 2 (by omega)) 3)
      omega
    · have h3 : n * 2 ^ 64 / d = 3 * 2 ^ 62 := le_antisymm h1 h2
      rw [h3, (binary32_round_thresholds b).2]
      decide


/-- The binary32 quotient of two numbers below `2^24`. -/
theorem binary32_quotient_small (n d : Nat) (hd : 0 < d) (hn : n < 2 ^ 24) (hd2 : d < 2 ^ 24) :
    binary32_quotient (n : Int) d =
      some (binary32_round (n * 2 ^ 64 / d) (decide (n * 2 ^ 64 % d ≠ 0))) := by
  have e1 : binary32_of_nat (n : Int).toNat = n := binary32_of_nat_small n hn
  have e2 := binary32_of_nat_small d hd2
  unfold binary32_quotient
  rw [if_neg (by omega)]
  simp only [e1, e2]

/-- The three tests of `list_findpos` give the same on the binary32 quotient
and on the exact quotient, for fewer than `2^23` entries. -/
theorem ratio_binary32_eq (n d : Nat) (hd2 : d < 2 ^ 23) (hn : n ≤ d + 1) :
    ratio_le_binary32 (n : Int) d 1 4 = ratio_le (n : Int) d 1 4 ∧
    ratio_lt_binary32 (n : Int) d 1 2 = ratio_lt (n : Int) d 1 2 ∧
    ratio_le_binary32 (n : Int) d 3 4 = ratio_le (n : Int) d 3 4 := by
  unfold ratio_le_binary32 ratio_lt_binary32 ratio_le ratio_lt
  rcases Nat.eq_zero_or_pos d with h0 | h0
  · subst h0
    have : binary32_quotient (n : Int) 0 = none := rfl
    rw [this]
    simp
  · rw [binary32_quotient_small n d h0 (by omega) (by omega)]
    simp only [decide_eq_decide]
    have hne : d ≠ 0 := by omega
    refine ⟨?_, ?_, ?_⟩
    · rw [binary32_quarter n d h0 hd2 hn]
      constructor
      · intro h; exact ⟨hne, by omega⟩
      · intro h; omega
    · rw [binary32_half n d h0 hd2 hn]
      constructor
      · intro h; exact ⟨hne, by omega⟩
      · intro h; omega
    · rw [binary32_three_quarters n d h0 hd2 hn]
      constructor
      · intro h; exact ⟨hne, by omega⟩
      · intro h; omega

/-- On a list of fewer than `2^23` entries `list_findpos` returns the same
entry with the binary32 quotient of the source as with the exact quotient. -/
theorem list_findpos_binary32_eq (l : list_t α) (posstart : Int) (hn : l.numels < 2 ^ 23) :
    list_findpos_binary32 l posstart = list_findpos l posstart := by
  unfold list_findpos_binary32 list_findpos
  by_cases hg : posstart < -1 ∨ posstart > (l.numels : Int)
  · rw [if_pos hg, if_pos hg]
  · obtain ⟨n, hnn⟩ : ∃ n : Nat, posstart + 1 = (n : Int) := ⟨(posstart + 1).toNat, by omega⟩
    obtain ⟨e1, e2, e3⟩ := ratio_binary32_eq n l.numels hn (by omega)
    rw [if_neg hg, if_neg hg, hnn, e1, e2, e3]

/-- On a list of fewer than `2^23` entries `list_insert_at` and
`list_delete_at` are the same with the binary32 quotient of the source as with
the exact quotient. -/
theorem list_ops_binary32_eq (l : list_t α) (hn : l.numels < 2 ^ 23) (data : Option α)
    (pos : Nat) (oom : Bool) :
    list_insert_at_binary32 l data pos oom = list_insert_at l data pos oom ∧
    list_delete_at_binary32 l pos = list_delete_at l pos := by
  constructor
  · unfold list_insert_at_binary32 list_insert_at
    split_ifs with hg
    · rfl
    · cases hacq : list_insert_at_acquire l oom with
      | none => rfl
      | some r =>
        obtain ⟨lent, l1⟩ := r
        have hn1 : l1.numels = l.numels := by
          unfold list_insert_at_acquire at hacq
          split_ifs at hacq <;> cases hacq <;> rfl
        simp only []
        unfold list_insert_at_link_binary32 list_insert_at_link
        simp only []
        rw [list_findpos_binary32_eq { l1 with mem := set_data l1.mem lent data } _
          (show l1.numels < 2 ^ 23 by omega)]
  · unfold list_delete_at_binary32 list_delete_at
    rw [list_findpos_binary32_eq l _ hn]


/-- The tests on the quotient of the last position: the quotient is 1, or
there is no entry and every test is false. -/
theorem ratio_binary32_last (n a b : Nat) (hab : a < b) :
    ratio_le_binary32 (n : Int) n a b = false ∧ ratio_lt_binary32 (n : Int) n a b = false := by
  unfold ratio_le_binary32 ratio_lt_binary32
  rcases Nat.eq_zero_or_pos n with h0 | h0
  · subst h0
    have : binary32_quotient ((0 : Nat) : Int) 0 = none := rfl
    rw [this]
    exact ⟨rfl, rfl⟩
  · rw [binary32_quotient_self n h0]
    simp only [decide_eq_false_iff_not, not_le, not_lt]
    have : a * 2 ^ 64 < b * 2 ^ 64 := Nat.mul_lt_mul_of_pos_right hab (Nat.two_pow_pos _)
    exact ⟨this, le_of_lt this⟩

/-- The entry before the end is looked up alike with the exact quotient and
with the binary32 quotient: back from the tail sentinel. -/
theorem list_findpos_binary32_last (l : list_t α) :
    list_findpos_binary32 l ((l.numels : Int) - 1) = list_findpos l ((l.numels : Int) - 1) := by
  have hg : ¬((l.numels : Int) - 1 < -1 ∨ (l.numels : Int) - 1 > (l.numels : Int)) := by omega
  have hs : ((l.numels : Int) - 1 + 1) = (l.numels : Int) := by omega
  have e1 : ratio_le (l.numels : Int) l.numels 1 4 = false := by
    simp only [ratio_le, decide_eq_false_iff_not]; omega
  have e2 : ratio_lt (l.numels : Int) l.numels 1 2 = false := by
    simp only [ratio_lt, decide_eq_false_iff_not]; omega
  have e3 : ratio_le (l.numels : Int) l.numels 3 4 = false := by
    simp only [ratio_le, decide_eq_false_iff_not]; omega
  unfold list_findpos_binary32 list_findpos
  simp only [if_neg hg, hs, (ratio_binary32_last l.numels 1 4 (by decide)).1,
    (ratio_binary32_last l.numels 1 2 (by decide)).2,
    (ratio_binary32_last l.numels 3 4 (by decide)).1, e1, e2, e3]

/-- The function `list_append` is the same with the exact quotient and with
the binary32 quotient. -/
theorem list_append_binary32_eq (l : list_t α) (data : Option α) (oom : Bool) :
    list_append_binary32 l data oom = list_append l data oom := by
  unfold list_append_binary32 list_append list_insert_at_binary32 list_insert_at
  split_ifs with hg
  · rfl
  · cases hacq : list_insert_at_acquire l oom with
    | none => rfl
    | some r =>
      obtain ⟨lent, l1⟩ := r
      have hn : l1.numels = l.numels := by
        unfold list_insert_at_acquire at hacq
        split_ifs at hacq <;> cases hacq <;> rfl
      simp only []
      unfold list_insert_at_link_binary32 list_insert_at_link
      simp only []
      have := list_findpos_binary32_last { l1 with mem := set_data l1.mem lent data }
      rw [← hn]
      simp only [] at this
      rw [this]


/-- An append on a list whose free-list is empty leaves it empty. -/
theorem list_append_spareelsnum (l : list_t α) (e : Option α) (h : l.spareelsnum = 0) :
    (list_append l e false).2.spareelsnum = 0 := by
  unfold list_append list_insert_at
  split_ifs with hg
  · exact h
  · have hacq : list_insert_at_acquire l false = some (l.brk, { l with brk := l.brk + 1 }) := by
      unfold list_insert_at_acquire
      rw [if_neg (by omega)]
      rfl
    rw [hacq]
    simp only []
    rw [(list_insert_at_link_frame _ _ _ _).2.2.2.2.1]
    exact h

/-- Appends, no `malloc` failing, on a well-formed idle list with an empty
free-list: the elements are added at the end in order. -/
theorem list_appends_spec (xs : List (Option α)) :
    ∀ l0 : list_t α, (∃ body, Inv l0 body) → l0.iter_active = 0 → l0.spareelsnum = 0 →
      (∃ body, Inv (xs.foldl (fun l x => (list_append_binary32 l x false).2) l0) body) ∧
      list_elements (xs.foldl (fun l x => (list_append_binary32 l x false).2) l0) =
        list_elements l0 ++ xs ∧
      (xs.foldl (fun l x => (list_append_binary32 l x false).2) l0).iter_active = 0 ∧
      (xs.foldl (fun l x => (list_append_binary32 l x false).2) l0).spareelsnum = 0 := by
  induction xs with
  | nil =>
    intro l0 h0 hi hs
    exact ⟨h0, by simp, hi, hs⟩
  | cons x xs ih =>
    intro l0 h0 hi hs
    obtain ⟨body, hb⟩ := h0
    obtain ⟨-, h2, h3, h4, -⟩ := list_append_spec hb hi x
    have h5 := list_append_spareelsnum l0 x hs
    rw [List.foldl_cons, list_append_binary32_eq]
    obtain ⟨g1, g2, g3, g4⟩ := ih _ h2 h4 h5
    refine ⟨g1, ?_, g3, g4⟩
    rw [g2, h3, List.append_assoc]
    rfl

/-- The list built by appends is well formed, idle, holds the appended
elements in order, and its free-list is empty. -/
theorem list_of_appends_spec (xs : List (Option α)) :
    (∃ body, Inv (list_of_appends xs) body) ∧ list_elements (list_of_appends xs) = xs ∧
    (list_of_appends xs).iter_active = 0 ∧ (list_of_appends xs).spareelsnum = 0 ∧
    (list_of_appends xs).numels = xs.length := by
  obtain ⟨h1, h2, h3, h4⟩ := list_appends_spec xs (list_init (α := α)).2 ⟨[], list_init_inv⟩ rfl rfl
  have h5 : list_elements (list_init (α := α)).2 = [] := by
    rw [list_elements_eq list_init_inv]; rfl
  rw [h5, List.nil_append] at h2
  refine ⟨h1, h2, h3, h4, ?_⟩
  obtain ⟨body, hb⟩ := h1
  have := list_elements_eq hb
  rw [show list_of_appends xs = xs.foldl (fun l x => (list_append_binary32 l x false).2)
    (list_init).2 from rfl, hb.numels_eq, ← h2]
  rw [this, List.length_map]


set_option maxRecDepth 100000 in
/-- In a list of `2^24 + 1` entries the lookup of index `2^23 - 1` computes
`x = 0.5` (the count is rounded to `2^24`), fails the test `x < 0.5`, takes
the third quarter and walks 0 steps from the mid entry: it returns the entry
of index `2^23`. -/
theorem list_findpos_binary32_half (l : list_t α) (p : Int) (hn : l.numels = 16777217)
    (hp : p = 8388607) : list_findpos_binary32 l p = l.mid_sentinel := by
  subst hp
  unfold list_findpos_binary32
  rw [hn]
  have e1 : ratio_le_binary32 (8388607 + 1) 16777217 1 4 = false := by decide
  have e2 : ratio_lt_binary32 (8388607 + 1) 16777217 1 2 = false := by decide
  have e3 : ratio_le_binary32 (8388607 + 1) 16777217 3 4 = true := by decide
  have e4 : ((8388607 : Int) - (((16777217 - 1) / 2 : Nat) : Int)).toNat = 0 := by decide
  rw [if_neg (by decide), e1, e2, e3, e4]
  rfl

set_option maxRecDepth 100000 in
/-- In a list of `2^24 + 1` entries the exact lookup of index `2^23` returns
the mid entry. -/
theorem list_findpos_half (l : list_t α) (p : Int) (hn : l.numels = 16777217)
    (hp : p = 8388608) : list_findpos l p = l.mid_sentinel := by
  subst hp
  unfold list_findpos
  rw [hn]
  have e1 : ratio_le (8388608 + 1) 16777217 1 4 = false := by decide
  have e2 : ratio_lt (8388608 + 1) 16777217 1 2 = false := by decide
  have e3 : ratio_le (8388608 + 1) 16777217 3 4 = true := by decide
  have e4 : ((8388608 : Int) - (((16777217 - 1) / 2 : Nat) : Int)).toNat = 0 := by decide
  rw [if_neg (by decide), e1, e2, e3, e4]
  rfl

set_option maxRecDepth 100000 in
/-- In a list of `2^24 + 2` entries the lookup of index `2^23` returns the mid
pointer: `x` is 0.5 exactly. -/
theorem list_findpos_binary32_even (l : list_t α) (p : Int) (hn : l.numels = 16777218)
    (hp : p = 8388608) : list_findpos_binary32 l p = l.mid_sentinel := by
  subst hp
  unfold list_findpos_binary32
  rw [hn]
  have e1 : ratio_le_binary32 (8388608 + 1) 16777218 1 4 = false := by decide
  have e2 : ratio_lt_binary32 (8388608 + 1) 16777218 1 2 = false := by decide
  have e3 : ratio_le_binary32 (8388608 + 1) 16777218 3 4 = true := by decide
  have e4 : ((8388608 : Int) - (((16777218 - 1) / 2 : Nat) : Int)).toNat = 0 := by decide
  rw [if_neg (by decide), e1, e2, e3, e4]
  rfl

set_option maxRecDepth 100000 in
/-- In a list of `2^24` entries the lookup of index `2^23 - 1` returns the mid
pointer: `x` is 0.5 exactly. -/
theorem list_findpos_binary32_pow (l : list_t α) (p : Int) (hn : l.numels = 16777216)
    (hp : p = 8388607) : list_findpos_binary32 l p = l.mid_sentinel := by
  subst hp
  unfold list_findpos_binary32
  rw [hn]
  have e1 : ratio_le_binary32 (8388607 + 1) 16777216 1 4 = false := by decide
  have e2 : ratio_lt_binary32 (8388607 + 1) 16777216 1 2 = false := by decide
  have e3 : ratio_le_binary32 (8388607 + 1) 16777216 3 4 = true := by decide
  have e4 : ((8388607 : Int) - (((16777216 - 1) / 2 : Nat) : Int)).toNat = 0 := by decide
  rw [if_neg (by decide), e1, e2, e3, e4]
  rfl


/-- The elements after a deletion in a well-formed idle list, looked up with
the exact quotient. -/
theorem list_delete_at_elements {l : list_t α} {body : List Nat} (h : Inv l body)
    (hidle : l.iter_active = 0) {pos : Nat} (hpos : pos < l.numels) :
    list_elements (list_delete_at l pos).2 = (list_elements l).eraseIdx pos := by
  obtain ⟨-, h2, h3, -, -⟩ := list_delete_at_inv h hidle hpos
  rw [list_elements_eq h2, list_elements_eq h, eraseIdx_map]
  apply List.map_congr_left
  intro a _
  exact h3 a

/-- The elements after an insertion in a well-formed idle list, looked up with
the exact quotient. -/
theorem list_insert_at_elements {l : list_t α} {body : List Nat} (h : Inv l body)
    (hidle : l.iter_active = 0) {pos : Nat} (hpos : pos ≤ l.numels) {oom : Bool}
    (halloc : oom = false ∨ 0 < l.spareelsnum) (e : Option α) :
    list_elements (list_insert_at l e pos oom).2 =
      (list_elements l).take pos ++ [e] ++ (list_elements l).drop pos := by
  obtain ⟨lent, hl, -, h2, h3, -, -⟩ := list_insert_at_inv h hidle hpos halloc e
  rw [list_elements_eq h2, list_elements_eq h]
  exact map_insert_data hl e h3 pos

/-- The mid pointer of a well-formed list that is not empty is an entry of
index `(numels - 1) / 2`, and is not `NULL`. -/
theorem Inv.mid_ne_zero {l : list_t α} {body : List Nat} (h : Inv l body) (hpos : 0 < l.numels) :
    l.mid_sentinel ≠ 0 := by
  have hm := h.mid hpos
  have hmem : l.mid_sentinel ∈ body := List.mem_iff_getElem?.2 ⟨_, hm⟩
  exact (h.valid _ (by simp [chain, hmem])).1

/-- The fields of the list after a `list_delete_at` that passes the guard,
with the lookup in binary32. -/
theorem list_delete_at_binary32_fields (l : list_t α) (pos : Nat)
    (hok : ¬(l.iter_active ≠ 0 ∨ pos ≥ l.numels))
    (htmp : list_findpos_binary32 l (pos : Int) ≠ 0) :
    (list_delete_at_binary32 l pos).1 = 0 ∧
    (list_delete_at_binary32 l pos).2.mid_sentinel =
      (if l.numels % 2 ≠ 0 then
        if pos ≥ l.numels / 2 then (l.mem l.mid_sentinel).prev else l.mid_sentinel
      else
        if pos < l.numels / 2 then (l.mem l.mid_sentinel).next else l.mid_sentinel) ∧
    list_spares (list_delete_at_binary32 l pos).2 =
      (if l.spareelsnum < ACDLL_MAX_SPARE_ELEMS then
        list_spares l ++ [list_findpos_binary32 l (pos : Int)] else list_spares l) ∧
    (list_delete_at_binary32 l pos).2.spareelsnum =
      (if l.spareelsnum < ACDLL_MAX_SPARE_ELEMS then l.spareelsnum + 1 else l.spareelsnum) ∧
    (list_delete_at_binary32 l pos).2.numels = l.numels - 1 ∧
    (list_delete_at_binary32 l pos).2.iter_active = l.iter_active := by
  unfold list_delete_at_binary32 list_drop_elem
  rw [if_neg hok]
  simp only [if_neg htmp]
  split_ifs <;> (repeat' constructor) <;>
    first
      | rfl
      | (simp only [list_spares]; exact list_spares_push _ _ _)

/-- A deletion whose binary32 lookup finds the entry that the exact lookup
finds for the position `q`, in a list that differs from `l0` in the mid
pointer at most: the list after it is the list after the exact deletion at
`q`, but for the mid pointer. -/
theorem list_delete_at_binary32_as (l0 : list_t α) (m p q : Nat) (hidle : l0.iter_active = 0)
    (hp : p < l0.numels) (hq : q < l0.numels)
    (hfind : list_findpos_binary32 { l0 with mid_sentinel := m } (p : Int) =
      list_findpos l0 (q : Int))
    (hne : list_findpos l0 (q : Int) ≠ 0) :
    list_delete_at_binary32 { l0 with mid_sentinel := m } p =
      (0, { (list_delete_at l0 q).2 with mid_sentinel :=
        if l0.numels % 2 ≠ 0 then
          if p ≥ l0.numels / 2 then (l0.mem m).prev else m
        else
          if p < l0.numels / 2 then (l0.mem m).next else m }) := by
  unfold list_delete_at_binary32 list_delete_at list_drop_elem
  have g1 : ¬(l0.iter_active ≠ 0 ∨ p ≥ l0.numels) := by rw [hidle]; simp; omega
  have g2 : ¬(l0.iter_active ≠ 0 ∨ q ≥ l0.numels) := by rw [hidle]; simp; omega
  simp only [if_neg g1, if_neg g2, hfind, if_neg hne]
  split_ifs <;> rfl


/-- In a well-formed idle list of `2^24 + 1` entries, `list_delete_at` at
`2^23 - 1` does what the exact lookup would do at `2^23`, and it leaves the
mid pointer as it is. -/
theorem list_delete_at_binary32_half {l : list_t α} {body : List Nat} (h : Inv l body)
    (hidle : l.iter_active = 0) (hn : l.numels = 16777217) :
    list_delete_at_binary32 l 8388607 =
      (0, { (list_delete_at l 8388608).2 with mid_sentinel := l.mid_sentinel }) := by
  have hf1 := list_findpos_binary32_half l ((8388607 : Nat) : Int) hn rfl
  have hf2 := list_findpos_half l ((8388608 : Nat) : Int) hn rfl
  have hne := h.mid_ne_zero (by omega)
  have key := list_delete_at_binary32_as l l.mid_sentinel 8388607 8388608 hidle (by omega)
    (by omega) (hf1.trans hf2.symm) (by rw [hf2]; exact hne)
  have hif : (if l.numels % 2 ≠ 0 then
        if 8388607 ≥ l.numels / 2 then (l.mem l.mid_sentinel).prev else l.mid_sentinel
      else
        if 8388607 < l.numels / 2 then (l.mem l.mid_sentinel).next else l.mid_sentinel) =
      l.mid_sentinel := by
    rw [hn]; rfl
  rw [hif] at key
  exact key


/-- The entries of a well-formed list are pairwise distinct. -/
theorem Inv.body_nodup {l : list_t α} {body : List Nat} (h : Inv l body) : body.Nodup := by
  have h1 := (List.nodup_append.1 h.nodup).2.1
  unfold chain at h1
  exact (List.nodup_append.1 (List.nodup_cons.1 h1).2).1

/-- The example list has `2^24 + 1` elements. -/
theorem long_example_length : long_example.length = 16777217 :=
  (List.length_map _ _).trans (List.length_range _)

/-- The elements of the example list. -/
theorem long_example_getElem? (i : Nat) (hi : i < 16777217) :
    long_example[i]? = some (some i) := by
  unfold long_example
  rw [List.getElem?_map, List.getElem?_range hi]
  rfl

/-- C2, the code at a failing input: on the list of `2^24 + 1 = 16777217`
elements built by `list_init` and as many `list_append`, with the quotient of
`list_findpos` computed in binary32 as the source does, `list_delete_at` at
position `2^23 - 1 = 8388607` returns 0 and decreases `numels` by one, but the
element removed is the one of index `8388608`: the sequence that results is
the old one without its element of index 8388608, which is not the old one
without its element of index 8388607 when these two elements differ. -/
theorem list_delete_at_binary32_wrong_index (xs : List (Option α))
    (hlen : xs.length = 16777217) :
    (list_delete_at_binary32 (list_of_appends xs) 8388607).1 = 0 ∧
    list_elements (list_delete_at_binary32 (list_of_appends xs) 8388607).2 =
      xs.eraseIdx 8388608 ∧
    (list_delete_at_binary32 (list_of_appends xs) 8388607).2.numels + 1 =
      (list_of_appends xs).numels ∧
    (xs[8388607]? ≠ xs[8388608]? →
      list_elements (list_delete_at_binary32 (list_of_appends xs) 8388607).2 ≠
        xs.eraseIdx 8388607) := by
  obtain ⟨⟨body, hb⟩, hel, hidle, -, hnum⟩ := list_of_appends_spec xs
  have hn : (list_of_appends xs).numels = 16777217 := hnum.trans hlen
  have hd := list_delete_at_binary32_half hb hidle hn
  have he : list_elements (list_delete_at_binary32 (list_of_appends xs) 8388607).2 =
      xs.eraseIdx 8388608 := by
    rw [hd]
    have := list_delete_at_elements hb hidle (show 8388608 < (list_of_appends xs).numels by omega)
    rw [hel] at this
    exact this
  obtain ⟨-, h2, -⟩ := list_delete_at_inv hb hidle
    (show 8388608 < (list_of_appends xs).numels by omega)
  refine ⟨by rw [hd], he, ?_, ?_⟩
  · rw [hd]
    show (list_delete_at (list_of_appends xs) 8388608).2.numels + 1 = _
    rw [h2.numels_eq, hb.numels_eq, List.length_eraseIdx]
    have := hb.numels_eq
    rw [if_pos (by omega)]
    omega
  · intro hne heq
    rw [he] at heq
    have h3 := congrArg (fun ys => ys[8388607]?) heq
    simp only [] at h3
    rw [List.getElem?_eraseIdx_of_lt _ _ _ (by decide),
      List.getElem?_eraseIdx_of_ge _ _ _ (le_refl _)] at h3
    exact hne h3

theorem list_delete_at_binary32_wrong_index_witness :
    long_example.length = 16777217 ∧
    ((list_delete_at_binary32 (list_of_appends long_example) 8388607).1 = 0 ∧
      list_elements (list_delete_at_binary32 (list_of_appends long_example) 8388607).2 =
        long_example.eraseIdx 8388608 ∧
      (list_delete_at_binary32 (list_of_appends long_example) 8388607).2.numels + 1 =
        (list_of_appends long_example).numels ∧
      (long_example[8388607]? ≠ long_example[8388608]? →
        list_elements (list_delete_at_binary32 (list_of_appends long_example) 8388607).2 ≠
          long_example.eraseIdx 8388607)) ∧
    long_example[8388607]? ≠ long_example[8388608]? :=
  ⟨long_example_length, list_delete_at_binary32_wrong_index long_example long_example_length,
    by
      rw [long_example_getElem? 8388607 (by decide), long_example_getElem? 8388608 (by decide)]
      decide⟩

/-- C3, the code at a failing input: on the list of `2^24 + 1` elements built
by `list_init` and as many `list_append`, with the quotient of `list_findpos`
computed in binary32 as the source does, after `list_delete_at` at position
`2^23 - 1 = 8388607` the list is not empty and the mid pointer is the entry
that was removed: it is none of the entries met from the head, and so not the
entry of index `(numels - 1) / 2`. -/
theorem mid_sentinel_binary32_stale (xs : List (Option α)) (hlen : xs.length = 16777217) :
    0 < (list_delete_at_binary32 (list_of_appends xs) 8388607).2.numels ∧
    (list_delete_at_binary32 (list_of_appends xs) 8388607).2.mid_sentinel ∉
      list_entries (list_delete_at_binary32 (list_of_appends xs) 8388607).2 ∧
    (list_entries (list_delete_at_binary32 (list_of_appends xs) 8388607).2)[
        ((list_delete_at_binary32 (list_of_appends xs) 8388607).2.numels - 1) / 2]? ≠
      some (list_delete_at_binary32 (list_of_appends xs) 8388607).2.mid_sentinel := by
  obtain ⟨⟨body, hb⟩, -, hidle, -, hnum⟩ := list_of_appends_spec xs
  have hn : (list_of_appends xs).numels = 16777217 := hnum.trans hlen
  have hd := list_delete_at_binary32_half hb hidle hn
  obtain ⟨-, h2, -⟩ := list_delete_at_inv hb hidle
    (show 8388608 < (list_of_appends xs).numels by omega)
  have hm := hb.mid (by omega)
  rw [hn] at hm
  have hlenb : body.length = 16777217 := by rw [← hb.numels_eq]; exact hn
  have hnot : (list_of_appends xs).mid_sentinel ∉ body.eraseIdx 8388608 := by
    intro hmem
    obtain ⟨i, hi, hib⟩ := List.mem_eraseIdx_iff_getElem?.1 hmem
    have := List.getElem?_inj (lt_length_of_getElem? hib) hb.body_nodup (hib.trans hm.symm)
    exact hi this
  have hent : list_entries (list_delete_at_binary32 (list_of_appends xs) 8388607).2 =
      body.eraseIdx 8388608 := by
    rw [hd]
    exact (list_entries_eq h2 :
      list_entries (list_delete_at (list_of_appends xs) 8388608).2 = body.eraseIdx 8388608)
  have hmid : (list_delete_at_binary32 (list_of_appends xs) 8388607).2.mid_sentinel =
      (list_of_appends xs).mid_sentinel := by
    rw [hd]
  rw [hent, hmid]
  refine ⟨?_, hnot, ?_⟩
  · rw [hd]
    show 0 < (list_delete_at (list_of_appends xs) 8388608).2.numels
    rw [h2.numels_eq, List.length_eraseIdx, if_pos (by omega)]
    omega
  · intro hc
    exact hnot (List.mem_iff_getElem?.2 ⟨_, hc⟩)

theorem mid_sentinel_binary32_stale_witness :
    long_example.length = 16777217 ∧
    (0 < (list_delete_at_binary32 (list_of_appends long_example) 8388607).2.numels ∧
    (list_delete_at_binary32 (list_of_appends long_example) 8388607).2.mid_sentinel ∉
      list_entries (list_delete_at_binary32 (list_of_appends long_example) 8388607).2 ∧
    (list_entries (list_delete_at_binary32 (list_of_appends long_example) 8388607).2)[
        ((list_delete_at_binary32 (list_of_appends long_example) 8388607).2.numels - 1) / 2]? ≠
      some (list_delete_at_binary32 (list_of_appends long_example) 8388607).2.mid_sentinel) :=
  ⟨long_example_length, mid_sentinel_binary32_stale long_example long_example_length⟩


/-- C29, the code at a failing input: on the list of `2^24 + 1` elements built
by `list_init` and as many `list_append` (its free-list is empty), with the
quotient of `list_findpos` computed in binary32 as the source does, two calls
of `list_delete_at` at position `2^23 - 1 = 8388607` both return 0 and both
give the same entry, the mid entry of the list, to the free-list: the
free-list then holds this entry twice and its entries are not pairwise
distinct. -/
theorem free_list_binary32_duplicate (xs : List (Option α)) (hlen : xs.length = 16777217) :
    (list_delete_at_binary32 (list_of_appends xs) 8388607).1 = 0 ∧
    (list_delete_at_binary32 (list_delete_at_binary32 (list_of_appends xs) 8388607).2
      8388607).1 = 0 ∧
    list_spares (list_of_appends xs) = [] ∧
    list_spares (list_delete_at_binary32 (list_delete_at_binary32 (list_of_appends xs)
      8388607).2 8388607).2 =
      [(list_of_appends xs).mid_sentinel, (list_of_appends xs).mid_sentinel] ∧
    ¬(list_spares (list_delete_at_binary32 (list_delete_at_binary32 (list_of_appends xs)
      8388607).2 8388607).2).Nodup := by
  obtain ⟨⟨body, hb⟩, -, hidle, hsp, hnum⟩ := list_of_appends_spec xs
  have hn : (list_of_appends xs).numels = 16777217 := hnum.trans hlen
  have hne := hb.mid_ne_zero (by omega)
  have hf1 := list_findpos_binary32_half (list_of_appends xs) ((8388607 : Nat) : Int) hn rfl
  have hs0 : list_spares (list_of_appends xs) = [] := by
    unfold list_spares; rw [hsp]; rfl
  obtain ⟨a1, a2, a3, a4, a5, a6⟩ := list_delete_at_binary32_fields (list_of_appends xs) 8388607
    (by rw [hidle, hn]; decide) (by rw [hf1]; exact hne)
  rw [hn] at a2 a5
  rw [hsp, hf1, hs0] at a3
  rw [hsp] at a4
  have b2 : (list_delete_at_binary32 (list_of_appends xs) 8388607).2.mid_sentinel =
      (list_of_appends xs).mid_sentinel := a2
  have b3 : list_spares (list_delete_at_binary32 (list_of_appends xs) 8388607).2 =
      [(list_of_appends xs).mid_sentinel] := a3
  have b4 : (list_delete_at_binary32 (list_of_appends xs) 8388607).2.spareelsnum = 1 := a4
  have b5 : (list_delete_at_binary32 (list_of_appends xs) 8388607).2.numels = 16777216 := a5
  have hf2 := list_findpos_binary32_pow (list_delete_at_binary32 (list_of_appends xs) 8388607).2
    ((8388607 : Nat) : Int) b5 rfl
  obtain ⟨c1, -, c3, -⟩ := list_delete_at_binary32_fields
    (list_delete_at_binary32 (list_of_appends xs) 8388607).2 8388607
    (by rw [a6, hidle, b5]; decide) (by rw [hf2, b2]; exact hne)
  rw [b4, hf2, b2, b3] at c3
  have d3 : list_spares (list_delete_at_binary32 (list_delete_at_binary32 (list_of_appends xs)
      8388607).2 8388607).2 =
      [(list_of_appends xs).mid_sentinel, (list_of_appends xs).mid_sentinel] := c3
  refine ⟨a1, c1, hs0, d3, ?_⟩
  rw [d3]
  simp

theorem free_list_binary32_duplicate_witness :
    long_example.length = 16777217 ∧
    ((list_delete_at_binary32 (list_of_appends long_example) 8388607).1 = 0 ∧
    (list_delete_at_binary32 (list_delete_at_binary32 (list_of_appends long_example) 8388607).2
      8388607).1 = 0 ∧
    list_spares (list_of_appends long_example) = [] ∧
    list_spares (list_delete_at_binary32 (list_delete_at_binary32 (list_of_appends long_example)
      8388607).2 8388607).2 =
      [(list_of_appends long_example).mid_sentinel,
        (list_of_appends long_example).mid_sentinel] ∧
    ¬(list_spares (list_delete_at_binary32 (list_delete_at_binary32
      (list_of_appends long_example) 8388607).2 8388607).2).Nodup) :=
  ⟨long_example_length, free_list_binary32_duplicate long_example long_example_length⟩


/-- In an idle list of `2^24 + 1` entries, `list_insert_at` at `2^23` links
the new entry where the exact lookup would link it for the position
`2^23 + 1`, and moves the mid pointer one entry back. -/
theorem list_insert_at_binary32_half (l : list_t α) (hidle : l.iter_active = 0)
    (hn : l.numels = 16777217) (e : Option α) (oom : Bool)
    (halloc : oom = false ∨ 0 < l.spareelsnum) :
    list_insert_at_binary32 l e 8388608 oom =
      (1, { (list_insert_at l e 8388609 oom).2 with mid_sentinel :=
          ((list_insert_at l e 8388609 oom).2.mem l.mid_sentinel).prev }) := by
  obtain ⟨lent, l1, hacq⟩ := list_insert_at_acquire_isSome l halloc
  have hn1 : l1.numels = 16777217 := by
    unfold list_insert_at_acquire at hacq
    split_ifs at hacq <;> cases hacq <;> exact hn
  have hm1 : l1.mid_sentinel = l.mid_sentinel := by
    unfold list_insert_at_acquire at hacq
    split_ifs at hacq <;> cases hacq <;> rfl
  have g1 : ¬(l.iter_active ≠ 0 ∨ 8388608 > l.numels) := by rw [hidle, hn]; decide
  have g2 : ¬(l.iter_active ≠ 0 ∨ 8388609 > l.numels) := by rw [hidle, hn]; decide
  unfold list_insert_at_binary32 list_insert_at
  rw [if_neg g1, if_neg g2, hacq]
  simp only []
  have hf1 := list_findpos_binary32_half { l1 with mem := set_data l1.mem lent e }
    (((8388608 : Nat) : Int) - 1) hn1 (by decide)
  have hf2 := list_findpos_half { l1 with mem := set_data l1.mem lent e }
    (((8388609 : Nat) : Int) - 1) hn1 (by decide)
  unfold list_insert_at_link_binary32 list_insert_at_link
  simp only [] at hf1 hf2 ⊢
  rw [hf1, hf2, hn1, ← hm1]
  rfl


/-- C1, the code at a failing input: on the list of `2^24 + 1 = 16777217`
elements built by `list_init` and as many `list_append`, with the quotient of
`list_findpos` computed in binary32 as the source does, `list_insert_at` at
position `2^23 = 8388608` (no `malloc` failing) returns 1 and increases
`numels` by one, but the element is inserted at index `8388609`: the sequence
that results is `old[0..8388609) ++ [e] ++ old[8388609..)`, which is not
`old[0..8388608) ++ [e] ++ old[8388608..)` when the old element of index
8388608 is not `e`. -/
theorem list_insert_at_binary32_wrong_index (xs : List (Option α))
    (hlen : xs.length = 16777217) (e : Option α) :
    (list_insert_at_binary32 (list_of_appends xs) e 8388608 false).1 = 1 ∧
    list_elements (list_insert_at_binary32 (list_of_appends xs) e 8388608 false).2 =
      xs.take 8388609 ++ [e] ++ xs.drop 8388609 ∧
    (list_insert_at_binary32 (list_of_appends xs) e 8388608 false).2.numels =
      (list_of_appends xs).numels + 1 ∧
    (xs[8388608]? ≠ some e →
      list_elements (list_insert_at_binary32 (list_of_appends xs) e 8388608 false).2 ≠
        xs.take 8388608 ++ [e] ++ xs.drop 8388608) := by
  obtain ⟨⟨body, hb⟩, hel, hidle, -, hnum⟩ := list_of_appends_spec xs
  have hn : (list_of_appends xs).numels = 16777217 := hnum.trans hlen
  have hi := list_insert_at_binary32_half (list_of_appends xs) hidle hn e false (Or.inl rfl)
  have hpos : 8388609 ≤ (list_of_appends xs).numels := by omega
  have he : list_elements (list_insert_at_binary32 (list_of_appends xs) e 8388608 false).2 =
      xs.take 8388609 ++ [e] ++ xs.drop 8388609 := by
    rw [hi]
    have := list_insert_at_elements hb hidle hpos (Or.inl rfl) e
    rw [hel] at this
    exact this
  obtain ⟨lent, -, -, h2, -⟩ := list_insert_at_inv hb hidle hpos (Or.inl rfl) e
  refine ⟨by rw [hi], he, ?_, ?_⟩
  · rw [hi]
    show (list_insert_at (list_of_appends xs) e 8388609 false).2.numels = _
    rw [h2.numels_eq, hb.numels_eq]
    have := hb.numels_eq
    simp
    omega
  · intro hne heq
    rw [he] at heq
    have h3 := congrArg (fun ys => ys[8388608]?) heq
    simp only [] at h3
    rw [List.getElem?_append_left (by simp; omega),
      List.getElem?_append_left (by simp; omega), List.getElem?_take, if_pos (by decide),
      List.getElem?_append_left (by simp; omega),
      List.getElem?_append_right (by simp)] at h3
    apply hne
    rw [h3]
    simp [hlen]

theorem list_insert_at_binary32_wrong_index_witness :
    long_example.length = 16777217 ∧
    ((list_insert_at_binary32 (list_of_appends long_example) (some 7) 8388608 false).1 = 1 ∧
      list_elements (list_insert_at_binary32 (list_of_appends long_example) (some 7) 8388608
        false).2 = long_example.take 8388609 ++ [some 7] ++ long_example.drop 8388609 ∧
      (list_insert_at_binary32 (list_of_appends long_example) (some 7) 8388608 false).2.numels =
        (list_of_appends long_example).numels + 1 ∧
      (long_example[8388608]? ≠ some (some 7) →
        list_elements (list_insert_at_binary32 (list_of_appends long_example) (some 7) 8388608
          false).2 ≠ long_example.take 8388608 ++ [some 7] ++ long_example.drop 8388608)) ∧
    long_example[8388608]? ≠ some (some 7) :=
  ⟨long_example_length,
    list_insert_at_binary32_wrong_index long_example long_example_length (some 7),
    by
      rw [long_example_getElem? 8388608 (by decide)]
      decide⟩


/-- C5, the code at a failing input: on the list of `2^24 + 1` elements built
by `list_init` and as many `list_append`, with the quotient of `list_findpos`
computed in binary32 as the source does, `list_insert_at` at position
`2^23 = 8388608` followed by `list_delete_at` at the same position both
succeed and give back the count, but not the sequence: the element is inserted
at index 8388609 and the element removed is the old one of index 8388607, so
that the sequence that results is
`(old[0..8388609) ++ [e] ++ old[8388609..))` without its element of index
8388607, which has `e` at index 8388608 and is not the old sequence when the
old element of index 8388608 is not `e`. -/
theorem list_insert_delete_binary32_differs (xs : List (Option α))
    (hlen : xs.length = 16777217) (e : Option α) :
    (list_insert_at_binary32 (list_of_appends xs) e 8388608 false).1 = 1 ∧
    (list_delete_at_binary32 (list_insert_at_binary32 (list_of_appends xs) e 8388608 false).2
      8388608).1 = 0 ∧
    (list_delete_at_binary32 (list_insert_at_binary32 (list_of_appends xs) e 8388608 false).2
      8388608).2.numels = (list_of_appends xs).numels ∧
    list_elements (list_delete_at_binary32
      (list_insert_at_binary32 (list_of_appends xs) e 8388608 false).2 8388608).2 =
      (xs.take 8388609 ++ [e] ++ xs.drop 8388609).eraseIdx 8388607 ∧
    (xs[8388608]? ≠ some e →
      list_elements (list_delete_at_binary32
        (list_insert_at_binary32 (list_of_appends xs) e 8388608 false).2 8388608).2 ≠ xs) := by
  obtain ⟨⟨body, hb⟩, hel, hidle, -, hnum⟩ := list_of_appends_spec xs
  have hn : (list_of_appends xs).numels = 16777217 := hnum.trans hlen
  have hlenb : body.length = 16777217 := by rw [← hb.numels_eq]; exact hn
  have hi := list_insert_at_binary32_half (list_of_appends xs) hidle hn e false (Or.inl rfl)
  have hpos : 8388609 ≤ (list_of_appends xs).numels := by omega
  have hel1 := list_insert_at_elements hb hidle hpos (Or.inl rfl) e
  rw [hel] at hel1
  obtain ⟨lent, -, -, h2, -, h4, -⟩ := list_insert_at_inv hb hidle hpos (Or.inl rfl) e
  have hlen2 : (body.take 8388609 ++ lent :: body.drop 8388609).length = 16777218 := by
    simp; omega
  have hn2 : (list_insert_at (list_of_appends xs) e 8388609 false).2.numels = 16777218 := by
    rw [h2.numels_eq]; exact hlen2
  have hidle2 : (list_insert_at (list_of_appends xs) e 8388609 false).2.iter_active = 0 :=
    h4.trans hidle
  -- the mid entry of the old list and the entry before it
  have hm := hb.mid (by omega)
  rw [hn] at hm
  have hM : (body.take 8388609 ++ lent :: body.drop 8388609)[8388608]? =
      some (list_of_appends xs).mid_sentinel := by
    rw [List.getElem?_append_left (by simp; omega), List.getElem?_take, if_pos (by decide)]
    exact hm
  obtain ⟨a, ha⟩ : ∃ a, (body.take 8388609 ++ lent :: body.drop 8388609)[8388607]? = some a :=
    exists_getElem?_of_lt (by rw [hlen2]; decide)
  have hprev := (h2.linked 8388608 a (list_of_appends xs).mid_sentinel
    (chain_succ _ _ ha) (chain_succ _ _ hM)).2
  have ha0 : a ≠ 0 :=
    (h2.valid a (List.mem_append_right _ (List.mem_iff_getElem?.2 ⟨_, chain_succ _ _ ha⟩))).1
  have hfe := list_findpos_spec h2 8388608 (by rw [hn2]; decide)
  rw [chain_succ _ _ ha] at hfe
  have hfe1 : list_findpos (list_insert_at (list_of_appends xs) e 8388609 false).2
      ((8388607 : Nat) : Int) = a := (Option.some.inj hfe).symm
  have hfb := list_findpos_binary32_even
    { (list_insert_at (list_of_appends xs) e 8388609 false).2 with mid_sentinel :=
        ((list_insert_at (list_of_appends xs) e 8388609 false).2.mem
          (list_of_appends xs).mid_sentinel).prev } ((8388608 : Nat) : Int) hn2 rfl
  have hd := list_delete_at_binary32_as (list_insert_at (list_of_appends xs) e 8388609 false).2
    (((list_insert_at (list_of_appends xs) e 8388609 false).2.mem
      (list_of_appends xs).mid_sentinel).prev) 8388608 8388607 hidle2
    (by rw [hn2]; decide) (by rw [hn2]; decide)
    (by rw [hfb, hfe1]; exact hprev) (by rw [hfe1]; exact ha0)
  have hel2 := list_delete_at_elements h2 hidle2
    (show 8388607 < (list_insert_at (list_of_appends xs) e 8388609 false).2.numels by
      rw [hn2]; decide)
  rw [hel1] at hel2
  obtain ⟨-, h5, -⟩ := list_delete_at_inv h2 hidle2
    (show 8388607 < (list_insert_at (list_of_appends xs) e 8388609 false).2.numels by
      rw [hn2]; decide)
  have he : list_elements (list_delete_at_binary32
      (list_insert_at_binary32 (list_of_appends xs) e 8388608 false).2 8388608).2 =
      (xs.take 8388609 ++ [e] ++ xs.drop 8388609).eraseIdx 8388607 := by
    rw [hi, hd]
    exact hel2
  refine ⟨by rw [hi], by rw [hi, hd], ?_, he, ?_⟩
  · rw [hi, hd]
    show (list_delete_at (list_insert_at (list_of_appends xs) e 8388609 false).2
      8388607).2.numels = _
    rw [h5.numels_eq, List.length_eraseIdx, hlen2, if_pos (by decide), hn]
  · intro hne heq
    rw [he] at heq
    have h3 := congrArg (fun ys => ys[8388608]?) heq
    simp only [] at h3
    rw [List.getElem?_eraseIdx_of_ge _ _ _ (by decide),
      List.getElem?_append_left (by simp; omega),
      List.getElem?_append_right (by simp)] at h3
    apply hne
    rw [← h3]
    simp [hlen]

theorem list_insert_delete_binary32_differs_witness :
    long_example.length = 16777217 ∧
    ((list_insert_at_binary32 (list_of_appends long_example) (some 7) 8388608 false).1 = 1 ∧
    (list_delete_at_binary32 (list_insert_at_binary32 (list_of_appends long_example) (some 7)
      8388608 false).2 8388608).1 = 0 ∧
    (list_delete_at_binary32 (list_insert_at_binary32 (list_of_appends long_example) (some 7)
      8388608 false).2 8388608).2.numels = (list_of_appends long_example).numels ∧
    list_elements (list_delete_at_binary32
      (list_insert_at_binary32 (list_of_appends long_example) (some 7) 8388608 false).2
        8388608).2 =
      (long_example.take 8388609 ++ [some 7] ++ long_example.drop 8388609).eraseIdx 8388607 ∧
    (long_example[8388608]? ≠ some (some 7) →
      list_elements (list_delete_at_binary32
        (list_insert_at_binary32 (list_of_appends long_example) (some 7) 8388608 false).2
          8388608).2 ≠ long_example)) ∧
    long_example[8388608]? ≠ some (some 7) :=
  ⟨long_example_length,
    list_insert_delete_binary32_differs long_example long_example_length (some 7),
    by
      rw [long_example_getElem? 8388608 (by decide)]
      decide⟩


/-! ## Restoring a truncated file into any destination -/

set_option maxRecDepth 1000000 in
/-- C39, the code at a failing input: the restaurant list holds 25 restaurants
that `restaurant_insert` appended from the farthest (distance 99) to the
nearest (distance 75), and for the restaurant of index 12 `distance()` returns
NaN. `random()` returns 12, so that the quicksort of `list_sort` takes this
restaurant as pivot. `fn_comparator_restaurant_distance` returns 0 for the
pivot against every restaurant, the partition exchanges nothing, and the two
sides of the pivot are sorted each on its own: after `restaurant_list_sort`
the restaurants at the distances 88 to 99 come before the restaurants at the
distances 75 to 86, and the list is not from the nearest to the farthest. -/
theorem restaurant_list_sort_nan_unordered :
    (list_elements example_positions.list_restaurants).map
        (fun p => example_distance (example_positions.heap (p.getD 0))) =
      [some 99, some 98, some 97, some 96, some 95, some 94, some 93, some 92, some 91,
        some 90, some 89, some 88, none, some 86, some 85, some 84, some 83, some 82, some 81,
        some 80, some 79, some 78, some 77, some 76, some 75] ∧
    example_positions.list_restaurants.numels = 25 ∧
    example_positions.list_restaurants.iter_active = 0 ∧
    (restaurant_list_sort example_distance 27 (fun _ => 12) example_positions).map
        (fun r => (list_elements r.1.list_restaurants).map
          (fun p => example_distance (example_positions.heap (p.getD 0)))) =
      some [some 88, some 89, some 90, some 91, some 92, some 93, some 94, some 95, some 96,
        some 97, some 98, some 99, none, some 75, some 76, some 77, some 78, some 79, some 80,
        some 81, some 82, some 83, some 84, some 85, some 86] ∧
    (∀ a b : Option Nat,
      fn_comparator_restaurant_distance example_distance example_positions.heap (some 113) a
        = 0 ∧
      fn_comparator_restaurant_distance example_distance example_positions.heap b (some 113)
        = 0) := by
  refine ⟨by decide, by decide, by decide, by decide, ?_⟩
  intro a b
  have h : example_distance (example_positions.heap ((some 113 : Option Nat).getD 0)) = none := by
    decide
  constructor
  · simp only [fn_comparator_restaurant_distance, h, double_lt]
    cases example_distance (example_positions.heap (a.getD 0)) <;> rfl
  · simp only [fn_comparator_restaurant_distance, h, double_lt]
    cases example_distance (example_positions.heap (b.getD 0)) <;> rfl

/-- On a reachable list of fewer than `2^23` entries with no iteration
active, `list_insert_at` and `list_delete_at` with the binary32 quotient of
the source do what the positions ask: the element is inserted at the index
`pos`, the element of index `pos` is removed. -/
theorem list_ops_binary32_small (l : list_t α) (hr : Reachable l) (hidle : l.iter_active = 0)
    (hn : l.numels < 2 ^ 23) (pos : Nat) (e : Option α) (oom : Bool)
    (halloc : oom = false ∨ 0 < l.spareelsnum) :
    (pos ≤ l.numels →
      (list_insert_at_binary32 l e pos oom).1 = 1 ∧
      list_elements (list_insert_at_binary32 l e pos oom).2 =
        (list_elements l).take pos ++ [e] ++ (list_elements l).drop pos) ∧
    (pos < l.numels →
      (list_delete_at_binary32 l pos).1 = 0 ∧
      list_elements (list_delete_at_binary32 l pos).2 = (list_elements l).eraseIdx pos) := by
  obtain ⟨h1, h2⟩ := list_ops_binary32_eq l hn e pos oom
  rw [h1, h2]
  constructor
  · intro hpos
    obtain ⟨g1, g2, -⟩ := list_insert_at_correct l hr hidle pos hpos e oom halloc
    exact ⟨g1, g2⟩
  · intro hpos
    obtain ⟨g1, g2, -⟩ := list_delete_at_correct l hr hidle pos hpos
    exact ⟨g1, g2⟩


set_option maxRecDepth 100000 in
/-- Values of the binary32 embedding: `2^24 + 1` rounds to `2^24` and
`2^24 + 3` to `2^24 + 4`; the quotient of 1 by 3 is `11184811 / 2^25`, the
binary32 number `0.333333343267...`; the quotient of `2^23` by `2^24 + 1` is
0.5, and the quotient of `2^23 - 1` by `2^24 + 1` is `16777214 / 2^25`, below
0.5. -/
theorem binary32_quotient_examples :
    binary32_of_nat 16777217 = 16777216 ∧ binary32_of_nat 16777219 = 16777220 ∧
    binary32_quotient 1 3 = some (11184811 * 2 ^ 39) ∧
    binary32_quotient 8388608 16777217 = some (2 ^ 63) ∧
    binary32_quotient 8388607 16777217 = some (16777214 * 2 ^ 39) ∧
    ratio_lt_binary32 8388608 16777217 1 2 = false ∧
    ratio_lt 8388608 16777217 1 2 = true := by
  decide

end Acdll
